import Mathlib

/-!
# Verification of the DAG tiling scheduler (sol-2 optimized solver)

Shallow embedding of the Go sources:
`evaluate.go`, `graph_analysis.go`, `solver.go`, `retention.go`, `types.go`,
`util.go` and the granularity / schedule / fusion files.

Modelling conventions:
* Go `int` / `int64` become `Int`; Go `/` on integers is `Int.tdiv` and `%`
  is `Int.tmod` (truncation toward zero, as in Go).
* Go `float64` becomes `ℚ`; the value `math.Inf(1)` is represented by `none`
  in `Option ℚ` at the places where the sources use it as a sentinel.
* Go maps become lists in first-insertion (canonical) order.  Go's map
  iteration order is unspecified at runtime; wherever that order can reach
  the output of the program (the ready list of the scheduler) it is made an
  explicit parameter, elsewhere iteration only feeds commutative sums or
  set-membership, for which the canonical order is equivalent.
* Go slice indexing becomes `getD`; the sources only index in bounds for
  well-formed problems (`WFProblem` below).
* Errors (`error` results) become `none : Option ℚ`.
-/

set_option maxRecDepth 20000

namespace DagOpt

/-- Go `CeilDiv` from util.go: `(a + b - 1) / b` with Go integer division. -/
def CeilDiv (a b : Int) : Int := (a + b - 1).tdiv b

/-- Go `MaxInt` from util.go. -/
def MaxInt (a b : Int) : Int := if a > b then a else b

/-- Go `MinInt` from util.go. -/
def MinInt (a b : Int) : Int := if a < b then a else b

/-- Go `MaxFloat` from util.go, on the rational model of float64. -/
def MaxFloat (a b : ℚ) : ℚ := if a > b then a else b

/-- Keep the first occurrence of every element (Go map insertion). -/
def dedupKeep {α : Type} [DecidableEq α] (l : List α) : List α :=
  l.foldl (fun acc t => if t ∈ acc then acc else acc ++ [t]) []

/-- Addition on float64-with-infinity: `none` is `+∞`. -/
def oadd : Option ℚ → Option ℚ → Option ℚ
  | some a, some b => some (a + b)
  | _, _ => none

/-- Strict `<` on float64-with-infinity (`none` is `+∞`; `∞ < ∞` is false). -/
def olt : Option ℚ → Option ℚ → Bool
  | some a, some b => decide (a < b)
  | some _, none => true
  | none, _ => false

/-- `Tensor` from types.go. -/
structure Tensor where
  width : Int
  height : Int
deriving DecidableEq, Repr

/-- `Op` from types.go. -/
structure Op where
  opType : String
  inputs : List Nat
  outputs : List Nat
  baseCost : Int
deriving DecidableEq, Repr

/-- `Problem` from types.go. -/
structure Problem where
  tensors : List Tensor
  ops : List Op
  fastMemoryCapacity : Int
  slowMemoryBandwidth : Int
  nativeGranularity : Int × Int
deriving DecidableEq, Repr

/-- A `[3]int` granularity (w, h, k). -/
structure Gran where
  w : Int
  h : Int
  k : Int
deriving DecidableEq, Repr

/-- `Subgraph` from types.go. -/
structure Subgraph where
  ops : List Nat
  granularity : Gran
  tensorsToRetain : List Nat
  traversalOrder : List Int
  subgraphLatency : ℚ
deriving DecidableEq, Repr

/-- `Solution` from types.go. -/
structure Solution where
  subgraphs : List Subgraph
deriving DecidableEq, Repr

/-- Bounds-checked tensor access (`p.Tensors[t]`). -/
def tensorAt (p : Problem) (t : Nat) : Tensor := p.tensors.getD t ⟨0, 0⟩

/-- Bounds-checked op access (`p.Ops[i]`). -/
def opAt (p : Problem) (i : Nat) : Op := p.ops.getD i ⟨"", [], [], 0⟩

/-! ## graph_analysis.go -/

/-- `gi.ProducerOf[t]`: a later op's assignment overwrites an earlier one. -/
def producerOf (p : Problem) (t : Nat) : Option Nat :=
  (List.range p.ops.length).foldl
    (fun acc i => if t ∈ (opAt p i).outputs then some i else acc) none

/-- `gi.ConsumersOf[t]`: op `i` is appended once per occurrence of `t` in its
inputs, ops in ascending order. -/
def consumersOf (p : Problem) (t : Nat) : List Nat :=
  (List.range p.ops.length).flatMap
    (fun i => ((opAt p i).inputs.filter (· = t)).map (fun _ => i))

/-- `gi.Dependencies[i]`: producers of the op's inputs, first occurrence kept
(the `seen` guard in `AnalyzeGraph`). -/
def dependenciesOf (p : Problem) (i : Nat) : List Nat :=
  dedupKeep ((opAt p i).inputs.filterMap (producerOf p))

/-- `gi.Dependents[j]`: ops depending on `j`, in ascending order (the order in
which `AnalyzeGraph` appends them). -/
def dependentsOf (p : Problem) (j : Nat) : List Nat :=
  (List.range p.ops.length).filter (fun i => j ∈ dependenciesOf p i)

/-- Kahn's queue loop of `topologicalSort`.  The fuel bounds the number of
dequeues, which in Go is at most the number of enqueues. -/
def kahnLoop (p : Problem) : Nat → List Nat → (Nat → Int) → List Nat → List Nat
  | 0, _, _, order => order
  | _ + 1, [], _, order => order
  | fuel + 1, node :: rest, inDeg, order =>
    let deps := dependentsOf p node
    let inDeg' := fun d => if d ∈ deps then inDeg d - 1 else inDeg d
    let newly := deps.filter (fun d => inDeg' d = 0)
    kahnLoop p fuel (rest ++ newly) inDeg' (order ++ [node])

/-- `topologicalSort` from graph_analysis.go (Kahn, FIFO queue, zero-indegree
nodes enqueued in ascending index order). -/
def topologicalSort (p : Problem) : List Nat :=
  let n := p.ops.length
  let fuel := n + (List.range n).foldl (fun a i => a + (dependentsOf p i).length) 0 + 1
  kahnLoop p fuel
    ((List.range n).filter (fun i => (dependenciesOf p i).length = 0))
    (fun i => ((dependenciesOf p i).length : Int)) []

/-- `SubgraphBoundary` from graph_analysis.go; sets as lists in canonical
first-insertion order. -/
structure SubgraphBoundary where
  boundaryInputs : List Nat
  boundaryOutputs : List Nat
  ephemeral : List Nat
  allConsumed : List Nat
  allProduced : List Nat
deriving Repr

/-- `GetSubgraphBoundary` from graph_analysis.go. -/
def GetSubgraphBoundary (p : Problem) (ops : List Nat) : SubgraphBoundary :=
  let produced := dedupKeep (ops.flatMap (fun i => (opAt p i).outputs))
  let consumed := dedupKeep (ops.flatMap (fun i => (opAt p i).inputs))
  let eph := produced.filter (· ∈ consumed)
  let bin := consumed.filter (· ∉ produced)
  let bout := produced.filter (· ∉ eph)
  ⟨bin, bout, eph, consumed, produced⟩

/-- The chain-extension loop of `FindLinearChains`: returns the extension of
the chain past `current` together with the updated visited set. -/
def chainExtend (p : Problem) : Nat → List Nat → Nat → List Nat × List Nat
  | 0, visited, _ => ([], visited)
  | fuel + 1, visited, current =>
    let op := opAt p current
    if op.outputs.length = 1 then
      let outT := op.outputs.getD 0 0
      let consumers := consumersOf p outT
      if consumers.length = 1 then
        let next := consumers.getD 0 0
        if next ∈ visited then ([], visited)
        else
          let r := chainExtend p fuel (visited ++ [next]) next
          (next :: r.1, r.2)
      else ([], visited)
    else ([], visited)

/-- One iteration of the outer loop of `FindLinearChains`: an unvisited op
starts a new chain, extended by `chainExtend`; the state is
(visited, chains). -/
def chainsStep (p : Problem) (st : List Nat × List (List Nat)) (opIdx : Nat) :
    List Nat × List (List Nat) :=
  if opIdx ∈ st.1 then st
  else
    let r := chainExtend p p.ops.length (st.1 ++ [opIdx]) opIdx
    (r.2, st.2 ++ [opIdx :: r.1])

/-- `FindLinearChains` from graph_analysis.go. -/
def FindLinearChains (p : Problem) : List (List Nat) :=
  ((topologicalSort p).foldl (chainsStep p) ([], [])).2

/-- Worklist closure for `AllAncestorOps` (order-insensitive; only membership
is ever used). -/
def ancestorsAux (p : Problem) : Nat → List Nat → List Nat → List Nat
  | 0, acc, _ => acc
  | _ + 1, acc, [] => acc
  | fuel + 1, acc, d :: rest =>
    if d ∈ acc then ancestorsAux p fuel acc rest
    else ancestorsAux p fuel (d :: acc) (rest ++ dependenciesOf p d)

/-- `AllAncestorOps` from graph_analysis.go. -/
def AllAncestorOps (p : Problem) (opIdx : Nat) : List Nat :=
  ancestorsAux p ((p.ops.length + 1) * (p.ops.length + 1))
    [] (dependenciesOf p opIdx)

/-- `isTopologicallyValid` from graph_analysis.go. -/
def isTopologicallyValid (p : Problem) (ops : List Nat) : Bool :=
  ops.all (fun op =>
    (dependenciesOf p op).all (fun dep =>
      if dep ∈ ops then true
      else
        let depAncestors := AllAncestorOps p dep
        ops.all (fun other => other = op ∨ other ∉ depAncestors)))

/-- `canFuseGroups` from graph_analysis.go. -/
def canFuseGroups (p : Problem) (g1 g2 : List Nat) : Bool :=
  isTopologicallyValid p (g1 ++ g2)

/-- `sortOpsTopologically` from graph_analysis.go (stable sort by global
topological position; missing ops get Go's zero value 0). -/
def sortOpsTopologically (p : Problem) (ops : List Nat) : List Nat :=
  let topo := topologicalSort p
  let orderMap := fun op => ((topo.indexOf? op).getD 0 : Nat)
  ops.mergeSort (fun a b => !(decide (orderMap b < orderMap a)))

/-! ## evaluate.go -/

/-- First op of `ops` consuming `tensorIdx`, with the op type and the position
of the first matching input (the double loop shared by `InputTileSize` and
`InputTileRole`). -/
def inputRolePos (p : Problem) (ops : List Nat) (tensorIdx : Nat) : Option (String × Nat) :=
  ops.findSome? (fun opIdx =>
    let op := opAt p opIdx
    (op.inputs.findIdx? (· = tensorIdx)).map (fun pos => (op.opType, pos)))

/-- `InputTileSize` from evaluate.go. -/
def InputTileSize (p : Problem) (ops : List Nat) (tensorIdx : Nat) (w h k : Int) : Int :=
  match inputRolePos p ops tensorIdx with
  | some (ty, pos) =>
    if ty = "MatMul" then (if pos = 0 then k * h else w * k) else w * h
  | none => w * h

/-- `InputTileRole` from evaluate.go. -/
def InputTileRole (p : Problem) (ops : List Nat) (tensorIdx : Nat) : String :=
  match inputRolePos p ops tensorIdx with
  | some (ty, pos) =>
    if ty = "MatMul" then (if pos = 0 then "LHS" else "RHS") else "PW"
  | none => "PW"

/-- `FullTensorSize` from evaluate.go. -/
def FullTensorSize (p : Problem) (tIdx : Nat) : Int :=
  (tensorAt p tIdx).width * (tensorAt p tIdx).height

/-- `ComputeWorkingSet` from evaluate.go. -/
def ComputeWorkingSet (p : Problem) (ops : List Nat) (gran : Gran)
    (residentTensors : List Nat) : Int :=
  let b := GetSubgraphBoundary p ops
  let ws1 := b.boundaryInputs.foldl
    (fun acc t =>
      if t ∈ residentTensors then acc + FullTensorSize p t
      else acc + InputTileSize p ops t gran.w gran.h gran.k) 0
  let ws2 := ws1 + gran.w * gran.h * (b.boundaryOutputs.length : Int)
  ws2 + (dedupKeep residentTensors).foldl
    (fun acc t =>
      if t ∈ b.boundaryInputs ∨ t ∈ b.allProduced then acc
      else acc + FullTensorSize p t) 0

/-- `ComputeWorkingSetWithRetained` from evaluate.go. -/
def ComputeWorkingSetWithRetained (p : Problem) (ops : List Nat) (gran : Gran)
    (residentTensors : List Nat) (retainedAfter : List Nat) : Int :=
  let ws := ComputeWorkingSet p ops gran residentTensors
  let b := GetSubgraphBoundary p ops
  retainedAfter.foldl
    (fun acc t =>
      if t ∈ b.boundaryOutputs then
        let fullSize := FullTensorSize p t
        let tileSize := gran.w * gran.h
        if fullSize > tileSize then acc + (fullSize - tileSize) else acc
      else acc) ws

/-- `GetMaxK` from evaluate.go. -/
def GetMaxK (p : Problem) (ops : List Nat) : Int :=
  ops.foldl
    (fun mk i =>
      let op := opAt p i
      if op.opType = "MatMul" then
        let lhs := tensorAt p (op.inputs.getD 0 0)
        if lhs.width > mk then lhs.width else mk
      else mk) 1

/-- `GetOutputTensor` from evaluate.go (`ops[len(ops)-1]`, first output). -/
def GetOutputTensor (p : Problem) (ops : List Nat) : Nat :=
  (opAt p (ops.getLastD 0)).outputs.getD 0 0

/-- `HasMatMul` from evaluate.go. -/
def HasMatMul (p : Problem) (ops : List Nat) : Bool :=
  ops.any (fun opIdx => (opAt p opIdx).opType = "MatMul")

/-- `tileInputInfo` from evaluate.go. -/
structure TileInputInfo where
  tensorIdx : Nat
  role : String
  tileSize : Int
  fullSize : Int
deriving Repr

/-- The boundary-input descriptors built at the top of
`EvaluateSubgraphDetailed` (order only feeds an integer sum). -/
def boundaryInputListOf (p : Problem) (ops : List Nat) (w h k : Int) : List TileInputInfo :=
  (GetSubgraphBoundary p ops).boundaryInputs.map
    (fun tIdx =>
      ⟨tIdx, InputTileRole p ops tIdx, InputTileSize p ops tIdx w h k,
        FullTensorSize p tIdx⟩)

/-- The bytes loaded by one `(step, kStep)` iteration of
`EvaluateSubgraphDetailed` (the inner double loop body). -/
def stepMemoryBytes (p : Problem) (ops : List Nat) (w h : Int)
    (infos : List TileInputInfo) (retainSet residentTensors : List Nat)
    (nKNat : Nat) (step kStep : Nat) (row col prevRow prevCol : Int) : Int :=
  let inBytes := infos.foldl
    (fun mb info =>
      if info.tensorIdx ∈ residentTensors then mb
      else
        let canReuse :=
          if step > 0 ∧ kStep = 0 then
            (info.role = "LHS" ∧ row = prevRow) ∨ (info.role = "RHS" ∧ col = prevCol)
          else if kStep > 0 then info.role = "PW"
          else False
        if canReuse then mb else mb + info.tileSize) 0
  if kStep = nKNat - 1 then
    inBytes + (GetSubgraphBoundary p ops).boundaryOutputs.foldl
      (fun acc t => if t ∈ retainSet then acc else acc + w * h) 0
  else inBytes

/-- The body of the spatial loop of `EvaluateSubgraphDetailed`: one spatial
step (inner k-step loop included); state is (accumulated latency, prevRow,
prevCol). -/
def spatialStep (p : Problem) (ops : List Nat) (w h : Int)
    (infos : List TileInputInfo) (tensorsToRetain residentTensors : List Nat)
    (trav : List Int) (nCols : Int) (nKNat : Nat) (computePerStep : Int)
    (bw : ℚ) (st : ℚ × Int × Int) (step : Nat) : ℚ × Int × Int :=
  let tileIdx := trav.getD step 0
  let row := tileIdx.tdiv nCols
  let col := tileIdx.tmod nCols
  let total := (List.range nKNat).foldl
    (fun t kStep =>
      let memoryBytes := stepMemoryBytes p ops w h infos tensorsToRetain
        residentTensors nKNat step kStep row col st.2.1 st.2.2
      t + MaxFloat (computePerStep : ℚ) ((memoryBytes : ℚ) / bw)) st.1
  (total, row, col)

/-- `EvaluateSubgraphDetailed` from evaluate.go; `none` models the error
returns. -/
def EvaluateSubgraphDetailed (p : Problem) (ops : List Nat) (gran : Gran)
    (tensorsToRetain : List Nat) (traversalOrder : List Int)
    (residentTensors : List Nat) : Option ℚ :=
  if ops = [] then none
  else if gran.w ≤ 0 ∨ gran.h ≤ 0 ∨ gran.k ≤ 0 then none
  else
    let w := gran.w
    let h := gran.h
    let k := gran.k
    let outT := tensorAt p (GetOutputTensor p ops)
    let nCols := CeilDiv outT.width w
    let nRows := CeilDiv outT.height h
    let nSpatial := nCols * nRows
    let maxK := GetMaxK p ops
    let nK := CeilDiv maxK k
    let computePerStep : Int := ops.foldl (fun acc i => acc + (opAt p i).baseCost) 0
    let bw : ℚ := (p.slowMemoryBandwidth : ℚ)
    let trav : List Int :=
      if traversalOrder.length = nSpatial.toNat then traversalOrder
      else (List.range nSpatial.toNat).map Int.ofNat
    let infos := boundaryInputListOf p ops w h k
    let final := (List.range nSpatial.toNat).foldl
      (spatialStep p ops w h infos tensorsToRetain residentTensors trav nCols
        nK.toNat computePerStep bw) (0, -1, -1)
    some final.1

/-- `QuickEstimate` from evaluate.go (`none` models the `math.Inf(1)`
returns). -/
def QuickEstimate (p : Problem) (ops : List Nat) (gran : Gran)
    (residentTensors : List Nat) : Option ℚ :=
  if ops = [] then none
  else if gran.w ≤ 0 ∨ gran.h ≤ 0 ∨ gran.k ≤ 0 then none
  else
    let w := gran.w
    let h := gran.h
    let k := gran.k
    let b := GetSubgraphBoundary p ops
    let outT := tensorAt p (GetOutputTensor p ops)
    let nCols := CeilDiv outT.width w
    let nRows := CeilDiv outT.height h
    let nSpatial := nCols * nRows
    let maxK := GetMaxK p ops
    let nK := CeilDiv maxK k
    let computePerStep : Int := ops.foldl (fun acc i => acc + (opAt p i).baseCost) 0
    let bw : ℚ := (p.slowMemoryBandwidth : ℚ)
    let totalMemory : ℚ := b.boundaryInputs.foldl
      (fun acc tIdx =>
        if tIdx ∈ residentTensors then acc
        else
          let role := InputTileRole p ops tIdx
          let tileSize : ℚ := (InputTileSize p ops tIdx w h k : ℚ)
          if role = "LHS" then acc + tileSize * (nRows : ℚ) * (nK : ℚ)
          else if role = "RHS" then acc + tileSize * (nCols : ℚ) * (nK : ℚ)
          else acc + tileSize * (nSpatial : ℚ)) 0
    let totalMemory := totalMemory +
      (b.boundaryOutputs.length : ℚ) * ((w * h : Int) : ℚ) * (nSpatial : ℚ)
    let totalCompute : ℚ := (computePerStep : ℚ) * (nSpatial : ℚ) * (nK : ℚ)
    some (MaxFloat totalCompute (totalMemory / bw))

/-- The residency-threaded loop of `EvaluateSolution`, returning the total
latency of the remaining subgraphs. -/
def EvaluateSolutionAux (p : Problem) : List Nat → List Subgraph → Option ℚ
  | _, [] => some 0
  | resident, sg :: rest =>
    let ws := ComputeWorkingSet p sg.ops sg.granularity resident
    if ws > p.fastMemoryCapacity then none
    else
      match EvaluateSubgraphDetailed p sg.ops sg.granularity sg.tensorsToRetain
        sg.traversalOrder resident with
      | none => none
      | some lat => (EvaluateSolutionAux p sg.tensorsToRetain rest).map (lat + ·)

/-- `EvaluateSolution` from evaluate.go. -/
def EvaluateSolution (p : Problem) (sol : Solution) : Option ℚ :=
  let covered := sol.subgraphs.flatMap (·.ops)
  if (List.range p.ops.length).all (· ∈ covered) then
    EvaluateSolutionAux p [] sol.subgraphs
  else none

/-! ## Granularity search (first file of `unnamed/part_002`) -/

/-- Values `start, start/2, …` while `≥ lo` (the halving loops; callers always
pass `lo ≥ 1`, for which the fuel is sufficient). -/
def halvingsDownTo (start lo : Int) : List Int :=
  halvingsAux start.toNat start lo
where
  halvingsAux : Nat → Int → Int → List Int
    | 0, _, _ => []
    | fuel + 1, v, lo => if v ≥ lo then v :: halvingsAux fuel (v.tdiv 2) lo else []

/-- Values `start, start*2, …` while `≤ limit` (the doubling loop of
`generateDimCandidates`; callers pass `start ≥ 2` for well-formed problems,
for which the fuel is sufficient). -/
def doublings (start limit : Int) : List Int :=
  doublingsAux (limit.toNat + 1) start limit
where
  doublingsAux : Nat → Int → Int → List Int
    | 0, _, _ => []
    | fuel + 1, v, limit => if v ≤ limit then v :: doublingsAux fuel (v * 2) limit else []

/-- Ascending sort of integers (`sort.Ints`). -/
def sortIntsAsc (l : List Int) : List Int :=
  l.mergeSort (fun a b => decide (a ≤ b))

/-- Descending sort of integers (`sort.Sort(sort.Reverse(...))`). -/
def sortIntsDesc (l : List Int) : List Int :=
  l.mergeSort (fun a b => decide (b ≤ a))

/-- `generateDimCandidates` from the granularity file. -/
def generateDimCandidates (native tensorSize : Int) : List Int :=
  let cands := [native]
    ++ doublings (native * 2) tensorSize
    ++ halvingsDownTo (native.tdiv 2) (MaxInt (native.tdiv 8) 1)
    ++ (if tensorSize > 0 then [tensorSize] else [])
    ++ (if native > 0 ∧ tensorSize.tmod native = 0 then [tensorSize] else [])
  sortIntsAsc ((dedupKeep cands).filter (fun v => 0 < v ∧ v ≤ tensorSize))

/-- `generateKCandidates` from the granularity file. -/
def generateKCandidates (maxK : Int) : List Int :=
  if maxK ≤ 1 then [1]
  else
    let cands := [maxK]
      ++ halvingsDownTo (maxK.tdiv 2) 1
      ++ ([32, 64, 128, 256, 512, 1024].filter (fun v => v ≤ maxK))
    (sortIntsDesc (dedupKeep cands)).take 8

/-- The `for lo <= hi` binary searches of `capacityDrivenCandidates`; returns
the final `hi`.  The interval shrinks strictly, so the fuel is sufficient. -/
def capBinSearch (f : Int → Int) (availCap : Int) : Nat → Int → Int → Int
  | 0, _, hi => hi
  | fuel + 1, lo, hi =>
    if lo ≤ hi then
      let mid := (lo + hi).tdiv 2
      if f mid ≤ availCap then capBinSearch f availCap fuel (mid + 1) hi
      else capBinSearch f availCap fuel lo (mid - 1)
    else hi

/-- `capacityDrivenCandidates` from the granularity file. -/
def capacityDrivenCandidates (p : Problem) (ops : List Nat)
    (residentTensors : List Nat) (outW outH maxK : Int) (hasMatmul : Bool) :
    List Gran :=
  let b := GetSubgraphBoundary p ops
  let nw := p.nativeGranularity.1
  let nh := p.nativeGranularity.2
  let residentOverhead :=
    (dedupKeep residentTensors).foldl
      (fun acc t =>
        if t ∈ b.boundaryInputs ∨ t ∈ b.allProduced then acc
        else acc + FullTensorSize p t) 0
    + b.boundaryInputs.foldl
      (fun acc t => if t ∈ residentTensors then acc + FullTensorSize p t else acc) 0
  let availCap := p.fastMemoryCapacity - residentOverhead
  if hasMatmul then
    let numOut : Int := (b.boundaryOutputs.length : Int)
    let counts := b.boundaryInputs.foldl
      (fun (c : Int × Int × Int) tIdx =>
        if tIdx ∈ residentTensors then c
        else
          match InputTileRole p ops tIdx with
          | "LHS" => (c.1 + 1, c.2.1, c.2.2)
          | "RHS" => (c.1, c.2.1 + 1, c.2.2)
          | _ => (c.1, c.2.1, c.2.2 + 1)) (0, 0, 0)
    let numLHS := counts.1
    let numRHS := counts.2.1
    let numPW := counts.2.2
    [maxK, maxK.tdiv 2, maxK.tdiv 4].foldl
      (fun results k =>
        if k ≤ 0 then results
        else
          let hiW := capBinSearch
            (fun mid => numLHS * k * nh + numRHS * mid * k + (numPW + numOut) * mid * nh)
            availCap ((outW - nw).toNat + 1) nw outW
          let results := if hiW ≥ nw then results ++ [⟨MinInt hiW outW, nh, k⟩] else results
          let hiH := capBinSearch
            (fun mid => numLHS * k * mid + numRHS * nw * k + (numPW + numOut) * nw * mid)
            availCap ((outH - nh).toNat + 1) nh outH
          if hiH ≥ nh then results ++ [⟨nw, MinInt hiH outH, k⟩] else results) []
  else
    let numIO : Int := (b.boundaryInputs.length : Int) + (b.boundaryOutputs.length : Int)
      - b.boundaryInputs.foldl (fun acc t => if t ∈ residentTensors then acc + 1 else acc) 0
    if numIO > 0 then
      let maxTileSize := availCap.tdiv numIO
      if maxTileSize > 0 then
        let s := ((Nat.sqrt maxTileSize.toNat : Nat) : Int)
        let s := (s.tdiv nw) * nw
        if s > 0 then [⟨MinInt s outW, MinInt s outH, 1⟩] else []
      else []
    else []

/-- `CandidateGranularity` from the granularity file (`latency = none` models
`math.Inf(1)`). -/
structure CandidateGranularity where
  w : Int
  h : Int
  k : Int
  latency : Option ℚ
  workSet : Int
  feasible : Bool
deriving DecidableEq, Repr

/-- The `addCandidate` closure of `generateCandidates`: state is the candidate
list plus the `evaluated` dedup set. -/
def addCandidate (p : Problem) (ops : List Nat) (residentTensors : List Nat)
    (outW outH maxK : Int) (hasMatmul : Bool)
    (st : List CandidateGranularity × List Gran) (w h k : Int) :
    List CandidateGranularity × List Gran :=
  if w ≤ 0 ∨ h ≤ 0 ∨ k ≤ 0 then st
  else
    let w := if w > outW then outW else w
    let h := if h > outH then outH else h
    let k := if hasMatmul ∧ k > maxK then maxK else k
    let key : Gran := ⟨w, h, k⟩
    if key ∈ st.2 then st
    else
      let ws := ComputeWorkingSet p ops key residentTensors
      let feasible := ws ≤ p.fastMemoryCapacity
      let lat := if feasible then QuickEstimate p ops key residentTensors else none
      (st.1 ++ [⟨w, h, k, lat, ws, feasible⟩], st.2 ++ [key])

/-- The `sort.Slice` comparator of `generateCandidates`.  The float cases map
exactly onto `Option ℚ`: a finite/`+∞` difference has absolute value `> 1`
and the `∞ − ∞` NaN case falls through to the area tiebreak, as in Go. -/
def candLess (ci cj : CandidateGranularity) : Bool :=
  if ci.feasible ≠ cj.feasible then ci.feasible
  else if ci.k ≠ cj.k then decide (ci.k > cj.k)
  else
    match ci.latency, cj.latency with
    | some a, some b =>
      if |a - b| > 1 then decide (a - b < 0) else decide (ci.w * ci.h > cj.w * cj.h)
    | some _, none => true
    | none, some _ => false
    | none, none => decide (ci.w * ci.h > cj.w * cj.h)

/-- `SnakeTraversal` from the granularity file. -/
def SnakeTraversal (nCols nRows : Int) : List Int :=
  (List.range nRows.toNat).flatMap
    (fun row =>
      let cols := (List.range nCols.toNat).map Int.ofNat
      let cols := if row % 2 = 0 then cols else cols.reverse
      cols.map (fun col => (row : Int) * nCols + col))

/-- `ColumnSnakeTraversal` from the granularity file. -/
def ColumnSnakeTraversal (nCols nRows : Int) : List Int :=
  (List.range nCols.toNat).flatMap
    (fun col =>
      let rows := (List.range nRows.toNat).map Int.ofNat
      let rows := if col % 2 = 0 then rows else rows.reverse
      rows.map (fun row => row * nCols + (col : Int)))

/-- The top-20 refinement loop of `generateCandidates` (note: the traversal
used here is the row-major `SnakeTraversal`, not `BestTraversal`). -/
def refineTop (p : Problem) (ops : List Nat) (residentTensors : List Nat)
    (sorted : List CandidateGranularity) : List CandidateGranularity :=
  let topN := min 20 sorted.length
  sorted.mapIdx
    (fun i c =>
      if i < topN ∧ c.feasible then
        let gran : Gran := ⟨c.w, c.h, c.k⟩
        let outT := tensorAt p (GetOutputTensor p ops)
        let nCols := CeilDiv outT.width c.w
        let nRows := CeilDiv outT.height c.h
        let trav := if HasMatMul p ops ∧ nCols * nRows > 1
          then SnakeTraversal nCols nRows else []
        match EvaluateSubgraphDetailed p ops gran [] trav residentTensors with
        | some lat => { c with latency := some lat }
        | none => c
      else c)

/-- The raw candidate accumulation of `generateCandidates` (everything before
the sort): dimension/K grid, capacity-driven candidates and the two native
seeds, threaded through `addCandidate`. -/
def rawCandidates (p : Problem) (ops : List Nat)
    (residentTensors : List Nat) : List CandidateGranularity × List Gran :=
  let nw := p.nativeGranularity.1
  let nh := p.nativeGranularity.2
  let outT := tensorAt p (GetOutputTensor p ops)
  let maxK := GetMaxK p ops
  let hasMatmul := HasMatMul p ops
  let wCands := generateDimCandidates nw outT.width
  let hCands := generateDimCandidates nh outT.height
  let wCands := if outT.width ∈ wCands then wCands else wCands ++ [outT.width]
  let hCands := if outT.height ∈ hCands then hCands else hCands ++ [outT.height]
  let kCands := if hasMatmul then generateKCandidates maxK else [1]
  let capCands := capacityDrivenCandidates p ops residentTensors
    outT.width outT.height maxK hasMatmul
  let add := addCandidate p ops residentTensors outT.width outT.height maxK hasMatmul
  let st := wCands.foldl
    (fun st w => hCands.foldl (fun st h => kCands.foldl (fun st k => add st w h k) st) st)
    ([], [])
  let st := capCands.foldl (fun st c => add st c.w c.h c.k) st
  let st := add st nw nh maxK
  add st nw nh 1

/-- `generateCandidates` from the granularity file. -/
def generateCandidates (p : Problem) (ops : List Nat)
    (residentTensors : List Nat) : List CandidateGranularity :=
  let sorted := (rawCandidates p ops residentTensors).1.mergeSort
    (fun a b => !(candLess b a))
  refineTop p ops residentTensors sorted

/-- `findSmallestFeasible` from the granularity file (the scan order is
w-halvings × h-halvings × k-halvings; without a MatMul only the first k is
tried before `break`). -/
def findSmallestFeasible (p : Problem) (ops : List Nat)
    (residentTensors : List Nat) : Gran :=
  let nw := p.nativeGranularity.1
  let nh := p.nativeGranularity.2
  let maxK := GetMaxK p ops
  let ks := if HasMatMul p ops then halvingsDownTo maxK 1 else [maxK]
  let scan := (halvingsDownTo nw 1).flatMap
    (fun w => (halvingsDownTo nh 1).flatMap
      (fun h => ks.map (fun k => (⟨w, h, k⟩ : Gran))))
  match scan.find? (fun g =>
      decide (ComputeWorkingSet p ops g residentTensors ≤ p.fastMemoryCapacity)) with
  | some g => g
  | none => ⟨1, 1, 1⟩

/-- `FindBestGranularity` from the granularity file. -/
def FindBestGranularity (p : Problem) (ops : List Nat)
    (residentTensors : List Nat) : Gran :=
  let candidates := generateCandidates p ops residentTensors
  let best := candidates.foldl
    (fun (st : Option ℚ × Gran) c =>
      if c.feasible ∧ olt c.latency st.1 then (c.latency, ⟨c.w, c.h, c.k⟩) else st)
    (none, ⟨1, 1, 1⟩)
  match best.1 with
  | none => findSmallestFeasible p ops residentTensors
  | some _ => best.2

/-- `FindBestGranularityWithRetain` from the granularity file. -/
def FindBestGranularityWithRetain (p : Problem) (ops : List Nat)
    (residentTensors : List Nat) (retainAfter : List Nat) : Gran :=
  let candidates := generateCandidates p ops residentTensors
  let best := candidates.foldl
    (fun (st : Option ℚ × Gran) c =>
      if !c.feasible then st
      else if ComputeWorkingSetWithRetained p ops ⟨c.w, c.h, c.k⟩ residentTensors
          retainAfter > p.fastMemoryCapacity then st
      else if olt c.latency st.1 then (c.latency, ⟨c.w, c.h, c.k⟩) else st)
    (none, ⟨1, 1, 1⟩)
  match best.1 with
  | none => findSmallestFeasible p ops residentTensors
  | some _ => best.2

/-- `BestTraversal` from the granularity file. -/
def BestTraversal (p : Problem) (ops : List Nat) (gran : Gran) : List Int :=
  let w := gran.w
  let h := gran.h
  let k := gran.k
  let outT := tensorAt p (GetOutputTensor p ops)
  let nCols := CeilDiv outT.width w
  let nRows := CeilDiv outT.height h
  if nCols * nRows ≤ 1 then []
  else if !HasMatMul p ops then
    if nCols ≥ nRows then SnakeTraversal nCols nRows
    else ColumnSnakeTraversal nCols nRows
  else
    let b := GetSubgraphBoundary p ops
    let bwPair := b.boundaryInputs.foldl
      (fun (bp : Int × Int) tIdx =>
        let role := InputTileRole p ops tIdx
        let tileSize := InputTileSize p ops tIdx w h k
        if role = "LHS" then (bp.1 + tileSize, bp.2)
        else if role = "RHS" then (bp.1, bp.2 + tileSize)
        else bp) (0, 0)
    let rowMajorSavings := bwPair.1 * (nCols - 1) * nRows
    let colMajorSavings := bwPair.2 * (nRows - 1) * nCols
    if colMajorSavings > rowMajorSavings then ColumnSnakeTraversal nCols nRows
    else SnakeTraversal nCols nRows

/-! ## Scheduler (second file of `unnamed/part_002`) -/

/-- `ScheduleEntry` from the schedule file; the defaults are Go's zero
values. -/
structure ScheduleEntry where
  ops : List Nat
  granularity : Gran := ⟨0, 0, 0⟩
  traversal : List Int := []
  retain : List Nat := []
  latency : ℚ := 0
deriving DecidableEq, Repr

/-- `computeAffinity` from the schedule file. -/
def computeAffinity (p : Problem) (nextInputs lastOutputs lastInputs : List Nat) : ℚ :=
  nextInputs.foldl
    (fun s t =>
      let s := if t ∈ lastOutputs then s + (FullTensorSize p t : ℚ) * 2 else s
      if t ∈ lastInputs then s + (FullTensorSize p t : ℚ) * 1 else s) 0

/-- `groupOf` map of `BuildSchedule` (ascending insertion, later overwrites,
Go zero value 0 for a missing op). -/
def groupOfFn (groups : List (List Nat)) (op : Nat) : Nat :=
  (List.range groups.length).foldl
    (fun acc g => if op ∈ groups.getD g [] then g else acc) 0

/-- `groupDeps[g]` of `BuildSchedule`. -/
def groupDepsOf (p : Problem) (groups : List (List Nat)) (g : Nat) : List Nat :=
  dedupKeep ((groups.getD g []).flatMap
    (fun opIdx => (dependenciesOf p opIdx).filterMap
      (fun depOp =>
        let dg := groupOfFn groups depOp
        if dg ≠ g then some dg else none)))

/-- `groupDependents[g]` of `BuildSchedule` (only membership is used). -/
def groupDependentsOf (p : Problem) (groups : List (List Nat)) (g : Nat) : List Nat :=
  (List.range groups.length).filter (fun g1 => g ∈ groupDepsOf p groups g1)

/-- One Go-map enumeration of `remaining`: the caller-supplied order `pi`
restricted to `remaining`, followed by any elements it missed.  Whenever `pi`
is a permutation of `remaining` this is exactly `pi`; the completion merely
keeps the function total. -/
def mapIterOrder (pi remaining : List Nat) : List Nat :=
  dedupKeep (pi.filter (· ∈ remaining)) ++ remaining.filter (· ∉ pi)

/-- The body of one `BuildSchedule` iteration: enumerate `remaining`, filter
the ready groups (falling back to all of `remaining` if none is ready), sort
by affinity to the last scheduled group, and take the first. -/
def pickChosen (p : Problem) (groups : List (List Nat)) (gBIs : List (List Nat))
    (pi remaining : List Nat) (inDeg : Nat → Int)
    (lastScheduled : Option Nat) : Nat :=
  let enum := mapIterOrder pi remaining
  let ready := enum.filter (fun g => inDeg g = 0)
  let ready := if ready = [] then enum else ready
  let ready := match lastScheduled with
    | some last =>
      if ready.length > 1 then
        let lastOutputs := (GetSubgraphBoundary p (groups.getD last [])).boundaryOutputs
        let lastInputs := gBIs.getD last []
        ready.mergeSort (fun a b =>
          !(decide (computeAffinity p (gBIs.getD b []) lastOutputs lastInputs >
            computeAffinity p (gBIs.getD a []) lastOutputs lastInputs)))
      else ready
    | none => ready
  ready.headD 0

/-- The Kahn loop of `BuildSchedule`.  `iterOrders` supplies, per iteration,
the order in which Go's runtime happens to enumerate the `remaining` map —
the source of scheduling nondeterminism. -/
def buildScheduleLoop (p : Problem) (groups : List (List Nat))
    (gBIs : List (List Nat)) :
    Nat → List (List Nat) → List Nat → (Nat → Int) → Option Nat → List Nat
  | 0, _, _, _, _ => []
  | fuel + 1, iterOrders, remaining, inDeg, lastScheduled =>
    if remaining = [] then []
    else
      let chosen := pickChosen p groups gBIs (iterOrders.headD remaining)
        remaining inDeg lastScheduled
      chosen :: buildScheduleLoop p groups gBIs fuel iterOrders.tail
        (remaining.erase chosen)
        (fun g => if g ∈ groupDependentsOf p groups chosen then inDeg g - 1 else inDeg g)
        (some chosen)

/-- `BuildSchedule` from the schedule file. -/
def BuildSchedule (p : Problem) (groups : List (List Nat))
    (iterOrders : List (List Nat)) : List ScheduleEntry :=
  let gBIs := groups.map (fun g => (GetSubgraphBoundary p g).boundaryInputs)
  let order := buildScheduleLoop p groups gBIs groups.length iterOrders
    (List.range groups.length)
    (fun g => ((groupDepsOf p groups g).length : Int)) none
  order.map (fun gIdx => { ops := groups.getD gIdx [] })

/-! ## retention.go -/

/-- `RetentionCandidate` from retention.go. -/
structure RetentionCandidate where
  tensorIdx : Nat
  size : Int
  savings : ℚ
deriving Repr

/-- The per-tensor savings estimate of `PlanRetentionGlobal`. -/
def retentionSavings (p : Problem) (currentIdx : Nat)
    (schedule : List ScheduleEntry) (currentBoundary : SubgraphBoundary)
    (tIdx : Nat) : ℚ :=
  let bw : ℚ := (p.slowMemoryBandwidth : ℚ)
  let size := FullTensorSize p tIdx
  let nextIdx := currentIdx + 1
  let savings : ℚ :=
    if nextIdx < schedule.length then
      let nextE := schedule.getD nextIdx { ops := [] }
      let nextBoundary := GetSubgraphBoundary p nextE.ops
      if tIdx ∈ nextBoundary.boundaryInputs then
        let nextGran := nextE.granularity
        let nextOutT := tensorAt p (GetOutputTensor p nextE.ops)
        let nCols := CeilDiv nextOutT.width nextGran.w
        let nRows := CeilDiv nextOutT.height nextGran.h
        let nSpatial := nCols * nRows
        let role := InputTileRole p nextE.ops tIdx
        let tileSize := InputTileSize p nextE.ops tIdx nextGran.w nextGran.h nextGran.k
        let maxK := GetMaxK p nextE.ops
        let nK := CeilDiv maxK nextGran.k
        let loads : Int :=
          if role = "LHS" then nRows * nK
          else if role = "RHS" then nCols * nK
          else if role = "PW" then nSpatial
          else 0
        let s := (tileSize : ℚ) * (loads : ℚ) / bw
        if tIdx ∈ currentBoundary.boundaryOutputs then s + (size : ℚ) / bw else s
      else 0
    else 0
  (List.range' 2 (min 4 (schedule.length - currentIdx - 1) - 1)).foldl
    (fun s lookahead =>
      let futureE := schedule.getD (currentIdx + lookahead) { ops := [] }
      let futureBoundary := GetSubgraphBoundary p futureE.ops
      if tIdx ∈ futureBoundary.boundaryInputs then
        s + (size : ℚ) / bw * (3 / 10)
      else s) savings

/-- The greedy packing loop shared by both retention planners. -/
def packRetention (p : Problem) (nextOps : List Nat) (nextGran : Gran)
    (nextBoundaryInputs : List Nat) (availableCapacity : Int)
    (cands : List RetentionCandidate) : List Nat :=
  (cands.foldl
    (fun (st : List Nat × Int) cand =>
      let additionalCost :=
        if cand.tensorIdx ∈ nextBoundaryInputs then
          let tileSize := InputTileSize p nextOps cand.tensorIdx
            nextGran.w nextGran.h nextGran.k
          let c := cand.size - tileSize
          if c < 0 then 0 else c
        else cand.size
      if st.2 + additionalCost ≤ availableCapacity then
        (st.1 ++ [cand.tensorIdx], st.2 + additionalCost)
      else st) ([], 0)).1

/-- `PlanRetentionGlobal` from retention.go. -/
def PlanRetentionGlobal (p : Problem) (currentIdx : Nat)
    (schedule : List ScheduleEntry) (currentResident : List Nat) : List Nat :=
  if currentIdx ≥ schedule.length - 1 then []
  else
    let current := schedule.getD currentIdx { ops := [] }
    let currentBoundary := GetSubgraphBoundary p current.ops
    let retainableTensors :=
      dedupKeep (currentBoundary.boundaryOutputs ++ dedupKeep currentResident)
    let candidates := retainableTensors.filterMap
      (fun tIdx =>
        let savings := retentionSavings p currentIdx schedule currentBoundary tIdx
        if savings > 0 then
          some (⟨tIdx, FullTensorSize p tIdx, savings⟩ : RetentionCandidate)
        else none)
    let candidates := candidates.mergeSort
      (fun a b => !(decide (b.savings / (b.size : ℚ) > a.savings / (a.size : ℚ))))
    let nextE := schedule.getD (currentIdx + 1) { ops := [] }
    let baseWS := ComputeWorkingSet p nextE.ops nextE.granularity []
    let availableCapacity := p.fastMemoryCapacity - baseWS
    let nextBoundary := GetSubgraphBoundary p nextE.ops
    packRetention p nextE.ops nextE.granularity nextBoundary.boundaryInputs
      availableCapacity candidates

/-- The savings estimate of `PlanRetentionSimple` for a boundary input of the
next group (`withEvict` adds the eviction saving used for current outputs). -/
def simpleSavings (p : Problem) (nextOps : List Nat) (nextGran : Gran)
    (tIdx : Nat) (withEvict : Bool) : ℚ :=
  let bw : ℚ := (p.slowMemoryBandwidth : ℚ)
  let size := FullTensorSize p tIdx
  let nextOutT := tensorAt p (GetOutputTensor p nextOps)
  let nCols := CeilDiv nextOutT.width nextGran.w
  let nRows := CeilDiv nextOutT.height nextGran.h
  let nSpatial := nCols * nRows
  let role := InputTileRole p nextOps tIdx
  let tileSize := InputTileSize p nextOps tIdx nextGran.w nextGran.h nextGran.k
  let maxK := GetMaxK p nextOps
  let nK := CeilDiv maxK nextGran.k
  let loads : Int :=
    if role = "LHS" then nRows * nK
    else if role = "RHS" then nCols * nK
    else if role = "PW" then nSpatial
    else 0
  let s := (tileSize : ℚ) * (loads : ℚ) / bw
  if withEvict then s + (size : ℚ) / bw else s

/-- `PlanRetentionSimple` from retention.go. -/
def PlanRetentionSimple (p : Problem) (currentOps nextOps : List Nat)
    (_currentGran nextGran : Gran) (currentResident : List Nat) : List Nat :=
  if nextOps = [] then []
  else
    let currentBoundary := GetSubgraphBoundary p currentOps
    let nextBoundary := GetSubgraphBoundary p nextOps
    let cands1 := currentBoundary.boundaryOutputs.filterMap
      (fun tIdx =>
        if tIdx ∈ nextBoundary.boundaryInputs then
          some (⟨tIdx, FullTensorSize p tIdx,
            simpleSavings p nextOps nextGran tIdx true⟩ : RetentionCandidate)
        else none)
    let cands2 := (dedupKeep currentResident).filterMap
      (fun tIdx =>
        if tIdx ∈ nextBoundary.boundaryInputs then
          some (⟨tIdx, FullTensorSize p tIdx,
            simpleSavings p nextOps nextGran tIdx false⟩ : RetentionCandidate)
        else none)
    let candidates := (cands1 ++ cands2).mergeSort
      (fun a b => !(decide (b.savings / (b.size : ℚ) > a.savings / (a.size : ℚ))))
    let baseWS := ComputeWorkingSet p nextOps nextGran []
    let availableCapacity := p.fastMemoryCapacity - baseWS
    packRetention p nextOps nextGran nextBoundary.boundaryInputs
      availableCapacity candidates

/-! ## Fusion (`unnamed/part_003`) -/

/-- `TryFuseOps` from the fusion file: (feasible, gran, latency). -/
def TryFuseOps (p : Problem) (ops residentTensors : List Nat) :
    Bool × Gran × Option ℚ :=
  let gran := FindBestGranularity p ops residentTensors
  let ws := ComputeWorkingSet p ops gran residentTensors
  if ws > p.fastMemoryCapacity then (false, gran, none)
  else
    let trav := BestTraversal p ops gran
    match EvaluateSubgraphDetailed p ops gran [] trav residentTensors with
    | none => (false, gran, none)
    | some lat => (true, gran, some lat)

/-- The per-op latency used by `EstimateUnfusedLatency`. -/
def singleLatencyOf (p : Problem) (residentTensors : List Nat) (opIdx : Nat) :
    Option ℚ :=
  let singleOps := [opIdx]
  let gran := FindBestGranularity p singleOps residentTensors
  let trav := BestTraversal p singleOps gran
  EvaluateSubgraphDetailed p singleOps gran [] trav residentTensors

/-- The `2·size/bandwidth` transfer cost of an op's outputs. -/
def transferOut (p : Problem) (opIdx : Nat) : ℚ :=
  (opAt p opIdx).outputs.foldl
    (fun a t => a + 2 * (FullTensorSize p t : ℚ) / (p.slowMemoryBandwidth : ℚ)) 0

/-- `EstimateUnfusedLatency` from the fusion file (the transfer cost is added
for every op except the last). -/
def EstimateUnfusedLatency (p : Problem) (ops residentTensors : List Nat) :
    Option ℚ :=
  match ops with
  | [] => some 0
  | [opIdx] => singleLatencyOf p residentTensors opIdx
  | opIdx :: rest =>
    oadd (oadd (singleLatencyOf p residentTensors opIdx) (some (transferOut p opIdx)))
      (EstimateUnfusedLatency p rest residentTensors)

/-- The cut-transfer cost of `FuseChainDP` for a segment starting at `j`. -/
def segTransferCost (p : Problem) (chain : List Nat) (j : Nat)
    (segment : List Nat) : ℚ :=
  let b := GetSubgraphBoundary p segment
  let bw : ℚ := (p.slowMemoryBandwidth : ℚ)
  b.boundaryInputs.foldl
    (fun acc tIdx =>
      acc + (chain.take j).foldl
        (fun a2 prevOp =>
          a2 + (opAt p prevOp).outputs.foldl
            (fun a3 outT =>
              if outT = tIdx then a3 + 2 * (FullTensorSize p tIdx : ℚ) / bw else a3) 0) 0) 0

/-- The segment cost `segLat + transferCost` of `FuseChainDP`. -/
def dpSegCost (p : Problem) (chain residentTensors : List Nat) (j i : Nat) :
    Option ℚ :=
  let segment := (chain.drop j).take (i - j)
  let segResident := if j > 0 then [] else residentTensors
  let r := TryFuseOps p segment segResident
  let segLat := if r.1 then r.2.2 else EstimateUnfusedLatency p segment segResident
  let transfer := if j > 0 then segTransferCost p chain j segment else 0
  oadd segLat (some transfer)

/-- One iteration of the `i` loop of `FuseChainDP`: the inner `j` loop picks
the best predecessor and cost, which are appended to the dp/split tables. -/
def dpStep (p : Problem) (chain residentTensors : List Nat) (maxSegLen : Nat)
    (st : List (Option ℚ) × List Nat) (i : Nat) : List (Option ℚ) × List Nat :=
  let best := (List.range' (i - maxSegLen) (i - (i - maxSegLen))).foldl
    (fun (b : Option ℚ × Nat) j =>
      let cost := oadd (st.1.getD j none) (dpSegCost p chain residentTensors j i)
      if olt cost b.1 then (cost, j) else b) (none, 0)
  (st.1 ++ [best.1], st.2 ++ [best.2])

/-- The dp/split table construction of `FuseChainDP` (`dp[0] = 0`,
`split[i] = 0` by Go zero value until improved). -/
def dpBuild (p : Problem) (chain residentTensors : List Nat) :
    List (Option ℚ) × List Nat :=
  let n := chain.length
  let maxSegLen := min n 6
  (List.range' 1 n).foldl (dpStep p chain residentTensors maxSegLen) ([some 0], [0])

/-- The segment reconstruction of `FuseChainDP`. -/
def dpReconstruct (chain : List Nat) (split : List Nat) : Nat → Nat → List (List Nat)
  | 0, _ => []
  | fuel + 1, i =>
    if i = 0 then []
    else
      let j := split.getD i 0
      dpReconstruct chain split fuel j ++ [(chain.drop j).take (i - j)]

/-- `FuseChainDP` from the fusion file. -/
def FuseChainDP (p : Problem) (chain residentTensors : List Nat) :
    List (List Nat) :=
  let n := chain.length
  if n = 0 then []
  else if n = 1 then [chain]
  else
    let t := dpBuild p chain residentTensors
    dpReconstruct chain t.2 (n + 1) n

/-- The main loop of `FuseChainGreedy`; `currentGroup` always ends with the
op preceding the head of the remaining chain. -/
def fuseGreedyAux (p : Problem) (residentTensors : List Nat) :
    List Nat → List Nat → List (List Nat)
  | currentGroup, [] => [currentGroup]
  | currentGroup, c :: rest =>
    let candidate := currentGroup ++ [c]
    let r := TryFuseOps p candidate residentTensors
    if !r.1 then currentGroup :: fuseGreedyAux p residentTensors [c] rest
    else
      let fusedLat := r.2.2
      let cur := TryFuseOps p currentGroup residentTensors
      let nxt := TryFuseOps p [c] []
      let separateLat := oadd (oadd cur.2.2 nxt.2.2)
        (some (transferOut p (currentGroup.getLastD 0)))
      if olt fusedLat separateLat then fuseGreedyAux p residentTensors candidate rest
      else currentGroup :: fuseGreedyAux p residentTensors [c] rest

/-- `FuseChainGreedy` from the fusion file. -/
def FuseChainGreedy (p : Problem) (chain residentTensors : List Nat) :
    List (List Nat) :=
  if chain.length ≤ 1 then [chain]
  else fuseGreedyAux p residentTensors [chain.headD 0] chain.tail

/-- All ordered pairs `(l[i], l[j])` with `i < j` (the double loop over a
shared tensor's group list in `tryCrossChainFusion`). -/
def orderedPairs {α : Type} : List α → List (α × α)
  | [] => []
  | x :: rest => rest.map (fun y => (x, y)) ++ orderedPairs rest

/-- One accepted-or-rejected merge step of `tryCrossChainFusion`; the state is
(live groups, merged tombstones, live baselines). -/
def crossFuseStep (p : Problem)
    (st : List (List Nat) × List Nat × List (Option ℚ × Gran))
    (cand : Nat × Nat × Int) :
    List (List Nat) × List Nat × List (Option ℚ × Gran) :=
  let g1 := cand.1
  let g2 := cand.2.1
  let groups := st.1
  let merged := st.2.1
  let baselines := st.2.2
  if g1 ∈ merged ∨ g2 ∈ merged then st
  else if ((groups.getD g1 []).length : Int) + ((groups.getD g2 []).length : Int) > 8 then st
  else if (groups.getD g1 []).any (fun opIdx => (opAt p opIdx).baseCost > 2000)
      ∨ (groups.getD g2 []).any (fun opIdx => (opAt p opIdx).baseCost > 2000) then st
  else
    let combined := groups.getD g1 [] ++ groups.getD g2 []
    if !isTopologicallyValid p combined then st
    else
      let combined := sortOpsTopologically p combined
      let r := TryFuseOps p combined []
      if !r.1 then st
      else
        let fusedGran := r.2.1
        let fusedLat := r.2.2
        let outT := tensorAt p (GetOutputTensor p combined)
        if (fusedGran.w : ℚ) > (outT.width : ℚ) * (21 / 20) then st
        else if (fusedGran.h : ℚ) > (outT.height : ℚ) * (21 / 20) then st
        else
          let base1 := baselines.getD g1 (none, ⟨1, 1, 1⟩)
          let base2 := baselines.getD g2 (none, ⟨1, 1, 1⟩)
          let targetK : Int := if HasMatMul p (groups.getD g1 []) then base1.2.k else 0
          let targetK : Int :=
            if HasMatMul p (groups.getD g2 []) then
              (if targetK = 0 ∨ base2.2.k < targetK then base2.2.k else targetK)
            else targetK
          if targetK > 1 ∧ (fusedGran.k : ℚ) < (targetK : ℚ) * (1 / 2) then st
          else
            let bw : ℚ := (p.slowMemoryBandwidth : ℚ)
            let b1 := GetSubgraphBoundary p (groups.getD g1 [])
            let b2 := GetSubgraphBoundary p (groups.getD g2 [])
            let transferCost := b1.boundaryOutputs.foldl
              (fun a t => if t ∈ b2.boundaryInputs
                then a + 2 * (FullTensorSize p t : ℚ) / bw else a) 0
            let transferCost := b2.boundaryOutputs.foldl
              (fun a t => if t ∈ b1.boundaryInputs
                then a + 2 * (FullTensorSize p t : ℚ) / bw else a) transferCost
            let separateLat := oadd (oadd base1.1 base2.1) (some transferCost)
            if olt fusedLat (separateLat.map (· * (9 / 10))) then
              (groups.set g1 combined, merged ++ [g2],
                baselines.set g1 (fusedLat, fusedGran))
            else st

/-- `tryCrossChainFusion` from the fusion file. -/
def tryCrossChainFusion (p : Problem) (groups : List (List Nat)) :
    List (List Nat) :=
  if groups.length ≤ 1 then groups
  else
    let pairs := (List.range groups.length).flatMap
      (fun g => (GetSubgraphBoundary p (groups.getD g [])).boundaryInputs.map
        (fun t => (t, g)))
    let tensors := dedupKeep (pairs.map (·.1))
    let candidates := tensors.flatMap
      (fun t =>
        let gIdxs := (pairs.filter (·.1 = t)).map (·.2)
        if gIdxs.length < 2 then []
        else
          let tSize := FullTensorSize p t
          if tSize < 1024 then []
          else (orderedPairs gIdxs).filterMap
            (fun gg =>
              if canFuseGroups p (groups.getD gg.1 []) (groups.getD gg.2 [])
              then some (gg.1, gg.2, tSize) else none))
    let candidates := candidates.mergeSort
      (fun a b => !(decide (b.2.2 > a.2.2)))
    let baselines := (List.range groups.length).map
      (fun i =>
        let r := TryFuseOps p (groups.getD i []) []
        (r.2.2, r.2.1))
    let final := candidates.foldl (crossFuseStep p) (groups, [], baselines)
    ((List.range groups.length).filter (· ∉ final.2.1)).map
      (fun i => final.1.getD i [])

/-! ## Pipeline phases of `OptimizeSchedule` and pruning -/

/-- Phase 4 of `OptimizeSchedule`: initial granularity and traversal, with the
residency taken from the previous entry's retention (still empty at this
phase). -/
def phase4 (p : Problem) : List Nat → List ScheduleEntry → List ScheduleEntry
  | _, [] => []
  | resident, e :: rest =>
    let gran := FindBestGranularity p e.ops resident
    let trav := BestTraversal p e.ops gran
    { e with granularity := gran, traversal := trav } :: phase4 p e.retain rest

/-- Phase 5 of `OptimizeSchedule`: retention planning.  `full` is the
phase-4 schedule; `PlanRetentionGlobal` only reads fields phase 5 never
writes, so passing it is equivalent to Go's in-place update. -/
def phase5Aux (p : Problem) (full : List ScheduleEntry) :
    Nat → List Nat → List ScheduleEntry → List ScheduleEntry
  | _, _, [] => []
  | i, resident, e :: rest =>
    let retain := PlanRetentionGlobal p i full resident
    { e with retain := retain } :: phase5Aux p full (i + 1) retain rest

/-- Phase 6 of `OptimizeSchedule`: re-granularity under retention and the
authoritative latency (`0` on evaluation error, as in Go). -/
def phase6 (p : Problem) : List Nat → List ScheduleEntry → List ScheduleEntry
  | _, [] => []
  | resident, e :: rest =>
    let retainAfter := e.retain
    let ws := ComputeWorkingSetWithRetained p e.ops e.granularity resident retainAfter
    let e :=
      if ws > p.fastMemoryCapacity then
        let gran := FindBestGranularityWithRetain p e.ops resident retainAfter
        { e with granularity := gran, traversal := BestTraversal p e.ops gran }
      else e
    let lat := (EvaluateSubgraphDetailed p e.ops e.granularity e.retain
      e.traversal resident).getD 0
    { e with latency := lat } :: phase6 p e.retain rest

/-- The inner `rIdx` loop of `pruneRetentions` for one entry; `cnt` counts the
indices still to visit (Go's `rIdx = cnt - 1`). -/
def pruneEntryAux (p : Problem) (residentI : List Nat) :
    Nat → ScheduleEntry → Option ScheduleEntry → Bool →
    ScheduleEntry × Option ScheduleEntry × Bool
  | 0, e, next, imp => (e, next, imp)
  | cnt + 1, e, next, imp =>
    let rIdx := cnt
    let currentTotal := e.latency + (match next with | some f => f.latency | none => 0)
    let newRetain := e.retain.eraseIdx rIdx
    match EvaluateSubgraphDetailed p e.ops e.granularity newRetain e.traversal residentI with
    | none => pruneEntryAux p residentI cnt e next imp
    | some latI =>
      match next with
      | none =>
        if latI < currentTotal then
          pruneEntryAux p residentI cnt { e with retain := newRetain, latency := latI }
            none true
        else pruneEntryAux p residentI cnt e none imp
      | some f =>
        match EvaluateSubgraphDetailed p f.ops f.granularity f.retain
          f.traversal newRetain with
        | none => pruneEntryAux p residentI cnt e (some f) imp
        | some latNext =>
          if latI + latNext < currentTotal then
            pruneEntryAux p residentI cnt { e with retain := newRetain, latency := latI }
              (some { f with latency := latNext }) true
          else pruneEntryAux p residentI cnt e (some f) imp

/-- One full pass of `pruneRetentions` over the schedule (Go's inner
`for i := range schedule`), threading the updated previous-entry retention as
the residency for the next entry. -/
def prunePassAux (p : Problem) : List Nat → List ScheduleEntry →
    List ScheduleEntry × Bool
  | _, [] => ([], false)
  | residentI, [e] =>
    let r := pruneEntryAux p residentI e.retain.length e none false
    ([r.1], r.2.2)
  | residentI, e :: f :: rest =>
    let r := pruneEntryAux p residentI e.retain.length e (some f) false
    let e1 := r.1
    let f1 := (r.2.1).getD f
    let rest1 := prunePassAux p e1.retain (f1 :: rest)
    (e1 :: rest1.1, r.2.2 || rest1.2)
termination_by _ s => s.length

/-- Total number of retained tensors in a schedule (termination measure of the
pruning fixpoint). -/
def totalRetain (s : List ScheduleEntry) : Nat :=
  (s.map (fun e => e.retain.length)).sum

/-- Retained-tensor count of an optional neighbour entry. -/
def optRetainLen : Option ScheduleEntry → Nat
  | some f => f.retain.length
  | none => 0

theorem pruneEntryAux_spec (p : Problem) (residentI : List Nat) :
    ∀ (cnt : Nat) (e : ScheduleEntry) (next : Option ScheduleEntry) (imp : Bool),
      cnt ≤ e.retain.length →
      let res := pruneEntryAux p residentI cnt e next imp
      (res.1.retain.length ≤ e.retain.length ∧
        optRetainLen res.2.1 = optRetainLen next ∧
        (imp = false → res.2.2 = true → res.1.retain.length < e.retain.length)) := by
  intro cnt
  induction cnt with
  | zero =>
    intro e next imp _
    simp [pruneEntryAux, optRetainLen]
  | succ n ih =>
    intro e next imp hle
    have hlt : n < e.retain.length := hle
    have herase : (e.retain.eraseIdx n).length = e.retain.length - 1 := by
      rw [List.length_eraseIdx]
      simp [hlt]
    cases next with
    | none =>
      simp only [pruneEntryAux]
      cases hEv : EvaluateSubgraphDetailed p e.ops e.granularity (e.retain.eraseIdx n)
        e.traversal residentI with
      | none => exact ih e none imp (Nat.le_of_succ_le hle)
      | some latI =>
        dsimp only
        by_cases hc : latI < e.latency + 0
        · rw [if_pos hc]
          have hle2 : n ≤ (e.retain.eraseIdx n).length := by omega
          have h2 := ih { e with retain := e.retain.eraseIdx n, latency := latI }
            none true hle2
          have hproj : ({ e with retain := e.retain.eraseIdx n, latency := latI }
              : ScheduleEntry).retain.length = e.retain.length - 1 := by
            simp [herase]
          rw [hproj] at h2
          refine ⟨by omega, h2.2.1, fun _ _ => by omega⟩
        · rw [if_neg hc]
          exact ih e none imp (Nat.le_of_succ_le hle)
    | some f =>
      simp only [pruneEntryAux]
      cases hEv : EvaluateSubgraphDetailed p e.ops e.granularity (e.retain.eraseIdx n)
        e.traversal residentI with
      | none => exact ih e (some f) imp (Nat.le_of_succ_le hle)
      | some latI =>
        dsimp only
        cases hEv2 : EvaluateSubgraphDetailed p f.ops f.granularity f.retain
          f.traversal (e.retain.eraseIdx n) with
        | none => exact ih e (some f) imp (Nat.le_of_succ_le hle)
        | some latNext =>
          dsimp only
          by_cases hc : latI + latNext < e.latency + f.latency
          · rw [if_pos hc]
            have hle2 : n ≤ (e.retain.eraseIdx n).length := by omega
            have h2 := ih { e with retain := e.retain.eraseIdx n, latency := latI }
              (some { f with latency := latNext }) true hle2
            have hproj : ({ e with retain := e.retain.eraseIdx n, latency := latI }
                : ScheduleEntry).retain.length = e.retain.length - 1 := by
              simp [herase]
            rw [hproj] at h2
            have hopt : optRetainLen (pruneEntryAux p residentI n
                { e with retain := e.retain.eraseIdx n, latency := latI }
                (some { f with latency := latNext }) true).2.1 = f.retain.length := by
              simpa [optRetainLen] using h2.2.1
            exact ⟨by omega, by simpa [optRetainLen] using hopt, fun _ _ => by omega⟩
          · rw [if_neg hc]
            exact ih e (some f) imp (Nat.le_of_succ_le hle)

theorem prunePassAux_retain (p : Problem) :
    ∀ (n : Nat) (s : List ScheduleEntry) (residentI : List Nat), s.length ≤ n →
      totalRetain (prunePassAux p residentI s).1 ≤ totalRetain s ∧
      ((prunePassAux p residentI s).2 = true →
        totalRetain (prunePassAux p residentI s).1 < totalRetain s) := by
  intro n
  induction n with
  | zero =>
    intro s residentI hlen
    have : s = [] := List.length_eq_zero.mp (Nat.le_zero.mp hlen)
    subst this
    simp [prunePassAux, totalRetain]
  | succ m ih =>
    intro s residentI hlen
    match s with
    | [] => simp [prunePassAux, totalRetain]
    | [e] =>
      have h := pruneEntryAux_spec p residentI e.retain.length e none false (Nat.le_refl _)
      simp only [prunePassAux, totalRetain, List.map_cons, List.map_nil, List.sum_cons,
        List.sum_nil]
      refine ⟨by omega, fun himp => ?_⟩
      have := h.2.2 rfl himp
      omega
    | e :: f :: rest =>
      have h := pruneEntryAux_spec p residentI e.retain.length e (some f) false
        (Nat.le_refl _)
      simp only [prunePassAux]
      set r := pruneEntryAux p residentI e.retain.length e (some f) false with hr
      have hf1 : optRetainLen r.2.1 = f.retain.length := h.2.1
      have hlen2 : (r.2.1.getD f :: rest).length ≤ m := by
        simp at hlen ⊢
        omega
      have ihr := ih (r.2.1.getD f :: rest) r.1.retain hlen2
      have hgetD : (r.2.1.getD f).retain.length = f.retain.length := by
        cases hc : r.2.1 with
        | none => simp [List.getD]
        | some f1 => simpa [hc, optRetainLen, List.getD] using hf1
      simp only [totalRetain, List.map_cons, List.sum_cons] at ihr ⊢
      constructor
      · have h1 := h.1
        omega
      · intro himp
        rcases Bool.or_eq_true_iff.mp himp with h2 | h2
        · have := h.2.2 rfl h2
          omega
        · have := ihr.2 h2
          omega

/-- `pruneRetentions` from the schedule file: repeat full passes while one of
them improves; every improving pass removes at least one retained tensor, so
the loop terminates. -/
def pruneRetentions (p : Problem) (schedule : List ScheduleEntry) :
    List ScheduleEntry :=
  let r := prunePassAux p [] schedule
  if h : r.2 = true then pruneRetentions p r.1 else r.1
termination_by totalRetain schedule
decreasing_by
  exact (prunePassAux_retain p schedule.length schedule [] (Nat.le_refl _)).2 h

/-- `OptimizeSchedule` from the schedule file: chain fusion, cross-chain
fusion, ordering, granularity, retention, re-granularity, pruning. -/
def OptimizeSchedule (p : Problem) (iterOrders : List (List Nat)) : Solution :=
  let chains := FindLinearChains p
  let allGroups := chains.flatMap
    (fun chain =>
      if chain.length ≤ 3 then FuseChainGreedy p chain []
      else FuseChainDP p chain [])
  let allGroups := tryCrossChainFusion p allGroups
  let schedule := BuildSchedule p allGroups iterOrders
  let schedule := phase4 p [] schedule
  let schedule := phase5Aux p schedule 0 [] schedule
  let schedule := phase6 p [] schedule
  let schedule := pruneRetentions p schedule
  ⟨schedule.map (fun e => ⟨e.ops, e.granularity, e.retain, e.traversal, e.latency⟩)⟩

/-! ## solver.go -/

/-- The single-op split branch of `recoverSolution`; returns the produced
subgraphs and the residency left for the rest of the recovery loop. -/
def splitSingles (p : Problem) : List Nat → List Nat → List Subgraph × List Nat
  | resident, [] => ([], resident)
  | resident, opIdx :: rest =>
    let singleOps := [opIdx]
    let singleGran := FindBestGranularity p singleOps resident
    let singleWS := ComputeWorkingSet p singleOps singleGran resident
    let rg :=
      if singleWS > p.fastMemoryCapacity then
        ([], FindBestGranularity p singleOps [])
      else (resident, singleGran)
    let trav := BestTraversal p singleOps rg.2
    let lat := (EvaluateSubgraphDetailed p singleOps rg.2 [] trav rg.1).getD 0
    let sg : Subgraph := ⟨singleOps, rg.2, [], trav, lat⟩
    let more := splitSingles p [] rest
    (sg :: more.1, more.2)

/-- The recovery loop of `recoverSolution` over the broken solution's
subgraphs. -/
def recoverAux (p : Problem) : List Nat → List Subgraph → List Subgraph
  | _, [] => []
  | resident, sg :: rest =>
    let ops := sortOpsTopologically p sg.ops
    let gran := FindBestGranularity p ops resident
    let ws := ComputeWorkingSet p ops gran resident
    if ws > p.fastMemoryCapacity then
      let split := splitSingles p resident ops
      split.1 ++ recoverAux p split.2 rest
    else
      let trav := BestTraversal p ops gran
      let retain :=
        match rest with
        | [] => []
        | nextSG :: _ =>
          let nextOps := sortOpsTopologically p nextSG.ops
          let nextGran := FindBestGranularity p nextOps []
          let r := PlanRetentionSimple p ops nextOps gran nextGran resident
          if ComputeWorkingSetWithRetained p ops gran resident r >
            p.fastMemoryCapacity then [] else r
      let lat := (EvaluateSubgraphDetailed p ops gran retain trav resident).getD 0
      (⟨ops, gran, retain, trav, lat⟩ : Subgraph) :: recoverAux p retain rest

/-- `recoverSolution` from solver.go. -/
def recoverSolution (p : Problem) (broken : Solution) : Solution :=
  ⟨recoverAux p [] broken.subgraphs⟩

/-- `baselineSolution` from solver.go: one op per subgraph in topological
order, no retention. -/
def baselineSolution (p : Problem) : Solution :=
  ⟨(topologicalSort p).map
    (fun opIdx =>
      let ops := [opIdx]
      let gran := FindBestGranularity p ops []
      let trav := BestTraversal p ops gran
      let lat := (EvaluateSubgraphDetailed p ops gran [] trav []).getD 0
      ⟨ops, gran, [], trav, lat⟩)⟩

/-- `SolveOptimized` from solver.go.  `iterOrders` resolves the Go map
iteration order inside `BuildSchedule` (see there). -/
def SolveOptimized (p : Problem) (iterOrders : List (List Nat)) : Solution :=
  let sol := OptimizeSchedule p iterOrders
  match EvaluateSolution p sol with
  | some _ => sol
  | none =>
    let sol2 := recoverSolution p sol
    match EvaluateSolution p sol2 with
    | some _ => sol2
    | none => baselineSolution p

/-- Total latency of a solution as the sum of its stored subgraph latencies
(`PrintSolutionSummary`). -/
def solutionTotalStored (sol : Solution) : ℚ :=
  (sol.subgraphs.map (fun sg => sg.subgraphLatency)).sum

/-! ## Generic fold-to-sum helpers -/

theorem foldl_add_map {α : Type} (f : α → Int) :
    ∀ (l : List α) (a : Int), l.foldl (fun acc t => acc + f t) a = a + (l.map f).sum := by
  intro l
  induction l with
  | nil => intro a; simp
  | cons x xs ih =>
    intro a
    simp only [List.foldl_cons, List.map_cons, List.sum_cons]
    rw [ih]
    ring

theorem foldl_add_map_q {α : Type} (f : α → ℚ) :
    ∀ (l : List α) (a : ℚ), l.foldl (fun acc t => acc + f t) a = a + (l.map f).sum := by
  intro l
  induction l with
  | nil => intro a; simp
  | cons x xs ih =>
    intro a
    simp only [List.foldl_cons, List.map_cons, List.sum_cons]
    rw [ih]
    ring

/-! ## C6: working-set formula -/

/-- The role-dependent tile size exactly as the specification words it:
MatMul LHS `k·h`, MatMul RHS `w·k`, Pointwise `w·h`. -/
def specRoleTileSize (p : Problem) (ops : List Nat) (t : Nat) (gran : Gran) : Int :=
  if InputTileRole p ops t = "LHS" then gran.k * gran.h
  else if InputTileRole p ops t = "RHS" then gran.w * gran.k
  else gran.w * gran.h

/-- The working set as the specification describes it: boundary inputs at full
size when resident and tile size otherwise, `w·h` per boundary output, and the
full size of every resident tensor that is neither a boundary input nor
produced. -/
def specWorkingSet (p : Problem) (ops : List Nat) (gran : Gran)
    (residentTensors : List Nat) : Int :=
  let b := GetSubgraphBoundary p ops
  (b.boundaryInputs.map
    (fun t => if t ∈ residentTensors then FullTensorSize p t
      else specRoleTileSize p ops t gran)).sum
  + gran.w * gran.h * (b.boundaryOutputs.length : Int)
  + (((dedupKeep residentTensors).filter
      (fun t => t ∉ b.boundaryInputs ∧ t ∉ b.allProduced)).map
      (fun t => FullTensorSize p t)).sum

theorem inputTileSize_eq_roleSize (p : Problem) (ops : List Nat) (t : Nat)
    (gran : Gran) :
    InputTileSize p ops t gran.w gran.h gran.k = specRoleTileSize p ops t gran := by
  unfold InputTileSize specRoleTileSize InputTileRole
  cases h : inputRolePos p ops t with
  | none => simp
  | some v =>
    obtain ⟨ty, pos⟩ := v
    by_cases hty : ty = "MatMul"
    · by_cases hpos : pos = 0 <;> simp [hty, hpos]
    · simp [hty]

/-- C6 core equivalence. -/
theorem computeWorkingSet_eq_spec (p : Problem) (ops : List Nat) (gran : Gran)
    (residentTensors : List Nat) :
    ComputeWorkingSet p ops gran residentTensors =
      specWorkingSet p ops gran residentTensors := by
  simp only [ComputeWorkingSet, specWorkingSet]
  have h1 : ∀ (l : List Nat) (a : Int),
      l.foldl (fun acc t => if t ∈ residentTensors then acc + FullTensorSize p t
        else acc + InputTileSize p ops t gran.w gran.h gran.k) a =
      a + (l.map (fun t => if t ∈ residentTensors then FullTensorSize p t
        else specRoleTileSize p ops t gran)).sum := by
    intro l
    induction l with
    | nil => intro a; simp
    | cons x xs ih =>
      intro a
      simp only [List.foldl_cons, List.map_cons, List.sum_cons]
      by_cases hx : x ∈ residentTensors
      · rw [if_pos hx, if_pos hx, ih]
        ring
      · rw [if_neg hx, if_neg hx, ih, inputTileSize_eq_roleSize]
        ring
  have h2 : ∀ (l : List Nat) (a : Int) (bi ap : List Nat),
      l.foldl (fun acc t => if t ∈ bi ∨ t ∈ ap then acc else acc + FullTensorSize p t) a =
      a + ((l.filter (fun t => t ∉ bi ∧ t ∉ ap)).map (fun t => FullTensorSize p t)).sum := by
    intro l
    induction l with
    | nil => intro a bi ap; simp
    | cons x xs ih =>
      intro a bi ap
      simp only [List.foldl_cons]
      by_cases hx : x ∈ bi ∨ x ∈ ap
      · rw [if_pos hx, ih]
        have : ¬(x ∉ bi ∧ x ∉ ap) := by tauto
        simp only [List.filter_cons, decide_eq_true_eq]
        rw [if_neg (by simpa using this)]
      · rw [if_neg hx, ih]
        have hx2 : x ∉ bi ∧ x ∉ ap := by tauto
        simp only [List.filter_cons, decide_eq_true_eq]
        rw [if_pos (by simpa using hx2)]
        simp only [List.map_cons, List.sum_cons]
        ring
  rw [h1, h2]
  ring

/-- C6: `ComputeWorkingSet` computes exactly the sum described by the
specification: boundary inputs at full tensor size when resident and at their
role-dependent tile size (MatMul LHS at input position 0: `k·h`; MatMul RHS
otherwise: `w·k`; Pointwise: `w·h`) otherwise, plus `w·h` per boundary output,
plus the full size of every resident tensor that is neither a boundary input
nor produced by the op set. -/
theorem C6_working_set_definition (p : Problem) (ops : List Nat) (gran : Gran)
    (residentTensors : List Nat) :
    ComputeWorkingSet p ops gran residentTensors =
      specWorkingSet p ops gran residentTensors :=
  computeWorkingSet_eq_spec p ops gran residentTensors

/-! ## C10: error conditions and traversal normalization -/

/-- Number of spatial tiles of a subgraph at a granularity
(`⌈outW/w⌉·⌈outH/h⌉`). -/
def nSpatialOf (p : Problem) (ops : List Nat) (gran : Gran) : Int :=
  let outT := tensorAt p (GetOutputTensor p ops)
  CeilDiv outT.width gran.w * CeilDiv outT.height gran.h

/-- The default row-major identity traversal `0 … nSpatial−1`. -/
def identityTraversal (p : Problem) (ops : List Nat) (gran : Gran) : List Int :=
  (List.range (nSpatialOf p ops gran).toNat).map Int.ofNat

theorem evalDetailed_error_iff (p : Problem) (ops : List Nat) (gran : Gran)
    (tensorsToRetain : List Nat) (traversalOrder : List Int)
    (residentTensors : List Nat) :
    EvaluateSubgraphDetailed p ops gran tensorsToRetain traversalOrder
        residentTensors = none ↔
      (ops = [] ∨ gran.w ≤ 0 ∨ gran.h ≤ 0 ∨ gran.k ≤ 0) := by
  simp only [EvaluateSubgraphDetailed]
  by_cases h1 : ops = []
  · simp [h1]
  · by_cases h2 : gran.w ≤ 0 ∨ gran.h ≤ 0 ∨ gran.k ≤ 0
    · simp [h1, h2]
    · simp [h1, h2]

theorem evalDetailed_normalizes_traversal (p : Problem) (ops : List Nat)
    (gran : Gran) (tensorsToRetain : List Nat) (traversalOrder : List Int)
    (residentTensors : List Nat)
    (hlen : traversalOrder.length ≠ (nSpatialOf p ops gran).toNat) :
    EvaluateSubgraphDetailed p ops gran tensorsToRetain traversalOrder
        residentTensors =
      EvaluateSubgraphDetailed p ops gran tensorsToRetain
        (identityTraversal p ops gran) residentTensors := by
  simp only [EvaluateSubgraphDetailed, identityTraversal, nSpatialOf] at hlen ⊢
  by_cases h1 : ops = []
  · simp [h1]
  · by_cases h2 : gran.w ≤ 0 ∨ gran.h ≤ 0 ∨ gran.k ≤ 0
    · simp [h1, h2]
    · simp only [h1, h2, if_false, ite_false]
      rw [if_neg hlen, if_pos (by simp)]

/-- C10: `EvaluateSubgraphDetailed` rejects only an empty op list or a
non-positive granularity component; any supplied traversal order whose length
differs from the number of spatial tiles is silently replaced by the row-major
identity order `0 … nSpatial−1`, so such a solution is priced as default
row-major rather than rejected. -/
theorem C10_traversal_normalization (p : Problem) (ops : List Nat) (gran : Gran)
    (tensorsToRetain : List Nat) (traversalOrder : List Int)
    (residentTensors : List Nat) :
    (EvaluateSubgraphDetailed p ops gran tensorsToRetain traversalOrder
        residentTensors = none ↔
      (ops = [] ∨ gran.w ≤ 0 ∨ gran.h ≤ 0 ∨ gran.k ≤ 0)) ∧
    (traversalOrder.length ≠ (nSpatialOf p ops gran).toNat →
      EvaluateSubgraphDetailed p ops gran tensorsToRetain traversalOrder
          residentTensors =
        EvaluateSubgraphDetailed p ops gran tensorsToRetain
          (identityTraversal p ops gran) residentTensors) :=
  ⟨evalDetailed_error_iff p ops gran tensorsToRetain traversalOrder residentTensors,
    fun hlen => evalDetailed_normalizes_traversal p ops gran tensorsToRetain
      traversalOrder residentTensors hlen⟩

/-- The concrete one-op problem used by several witnesses. -/
def pWitness : Problem :=
  { tensors := [⟨4, 4⟩, ⟨4, 4⟩]
    ops := [⟨"Pointwise", [0], [1], 5⟩]
    fastMemoryCapacity := 100
    slowMemoryBandwidth := 1
    nativeGranularity := (4, 4) }

/-- C10 witness: a two-element traversal supplied for a one-tile subgraph is
not rejected and is priced as the default row-major order. -/
theorem C10_traversal_normalization_witness :
    (EvaluateSubgraphDetailed pWitness [0] ⟨4, 4, 1⟩ [] [1, 0] [] = none ↔
      (([0] : List Nat) = [] ∨ (4 : Int) ≤ 0 ∨ (4 : Int) ≤ 0 ∨ (1 : Int) ≤ 0)) ∧
    ([1, 0] : List Int).length ≠ (nSpatialOf pWitness [0] ⟨4, 4, 1⟩).toNat ∧
    EvaluateSubgraphDetailed pWitness [0] ⟨4, 4, 1⟩ [] [1, 0] [] =
      EvaluateSubgraphDetailed pWitness [0] ⟨4, 4, 1⟩ []
        (identityTraversal pWitness [0] ⟨4, 4, 1⟩) [] :=
  ⟨(C10_traversal_normalization pWitness [0] ⟨4, 4, 1⟩ [] [1, 0] []).1,
    by decide,
    (C10_traversal_normalization pWitness [0] ⟨4, 4, 1⟩ [] [1, 0] []).2 (by decide)⟩

/-! ## C9: the retention pruner never increases total latency -/

/-- Sum of the stored latencies of a schedule. -/
def totalEntriesLatency (s : List ScheduleEntry) : ℚ :=
  (s.map (fun e => e.latency)).sum

/-- Stored latency of an optional neighbour entry. -/
def optLatency : Option ScheduleEntry → ℚ
  | some f => f.latency
  | none => 0

theorem pruneEntryAux_next_none (p : Problem) (residentI : List Nat) :
    ∀ (cnt : Nat) (e : ScheduleEntry) (imp : Bool),
      (pruneEntryAux p residentI cnt e none imp).2.1 = none := by
  intro cnt
  induction cnt with
  | zero => intro e imp; simp [pruneEntryAux]
  | succ n ih =>
    intro e imp
    simp only [pruneEntryAux]
    cases hEv : EvaluateSubgraphDetailed p e.ops e.granularity (e.retain.eraseIdx n)
      e.traversal residentI with
    | none => exact ih e imp
    | some latI =>
      dsimp only
      by_cases hc : latI < e.latency + 0
      · rw [if_pos hc]
        exact ih _ true
      · rw [if_neg hc]
        exact ih e imp

theorem pruneEntryAux_latency (p : Problem) (residentI : List Nat) :
    ∀ (cnt : Nat) (e : ScheduleEntry) (next : Option ScheduleEntry) (imp : Bool),
      (pruneEntryAux p residentI cnt e next imp).1.latency +
        optLatency (pruneEntryAux p residentI cnt e next imp).2.1 ≤
      e.latency + optLatency next := by
  intro cnt
  induction cnt with
  | zero =>
    intro e next imp
    simp [pruneEntryAux]
  | succ n ih =>
    intro e next imp
    cases next with
    | none =>
      simp only [pruneEntryAux]
      cases hEv : EvaluateSubgraphDetailed p e.ops e.granularity (e.retain.eraseIdx n)
        e.traversal residentI with
      | none => exact ih e none imp
      | some latI =>
        dsimp only
        by_cases hc : latI < e.latency + 0
        · rw [if_pos hc]
          have h2 := ih { e with retain := e.retain.eraseIdx n, latency := latI } none true
          rw [pruneEntryAux_next_none p residentI n _ true] at h2 ⊢
          simp only [optLatency] at h2 ⊢
          linarith
        · rw [if_neg hc]
          exact ih e none imp
    | some f =>
      simp only [pruneEntryAux]
      cases hEv : EvaluateSubgraphDetailed p e.ops e.granularity (e.retain.eraseIdx n)
        e.traversal residentI with
      | none => exact ih e (some f) imp
      | some latI =>
        dsimp only
        cases hEv2 : EvaluateSubgraphDetailed p f.ops f.granularity f.retain
          f.traversal (e.retain.eraseIdx n) with
        | none => exact ih e (some f) imp
        | some latNext =>
          dsimp only
          by_cases hc : latI + latNext < e.latency + f.latency
          · rw [if_pos hc]
            have h2 := ih { e with retain := e.retain.eraseIdx n, latency := latI }
              (some { f with latency := latNext }) true
            simp only [optLatency] at h2 ⊢
            calc (pruneEntryAux p residentI n
                  { e with retain := e.retain.eraseIdx n, latency := latI }
                  (some { f with latency := latNext }) true).1.latency +
                optLatency (pruneEntryAux p residentI n
                  { e with retain := e.retain.eraseIdx n, latency := latI }
                  (some { f with latency := latNext }) true).2.1
                ≤ latI + latNext := h2
              _ ≤ e.latency + f.latency := by linarith
          · rw [if_neg hc]
            exact ih e (some f) imp

theorem pruneEntryAux_next_isSome (p : Problem) (residentI : List Nat) :
    ∀ (cnt : Nat) (e : ScheduleEntry) (f : ScheduleEntry) (imp : Bool),
      (pruneEntryAux p residentI cnt e (some f) imp).2.1.isSome = true := by
  intro cnt
  induction cnt with
  | zero => intro e f imp; simp [pruneEntryAux]
  | succ n ih =>
    intro e f imp
    simp only [pruneEntryAux]
    cases hEv : EvaluateSubgraphDetailed p e.ops e.granularity (e.retain.eraseIdx n)
      e.traversal residentI with
    | none => exact ih e f imp
    | some latI =>
      dsimp only
      cases hEv2 : EvaluateSubgraphDetailed p f.ops f.granularity f.retain
        f.traversal (e.retain.eraseIdx n) with
      | none => exact ih e f imp
      | some latNext =>
        dsimp only
        by_cases hc : latI + latNext < e.latency + f.latency
        · rw [if_pos hc]
          exact ih _ _ true
        · rw [if_neg hc]
          exact ih e f imp

theorem prunePassAux_latency (p : Problem) :
    ∀ (n : Nat) (s : List ScheduleEntry) (residentI : List Nat), s.length ≤ n →
      totalEntriesLatency (prunePassAux p residentI s).1 ≤ totalEntriesLatency s := by
  intro n
  induction n with
  | zero =>
    intro s residentI hlen
    have : s = [] := List.length_eq_zero.mp (Nat.le_zero.mp hlen)
    subst this
    simp [prunePassAux, totalEntriesLatency]
  | succ m ih =>
    intro s residentI hlen
    match s with
    | [] => simp [prunePassAux, totalEntriesLatency]
    | [e] =>
      have h := pruneEntryAux_latency p residentI e.retain.length e none false
      rw [pruneEntryAux_next_none p residentI e.retain.length e false] at h
      simp only [prunePassAux, totalEntriesLatency, List.map_cons, List.map_nil,
        List.sum_cons, List.sum_nil]
      simp only [optLatency] at h
      linarith
    | e :: f :: rest =>
      have h := pruneEntryAux_latency p residentI e.retain.length e (some f) false
      simp only [prunePassAux]
      set r := pruneEntryAux p residentI e.retain.length e (some f) false with hr
      have hlen2 : (r.2.1.getD f :: rest).length ≤ m := by
        simp at hlen ⊢
        omega
      have ihr := ih (r.2.1.getD f :: rest) r.1.retain hlen2
      have hoptSome := pruneEntryAux_spec p residentI e.retain.length e (some f) false
        (Nat.le_refl _)
      have hgetD : optLatency r.2.1 = (r.2.1.getD f).latency ∨ r.2.1 = none := by
        cases hc : r.2.1 with
        | none => right; rfl
        | some f1 => left; simp [optLatency, List.getD]
      simp only [totalEntriesLatency, List.map_cons, List.sum_cons] at ihr ⊢
      cases hc : r.2.1 with
      | none =>
        exfalso
        have hs := pruneEntryAux_next_isSome p residentI e.retain.length e f false
        rw [← hr, hc] at hs
        simp at hs
      | some f1 =>
        have hf1 : (r.2.1.getD f) = f1 := by rw [hc]; rfl
        rw [hf1] at ihr
        have hlat : r.1.latency + f1.latency ≤ e.latency + f.latency := by
          have h2 := h
          rw [hc] at h2
          simpa [optLatency] using h2
        simp only [hc, Option.getD_some]
        linarith

theorem pruneRetentions_latency_le (p : Problem) :
    ∀ (n : Nat) (s : List ScheduleEntry), totalRetain s ≤ n →
      totalEntriesLatency (pruneRetentions p s) ≤ totalEntriesLatency s := by
  intro n
  induction n with
  | zero =>
    intro s h0
    rw [pruneRetentions]
    by_cases h : (prunePassAux p [] s).2 = true
    · exfalso
      have := (prunePassAux_retain p s.length s [] (Nat.le_refl _)).2 h
      omega
    · rw [dif_neg h]
      exact prunePassAux_latency p s.length s [] (Nat.le_refl _)
  | succ m ih =>
    intro s hle
    rw [pruneRetentions]
    by_cases h : (prunePassAux p [] s).2 = true
    · rw [dif_pos h]
      have hlt := (prunePassAux_retain p s.length s [] (Nat.le_refl _)).2 h
      calc totalEntriesLatency (pruneRetentions p (prunePassAux p [] s).1)
          ≤ totalEntriesLatency (prunePassAux p [] s).1 :=
            ih (prunePassAux p [] s).1 (by omega)
        _ ≤ totalEntriesLatency s := prunePassAux_latency p s.length s [] (Nat.le_refl _)
    · rw [dif_neg h]
      exact prunePassAux_latency p s.length s [] (Nat.le_refl _)

/-- C9: the retention pruner never increases total latency — the sum of the
stored subgraph latencies after `pruneRetentions` is at most the sum before
(a removal is kept only when the affected pair's latencies strictly
decrease). -/
theorem C9_prune_retentions_monotone (p : Problem) (schedule : List ScheduleEntry) :
    totalEntriesLatency (pruneRetentions p schedule) ≤ totalEntriesLatency schedule :=
  pruneRetentions_latency_le p (totalRetain schedule) schedule (Nat.le_refl _)

/-! ## C8: the (1,1,1) fallback granularity -/

theorem mem_one_halvingsAux :
    ∀ (fuel : Nat) (v : Int), 1 ≤ v → v.toNat ≤ fuel →
      (1 : Int) ∈ halvingsDownTo.halvingsAux fuel v 1 := by
  intro fuel
  induction fuel with
  | zero => intro v h1 h2; omega
  | succ m ih =>
    intro v h1 h2
    rw [halvingsDownTo.halvingsAux]
    rw [if_pos (by omega)]
    by_cases hv : v = 1
    · subst hv
      exact List.mem_cons_self _ _
    · have h2v : 2 ≤ v := by omega
      have htd : v.tdiv 2 = v / 2 := Int.tdiv_eq_ediv (by omega) (by omega)
      refine List.mem_cons_of_mem _ (ih (v.tdiv 2) ?_ ?_)
      · omega
      · omega

theorem mem_one_halvingsDownTo (v : Int) (h1 : 1 ≤ v) :
    (1 : Int) ∈ halvingsDownTo v 1 :=
  mem_one_halvingsAux v.toNat v h1 (Nat.le_refl _)

theorem getMaxK_ge_one (p : Problem) (ops : List Nat) : 1 ≤ GetMaxK p ops := by
  unfold GetMaxK
  suffices h : ∀ (l : List Nat) (a : Int), 1 ≤ a →
      1 ≤ l.foldl (fun mk i =>
        let op := opAt p i
        if op.opType = "MatMul" then
          let lhs := tensorAt p (op.inputs.getD 0 0)
          if lhs.width > mk then lhs.width else mk
        else mk) a by
    exact h ops 1 (by omega)
  intro l
  induction l with
  | nil => intro a ha; simpa using ha
  | cons x xs ih =>
    intro a ha
    simp only [List.foldl_cons]
    by_cases hty : (opAt p x).opType = "MatMul"
    · by_cases hw : (tensorAt p ((opAt p x).inputs.getD 0 0)).width > a
      · exact ih _ (by simp [hty, hw]; omega)
      · exact ih _ (by simp [hty, hw]; omega)
    · exact ih _ (by simp [hty]; omega)

theorem getMaxK_no_matmul (p : Problem) (ops : List Nat)
    (h : HasMatMul p ops = false) : GetMaxK p ops = 1 := by
  unfold GetMaxK
  unfold HasMatMul at h
  induction ops with
  | nil => rfl
  | cons x xs ih =>
    simp only [List.any_cons, Bool.or_eq_false_iff] at h
    simp only [List.foldl_cons]
    rw [if_neg (by simpa using h.1)]
    exact ih h.2

theorem one_one_one_mem_scan (p : Problem) (ops : List Nat)
    (hnw : 1 ≤ p.nativeGranularity.1) (hnh : 1 ≤ p.nativeGranularity.2) :
    (⟨1, 1, 1⟩ : Gran) ∈
      (halvingsDownTo p.nativeGranularity.1 1).flatMap
        (fun w => (halvingsDownTo p.nativeGranularity.2 1).flatMap
          (fun h => (if HasMatMul p ops then halvingsDownTo (GetMaxK p ops) 1
            else [GetMaxK p ops]).map (fun k => (⟨w, h, k⟩ : Gran)))) := by
  rw [List.mem_flatMap]
  refine ⟨1, mem_one_halvingsDownTo _ hnw, ?_⟩
  rw [List.mem_flatMap]
  refine ⟨1, mem_one_halvingsDownTo _ hnh, ?_⟩
  rw [List.mem_map]
  refine ⟨1, ?_, rfl⟩
  by_cases hm : HasMatMul p ops
  · rw [if_pos hm]
    exact mem_one_halvingsDownTo _ (getMaxK_ge_one p ops)
  · rw [if_neg hm]
    rw [getMaxK_no_matmul p ops (by simpa using hm)]
    exact List.mem_singleton.mpr rfl

/-- At granularity (1,1,1) every tile term is one unit. -/
theorem workingSet_one (p : Problem) (ops : List Nat) :
    ComputeWorkingSet p ops ⟨1, 1, 1⟩ [] =
      ((GetSubgraphBoundary p ops).boundaryInputs.length : Int) +
      ((GetSubgraphBoundary p ops).boundaryOutputs.length : Int) := by
  rw [computeWorkingSet_eq_spec]
  simp only [specWorkingSet, specRoleTileSize]
  have h1 : ((GetSubgraphBoundary p ops).boundaryInputs.map
      (fun t => if t ∈ ([] : List Nat) then FullTensorSize p t
        else if InputTileRole p ops t = "LHS" then (1 : Int) * 1
        else if InputTileRole p ops t = "RHS" then 1 * 1 else 1 * 1)).sum =
      ((GetSubgraphBoundary p ops).boundaryInputs.length : Int) := by
    have : ∀ (l : List Nat), (l.map
        (fun t => if t ∈ ([] : List Nat) then FullTensorSize p t
          else if InputTileRole p ops t = "LHS" then (1 : Int) * 1
          else if InputTileRole p ops t = "RHS" then 1 * 1 else 1 * 1)).sum =
        (l.length : Int) := by
      intro l
      induction l with
      | nil => simp
      | cons x xs ih =>
        simp only [List.map_cons, List.sum_cons, List.length_cons, ih]
        have : (if x ∈ ([] : List Nat) then FullTensorSize p x
          else if InputTileRole p ops x = "LHS" then (1 : Int) * 1
          else if InputTileRole p ops x = "RHS" then 1 * 1 else 1 * 1) = 1 := by
          simp only [List.not_mem_nil, if_false]
          by_cases h1 : InputTileRole p ops x = "LHS" <;>
            by_cases h2 : InputTileRole p ops x = "RHS" <;> simp [h1, h2]
        rw [this]
        push_cast
        ring
    exact this _
  rw [h1]
  simp [dedupKeep]

/-- C8 counterexample problem: a single pointwise op with fast-memory
capacity 1. -/
def pC8 : Problem :=
  { tensors := [⟨4, 4⟩, ⟨4, 4⟩]
    ops := [⟨"Pointwise", [0], [1], 5⟩]
    fastMemoryCapacity := 1
    slowMemoryBandwidth := 1
    nativeGranularity := (4, 4) }

/-- C8 counterexample: with capacity 1 the working set at (1,1,1) is 2 (one
unit per boundary tensor), so (1,1,1) is not feasible and the halving
fallback returns an infeasible granularity. -/
theorem C8_counterexample :
    ([0] : List Nat) ≠ [] ∧
    ¬(ComputeWorkingSet pC8 [0] ⟨1, 1, 1⟩ [] ≤ pC8.fastMemoryCapacity) ∧
    findSmallestFeasible pC8 [0] [] = ⟨1, 1, 1⟩ ∧
    ¬(ComputeWorkingSet pC8 [0] (findSmallestFeasible pC8 [0] []) [] ≤
      pC8.fastMemoryCapacity) := by
  refine ⟨by decide, by decide, by decide, by decide⟩

/-- C8 amended: the working set of any op set at granularity (1,1,1) with
empty residency equals the number of boundary tensors (one memory unit per
boundary input plus one per boundary output); it fits in capacity, and the
halving fallback returns a granularity whose working set fits in capacity,
exactly when the capacity is at least that count — not unconditionally. -/
theorem C8_one_one_one_feasible (p : Problem) (ops : List Nat)
    (hnw : 1 ≤ p.nativeGranularity.1) (hnh : 1 ≤ p.nativeGranularity.2)
    (hcap : ((GetSubgraphBoundary p ops).boundaryInputs.length : Int) +
      ((GetSubgraphBoundary p ops).boundaryOutputs.length : Int) ≤
      p.fastMemoryCapacity) :
    ComputeWorkingSet p ops ⟨1, 1, 1⟩ [] ≤ p.fastMemoryCapacity ∧
    ComputeWorkingSet p ops (findSmallestFeasible p ops []) [] ≤
      p.fastMemoryCapacity := by
  have hws : ComputeWorkingSet p ops ⟨1, 1, 1⟩ [] ≤ p.fastMemoryCapacity := by
    rw [workingSet_one]
    exact hcap
  refine ⟨hws, ?_⟩
  simp only [findSmallestFeasible]
  cases hfind : ((halvingsDownTo p.nativeGranularity.1 1).flatMap
      (fun w => (halvingsDownTo p.nativeGranularity.2 1).flatMap
        (fun h => (if HasMatMul p ops then halvingsDownTo (GetMaxK p ops) 1
          else [GetMaxK p ops]).map (fun k => (⟨w, h, k⟩ : Gran))))).find?
      (fun g => decide (ComputeWorkingSet p ops g [] ≤ p.fastMemoryCapacity)) with
  | none =>
    exfalso
    have hmem := one_one_one_mem_scan p ops hnw hnh
    have hlt := List.find?_eq_none.mp hfind _ hmem
    simp at hlt
    omega
  | some g =>
    have hpred := List.find?_some hfind
    simp at hpred
    simpa using hpred

/-- C8 amended witness. -/
theorem C8_one_one_one_feasible_witness :
    (1 : Int) ≤ pWitness.nativeGranularity.1 ∧
    (1 : Int) ≤ pWitness.nativeGranularity.2 ∧
    ((GetSubgraphBoundary pWitness [0]).boundaryInputs.length : Int) +
      ((GetSubgraphBoundary pWitness [0]).boundaryOutputs.length : Int) ≤
      pWitness.fastMemoryCapacity ∧
    (ComputeWorkingSet pWitness [0] ⟨1, 1, 1⟩ [] ≤ pWitness.fastMemoryCapacity ∧
      ComputeWorkingSet pWitness [0] (findSmallestFeasible pWitness [0] []) [] ≤
        pWitness.fastMemoryCapacity) :=
  ⟨by decide, by decide, by decide,
    C8_one_one_one_feasible pWitness [0] (by decide) (by decide) (by decide)⟩

/-! ## C5: the detailed latency model as a closed-form double sum -/

/-- Number of k-steps of a subgraph at a granularity (`⌈maxK/k⌉`). -/
def nKOf (p : Problem) (ops : List Nat) (gran : Gran) : Int :=
  CeilDiv (GetMaxK p ops) gran.k

/-- Sum of the base costs of the ops (`computePerStep`). -/
def computePerStepOf (p : Problem) (ops : List Nat) : Int :=
  ops.foldl (fun acc i => acc + (opAt p i).baseCost) 0

/-- The specification's reuse rule for one boundary input at spatial step `s`
and k-step `j`: (b) on k-step 0 of a step after the first, a MatMul LHS
reuses when the tile shares the previous tile's row and an RHS when it shares
the previous column (Pointwise never reuses across spatial tiles); (c) on a
later k-step exactly the Pointwise inputs reuse. -/
def specReuse (role : String) (s j : Nat) (row col prevRow prevCol : Int) : Prop :=
  (j = 0 ∧ s > 0 ∧ ((role = "LHS" ∧ row = prevRow) ∨ (role = "RHS" ∧ col = prevCol)))
  ∨ (j > 0 ∧ role = "PW")

instance (role : String) (s j : Nat) (row col prevRow prevCol : Int) :
    Decidable (specReuse role s j row col prevRow prevCol) := by
  unfold specReuse
  infer_instance

/-- The specification's loaded bytes for one `(s, j)` step: each boundary
input contributes its tile size unless it is resident (never loaded) or the
reuse rule applies, and on the final k-step each boundary output not in the
retention set adds `w·h` eviction bytes. -/
def specBytesAt (p : Problem) (ops : List Nat) (gran : Gran)
    (tensorsToRetain residentTensors : List Nat) (nKNat : Nat) (s j : Nat)
    (row col prevRow prevCol : Int) : Int :=
  let b := GetSubgraphBoundary p ops
  (b.boundaryInputs.map
    (fun t =>
      if t ∈ residentTensors then 0
      else if specReuse (InputTileRole p ops t) s j row col prevRow prevCol then 0
      else InputTileSize p ops t gran.w gran.h gran.k)).sum
  + (if j = nKNat - 1 then
      ((b.boundaryOutputs.filter (· ∉ tensorsToRetain)).length : Int) *
        (gran.w * gran.h)
    else 0)

/-- Row of the `s`-th visited tile of a traversal. -/
def rowOfStep (trav : List Int) (nCols : Int) (s : Nat) : Int :=
  (trav.getD s 0).tdiv nCols

/-- Column of the `s`-th visited tile of a traversal. -/
def colOfStep (trav : List Int) (nCols : Int) (s : Nat) : Int :=
  (trav.getD s 0).tmod nCols

/-- The previous tile's (row, col) for the `s`-th step (`(-1, -1)` before the
first step, as in the source). -/
def prevOfStep (trav : List Int) (nCols : Int) (s : Nat) : Int × Int :=
  if s = 0 then (-1, -1)
  else (rowOfStep trav nCols (s - 1), colOfStep trav nCols (s - 1))

/-- The specification's detailed latency: accumulate, over spatial tiles in
traversal order and k-steps within each tile, the step latency
`max(computePerStep, loaded_bytes / bandwidth)`. -/
def specDetailedLatency (p : Problem) (ops : List Nat) (gran : Gran)
    (tensorsToRetain residentTensors : List Nat) (trav : List Int) : ℚ :=
  let nCols := CeilDiv (tensorAt p (GetOutputTensor p ops)).width gran.w
  let nK := nKOf p ops gran
  let compute : ℚ := (computePerStepOf p ops : ℚ)
  let bw : ℚ := (p.slowMemoryBandwidth : ℚ)
  ((List.range (nSpatialOf p ops gran).toNat).map
    (fun s =>
      ((List.range nK.toNat).map
        (fun j =>
          MaxFloat compute
            ((specBytesAt p ops gran tensorsToRetain residentTensors nK.toNat s j
              (rowOfStep trav nCols s) (colOfStep trav nCols s)
              (prevOfStep trav nCols s).1 (prevOfStep trav nCols s).2 : Int) / bw))).sum)).sum

theorem specReuse_code_eq (role : String) (s j : Nat) (row col prevRow prevCol : Int) :
    (if s > 0 ∧ j = 0 then
        (role = "LHS" ∧ row = prevRow) ∨ (role = "RHS" ∧ col = prevCol)
      else if j > 0 then role = "PW"
      else False) ↔ specReuse role s j row col prevRow prevCol := by
  unfold specReuse
  by_cases hsj : s > 0 ∧ j = 0
  · rw [if_pos hsj]
    constructor
    · intro hr
      exact Or.inl ⟨hsj.2, hsj.1, hr⟩
    · rintro (⟨_, _, hd⟩ | ⟨hj, _⟩)
      · exact hd
      · omega
  · rw [if_neg hsj]
    by_cases hj : j > 0
    · rw [if_pos hj]
      constructor
      · intro hpw
        exact Or.inr ⟨hj, hpw⟩
      · rintro (⟨hj0, _, _⟩ | ⟨_, hpw⟩)
        · omega
        · exact hpw
    · rw [if_neg hj]
      constructor
      · intro h
        exact h.elim
      · rintro (⟨hj0, hs, _⟩ | ⟨hj1, _⟩)
        · exact absurd ⟨hs, hj0⟩ hsj
        · omega

theorem stepMemoryBytes_eq_spec (p : Problem) (ops : List Nat) (gran : Gran)
    (tensorsToRetain residentTensors : List Nat) (nKNat : Nat) (s j : Nat)
    (row col prevRow prevCol : Int) :
    stepMemoryBytes p ops gran.w gran.h
        (boundaryInputListOf p ops gran.w gran.h gran.k) tensorsToRetain
        residentTensors nKNat s j row col prevRow prevCol =
      specBytesAt p ops gran tensorsToRetain residentTensors nKNat s j
        row col prevRow prevCol := by
  simp only [stepMemoryBytes, specBytesAt, boundaryInputListOf]
  have hin : ∀ (l : List Nat) (a : Int),
      (l.map (fun tIdx => (⟨tIdx, InputTileRole p ops tIdx,
          InputTileSize p ops tIdx gran.w gran.h gran.k,
          FullTensorSize p tIdx⟩ : TileInputInfo))).foldl
        (fun mb info =>
          if info.tensorIdx ∈ residentTensors then mb
          else
            let canReuse :=
              if s > 0 ∧ j = 0 then
                (info.role = "LHS" ∧ row = prevRow) ∨ (info.role = "RHS" ∧ col = prevCol)
              else if j > 0 then info.role = "PW"
              else False
            if canReuse then mb else mb + info.tileSize) a =
      a + (l.map (fun t =>
        if t ∈ residentTensors then 0
        else if specReuse (InputTileRole p ops t) s j row col prevRow prevCol then 0
        else InputTileSize p ops t gran.w gran.h gran.k)).sum := by
    intro l
    induction l with
    | nil => intro a; simp
    | cons x xs ih =>
      intro a
      simp only [List.map_cons, List.foldl_cons, List.sum_cons]
      by_cases hres : x ∈ residentTensors
      · rw [if_pos hres, if_pos hres, ih]
        ring
      · rw [if_neg hres, if_neg hres]
        by_cases hreuse : specReuse (InputTileRole p ops x) s j row col prevRow prevCol
        · rw [if_pos ((specReuse_code_eq _ s j row col prevRow prevCol).mpr hreuse),
            if_pos hreuse, ih]
          ring
        · rw [if_neg (fun hc => hreuse ((specReuse_code_eq _ s j row col prevRow prevCol).mp hc)),
            if_neg hreuse, ih]
          ring
  have hev : ∀ (l : List Nat) (a : Int),
      l.foldl (fun acc t => if t ∈ tensorsToRetain then acc else acc + gran.w * gran.h) a =
      a + ((l.filter (fun t => t ∉ tensorsToRetain)).length : Int) * (gran.w * gran.h) := by
    intro l
    intro a
    induction l generalizing a with
    | nil => simp
    | cons x xs ih =>
      simp only [List.foldl_cons, List.filter_cons]
      by_cases hx : x ∈ tensorsToRetain
      · rw [if_pos hx, if_neg (by simpa using hx), ih]
      · rw [if_neg hx, if_pos (by simpa using hx), ih]
        simp only [List.length_cons]
        push_cast
        ring
  by_cases hj : j = nKNat - 1
  · rw [if_pos hj, if_pos hj, hin, hev]
    ring
  · rw [if_neg hj, if_neg hj, hin]
    ring

theorem spatialFold_spec (p : Problem) (ops : List Nat) (gran : Gran)
    (tensorsToRetain residentTensors : List Nat) (trav : List Int)
    (nCols : Int) (nKNat : Nat) (compute : Int) (bw : ℚ) :
    ∀ m : Nat,
      (List.range m).foldl
        (spatialStep p ops gran.w gran.h
          (boundaryInputListOf p ops gran.w gran.h gran.k) tensorsToRetain
          residentTensors trav nCols nKNat compute bw) (0, -1, -1) =
      (((List.range m).map
          (fun s =>
            ((List.range nKNat).map
              (fun j =>
                MaxFloat (compute : ℚ)
                  ((specBytesAt p ops gran tensorsToRetain residentTensors nKNat s j
                    (rowOfStep trav nCols s) (colOfStep trav nCols s)
                    (prevOfStep trav nCols s).1 (prevOfStep trav nCols s).2 : Int) /
                    bw))).sum)).sum,
        (prevOfStep trav nCols m).1, (prevOfStep trav nCols m).2) := by
  intro m
  induction m with
  | zero => simp [prevOfStep]
  | succ n ih =>
    rw [List.range_succ, List.foldl_append, ih]
    simp only [List.foldl_cons, List.foldl_nil]
    rw [List.map_append, List.sum_append]
    simp only [List.map_cons, List.map_nil, List.sum_cons, List.sum_nil, add_zero]
    simp only [spatialStep]
    have hrowcol : ∀ s : Nat, (trav.getD s 0).tdiv nCols = rowOfStep trav nCols s ∧
        (trav.getD s 0).tmod nCols = colOfStep trav nCols s := by
      intro s
      exact ⟨rfl, rfl⟩
    have hfold : ∀ (a : ℚ),
        (List.range nKNat).foldl
          (fun t kStep =>
            t + MaxFloat (compute : ℚ)
              ((stepMemoryBytes p ops gran.w gran.h
                (boundaryInputListOf p ops gran.w gran.h gran.k) tensorsToRetain
                residentTensors nKNat n kStep
                ((trav.getD n 0).tdiv nCols) ((trav.getD n 0).tmod nCols)
                (prevOfStep trav nCols n).1 (prevOfStep trav nCols n).2 : Int) / bw)) a =
        a + ((List.range nKNat).map
          (fun j =>
            MaxFloat (compute : ℚ)
              ((specBytesAt p ops gran tensorsToRetain residentTensors nKNat n j
                (rowOfStep trav nCols n) (colOfStep trav nCols n)
                (prevOfStep trav nCols n).1 (prevOfStep trav nCols n).2 : Int) /
                bw))).sum := by
      intro a
      rw [foldl_add_map_q]
      congr 1
      congr 1
      apply List.map_congr_left
      intro j _
      rw [stepMemoryBytes_eq_spec, (hrowcol n).1, (hrowcol n).2]
    rw [hfold]
    have hprev : prevOfStep trav nCols (n + 1) =
        (rowOfStep trav nCols n, colOfStep trav nCols n) := by
      simp [prevOfStep]
    rw [hprev, (hrowcol n).1, (hrowcol n).2]

/-- C5 core: under a traversal of the right length, the detailed evaluator
returns exactly the specification's double sum. -/
theorem evalDetailed_eq_specLatency (p : Problem) (ops : List Nat) (gran : Gran)
    (tensorsToRetain residentTensors : List Nat) (trav : List Int)
    (hops : ops ≠ []) (hw : 0 < gran.w) (hh : 0 < gran.h) (hk : 0 < gran.k)
    (htrav : trav.length = (nSpatialOf p ops gran).toNat) :
    EvaluateSubgraphDetailed p ops gran tensorsToRetain trav residentTensors =
      some (specDetailedLatency p ops gran tensorsToRetain residentTensors trav) := by
  simp only [EvaluateSubgraphDetailed]
  rw [if_neg hops, if_neg (by omega)]
  simp only [nSpatialOf, nKOf, computePerStepOf] at htrav ⊢
  rw [if_pos htrav]
  rw [spatialFold_spec p ops gran tensorsToRetain residentTensors trav
    (CeilDiv (tensorAt p (GetOutputTensor p ops)).width gran.w)
    (CeilDiv (GetMaxK p ops) gran.k).toNat
    (ops.foldl (fun acc i => acc + (opAt p i).baseCost) 0)
    ((p.slowMemoryBandwidth : ℚ))]
  simp only [specDetailedLatency, nSpatialOf, nKOf, computePerStepOf]

/-- C5: for every non-empty op set with positive granularity (and a traversal
of the right length), `EvaluateSubgraphDetailed` accumulates over spatial
tiles in traversal order and k-steps within each tile the step latency
`max(Σ base_costs, loaded_bytes/bandwidth)`, where a boundary input
contributes its tile size unless (a) it is resident (never loaded), (b) at
k-step 0 of a later step it is a MatMul LHS sharing the previous tile's row
or an RHS sharing the previous column (Pointwise inputs never reuse across
spatial tiles), or (c) at a k-step > 0 it is a Pointwise input (MatMul inputs
reload); on the final k-step each boundary output not in the retention set
adds `w·h` eviction bytes. -/
theorem C5_detailed_latency_model (p : Problem) (ops : List Nat) (gran : Gran)
    (tensorsToRetain residentTensors : List Nat) (trav : List Int)
    (hops : ops ≠ []) (hw : 0 < gran.w) (hh : 0 < gran.h) (hk : 0 < gran.k)
    (htrav : trav.length = (nSpatialOf p ops gran).toNat) :
    EvaluateSubgraphDetailed p ops gran tensorsToRetain trav residentTensors =
      some (specDetailedLatency p ops gran tensorsToRetain residentTensors trav) :=
  evalDetailed_eq_specLatency p ops gran tensorsToRetain residentTensors trav
    hops hw hh hk htrav

/-- C5 witness: the model evaluated on a concrete two-spatial-tile MatMul
subgraph. -/
theorem C5_detailed_latency_model_witness :
    let p : Problem :=
      { tensors := [⟨8, 4⟩, ⟨4, 8⟩, ⟨4, 4⟩, ⟨4, 4⟩]
        ops := [⟨"MatMul", [0, 1], [2], 100⟩, ⟨"Pointwise", [2], [3], 20⟩]
        fastMemoryCapacity := 50
        slowMemoryBandwidth := 1
        nativeGranularity := (4, 4) }
    EvaluateSubgraphDetailed p [0, 1] ⟨2, 4, 8⟩ [] [0, 1] [] =
      some (specDetailedLatency p [0, 1] ⟨2, 4, 8⟩ [] [] [0, 1]) := by
  intro p
  exact C5_detailed_latency_model p [0, 1] ⟨2, 4, 8⟩ [] [] [0, 1]
    (by decide) (by decide) (by decide) (by decide) (by decide)

/-! ## C7: candidate ordering and rescoring in the granularity search -/

/-- "Better beyond the 1-unit tolerance": the latency is more than one unit
below the other (`none` is `+∞`). -/
def beyondTolerance : Option ℚ → Option ℚ → Bool
  | some a, some b => decide (a + 1 < b)
  | some _, none => true
  | none, _ => false

/-- The candidate ordering exactly as the specification words it: feasible
first, then K descending, then quick-estimate latency with a floating-point
tolerance of one unit, then tile area descending. -/
def specCandLess (ci cj : CandidateGranularity) : Bool :=
  if ci.feasible ≠ cj.feasible then ci.feasible
  else if ci.k ≠ cj.k then decide (ci.k > cj.k)
  else if beyondTolerance ci.latency cj.latency then true
  else if beyondTolerance cj.latency ci.latency then false
  else decide (ci.w * ci.h > cj.w * cj.h)

theorem candLess_eq_spec (ci cj : CandidateGranularity) :
    candLess ci cj = specCandLess ci cj := by
  unfold candLess specCandLess beyondTolerance
  by_cases hf : ci.feasible ≠ cj.feasible
  · rw [if_pos hf, if_pos hf]
  · rw [if_neg hf, if_neg hf]
    by_cases hk : ci.k ≠ cj.k
    · rw [if_pos hk, if_pos hk]
    · rw [if_neg hk, if_neg hk]
      cases hla : ci.latency with
      | none =>
        cases hlb : cj.latency with
        | none => simp
        | some b => simp
      | some a =>
        cases hlb : cj.latency with
        | none => simp
        | some b =>
          dsimp only
          by_cases h1 : a + 1 < b
          · have habs : |a - b| > 1 := by
              rw [abs_sub_comm, abs_of_pos (by linarith)]
              linarith
            have hab : a - b < 0 := by linarith
            simp [habs, h1, hab]
          · by_cases h2 : b + 1 < a
            · have habs : |a - b| > 1 := by
                rw [abs_of_pos (by linarith)]
                linarith
              have hab : ¬(a - b < 0) := by linarith
              simp [habs, h1, h2, hab]
            · have habs : ¬(|a - b| > 1) :=
                not_lt.mpr (abs_le.mpr ⟨by linarith, by linarith⟩)
              simp [habs, h1, h2]

theorem olt_none_right (x : Option ℚ) : olt x none = true ↔ x ≠ none := by
  cases x <;> simp [olt]

theorem olt_irrefl_of_le (x y : Option ℚ) (h : olt x y = true ∨ x = y) :
    olt y x = false := by
  rcases h with h | h
  · cases x <;> cases y <;> simp_all [olt] <;> linarith
  · subst h
    cases x <;> simp [olt]

theorem olt_le_trans (x y z : Option ℚ) (hxy : olt x y = true ∨ x = y)
    (hyz : olt y z = true ∨ y = z) : olt x z = true ∨ x = z := by
  rcases hxy with h1 | h1 <;> rcases hyz with h2 | h2
  · left
    cases x <;> cases y <;> cases z <;> simp_all [olt] <;> linarith
  · subst h2; left; exact h1
  · subst h1; left; exact h2
  · subst h1; subst h2; right; rfl

theorem olt_trans (x y z : Option ℚ) (h1 : olt x y = true) (h2 : olt y z = true) :
    olt x z = true := by
  cases x <;> cases y <;> cases z <;> simp_all [olt] <;> linarith

theorem olt_false_of_le_of_false (a acc res : Option ℚ)
    (hmin : olt a acc = false) (hle : olt res acc = true ∨ res = acc) :
    olt a res = false := by
  rcases hle with h | h
  · cases a <;> cases acc <;> cases res <;> simp_all [olt] <;> linarith
  · subst h; exact hmin

/-- Properties of the best-candidate fold of `FindBestGranularity`:
the accumulator never increases, the result is either the start or attained
at a feasible finite-latency candidate, and no feasible candidate beats it. -/
theorem bestFold_spec :
    ∀ (l : List CandidateGranularity) (st : Option ℚ × Gran),
      (olt (l.foldl
          (fun (st : Option ℚ × Gran) c =>
            if c.feasible ∧ olt c.latency st.1 then (c.latency, ⟨c.w, c.h, c.k⟩) else st)
          st).1 st.1 = true ∨
        (l.foldl
          (fun (st : Option ℚ × Gran) c =>
            if c.feasible ∧ olt c.latency st.1 then (c.latency, ⟨c.w, c.h, c.k⟩) else st)
          st).1 = st.1) ∧
      ((l.foldl
          (fun (st : Option ℚ × Gran) c =>
            if c.feasible ∧ olt c.latency st.1 then (c.latency, ⟨c.w, c.h, c.k⟩) else st)
          st) = st ∨
        ∃ c ∈ l, c.feasible = true ∧ c.latency ≠ none ∧
          (l.foldl
            (fun (st : Option ℚ × Gran) c =>
              if c.feasible ∧ olt c.latency st.1 then (c.latency, ⟨c.w, c.h, c.k⟩) else st)
            st) = (c.latency, ⟨c.w, c.h, c.k⟩)) ∧
      (∀ c' ∈ l, c'.feasible = true →
        olt c'.latency (l.foldl
          (fun (st : Option ℚ × Gran) c =>
            if c.feasible ∧ olt c.latency st.1 then (c.latency, ⟨c.w, c.h, c.k⟩) else st)
          st).1 = false) := by
  intro l
  induction l with
  | nil =>
    intro st
    refine ⟨Or.inr rfl, Or.inl rfl, ?_⟩
    intro c' hc'
    exact absurd hc' (List.not_mem_nil c')
  | cons c rest ih =>
    intro st
    simp only [List.foldl_cons]
    by_cases hupd : c.feasible = true ∧ olt c.latency st.1 = true
    · have hcond : (c.feasible ∧ olt c.latency st.1) = True := by
        simp [hupd.1, hupd.2]
      rw [if_pos (by simp [hupd.1, hupd.2])]
      obtain ⟨ihle, ihatt, ihmin⟩ := ih (c.latency, ⟨c.w, c.h, c.k⟩)
      have hlatsome : c.latency ≠ none := by
        intro hn
        rw [hn] at hupd
        simp [olt] at hupd
      refine ⟨?_, ?_, ?_⟩
      · rcases ihle with h | h
        · left
          exact olt_trans _ _ _ h hupd.2
        · left
          simpa [h] using hupd.2
      · rcases ihatt with h | h
        · right
          exact ⟨c, List.mem_cons_self c rest, hupd.1, hlatsome, h⟩
        · obtain ⟨c2, hc2mem, hc2f, hc2some, hc2eq⟩ := h
          right
          exact ⟨c2, List.mem_cons_of_mem c hc2mem, hc2f, hc2some, hc2eq⟩
      · intro c' hc' hc'f
        rcases List.mem_cons.mp hc' with h | h
        · subst h
          exact olt_irrefl_of_le _ _ ihle
        · exact ihmin c' h hc'f
    · rw [if_neg (by
        intro hcon
        exact hupd ⟨by simpa using hcon.1, by simpa using hcon.2⟩)]
      obtain ⟨ihle, ihatt, ihmin⟩ := ih st
      refine ⟨ihle, ?_, ?_⟩
      · rcases ihatt with h | h
        · left; exact h
        · obtain ⟨c2, hc2mem, hc2f, hc2some, hc2eq⟩ := h
          right
          exact ⟨c2, List.mem_cons_of_mem c hc2mem, hc2f, hc2some, hc2eq⟩
      · intro c' hc' hc'f
        rcases List.mem_cons.mp hc' with h | h
        · subst h
          have hnolt : olt c'.latency st.1 = false := by
            by_cases hcase : olt c'.latency st.1 = true
            · exact absurd ⟨hc'f, hcase⟩ hupd
            · exact Bool.eq_false_iff.mpr (fun hcon => hcase hcon)
          exact olt_false_of_le_of_false _ _ _ hnolt ihle
        · exact ihmin c' h hc'f

theorem foldl_preserve {α β : Type} (P : β → Prop) (step : β → α → β)
    (hstep : ∀ st a, P st → P (step st a)) :
    ∀ (l : List α) (st : β), P st → P (l.foldl step st) := by
  intro l
  induction l with
  | nil => intro st h; exact h
  | cons x xs ih => intro st h; exact ih (step st x) (hstep st x h)

/-- Invariant of the candidate-accumulation state: every feasible candidate's
working set fits in capacity. -/
def candInv (p : Problem) (ops residentTensors : List Nat)
    (st : List CandidateGranularity × List Gran) : Prop :=
  ∀ c ∈ st.1, c.feasible = true →
    ComputeWorkingSet p ops ⟨c.w, c.h, c.k⟩ residentTensors ≤ p.fastMemoryCapacity

theorem addCandidate_inv (p : Problem) (ops residentTensors : List Nat)
    (outW outH maxK : Int) (hasMatmul : Bool)
    (st : List CandidateGranularity × List Gran) (w h k : Int)
    (hst : candInv p ops residentTensors st) :
    candInv p ops residentTensors
      (addCandidate p ops residentTensors outW outH maxK hasMatmul st w h k) := by
  intro c hc
  unfold addCandidate at hc
  by_cases h1 : w ≤ 0 ∨ h ≤ 0 ∨ k ≤ 0
  · rw [if_pos h1] at hc
    exact hst c hc
  · rw [if_neg h1] at hc
    simp only at hc
    by_cases h2 : (⟨if w > outW then outW else w, if h > outH then outH else h,
        if hasMatmul ∧ k > maxK then maxK else k⟩ : Gran) ∈ st.2
    · rw [if_pos h2] at hc
      exact hst c hc
    · rw [if_neg h2] at hc
      simp only at hc
      rcases List.mem_append.mp hc with hmem | hmem
      · exact hst c hmem
      · intro hcf
        have hceq := List.mem_singleton.mp hmem
        subst hceq
        simpa using hcf

theorem rawCandidates_inv (p : Problem) (ops residentTensors : List Nat) :
    candInv p ops residentTensors (rawCandidates p ops residentTensors) := by
  have h0 : candInv p ops residentTensors ([], []) := by
    intro c hc
    exact absurd hc (List.not_mem_nil c)
  simp only [rawCandidates]
  refine addCandidate_inv p ops residentTensors _ _ _ _ _ _ _ _
    (addCandidate_inv p ops residentTensors _ _ _ _ _ _ _ _
      (foldl_preserve (candInv p ops residentTensors) _
        (fun st a hst => addCandidate_inv p ops residentTensors _ _ _ _ st a.w a.h a.k hst) _ _
        (foldl_preserve (candInv p ops residentTensors) _
          (fun st w hst => foldl_preserve (candInv p ops residentTensors) _
            (fun st2 h hst2 => foldl_preserve (candInv p ops residentTensors) _
              (fun st3 k hst3 =>
                addCandidate_inv p ops residentTensors _ _ _ _ st3 w h k hst3) _ _ hst2)
            _ _ hst) _ _ h0)))

/-- Every feasible candidate produced by `generateCandidates` really has a
working set within capacity at its own (w, h, k). -/
theorem generateCandidates_feasible_ws (p : Problem) (ops : List Nat)
    (residentTensors : List Nat) :
    ∀ c ∈ generateCandidates p ops residentTensors, c.feasible = true →
      ComputeWorkingSet p ops ⟨c.w, c.h, c.k⟩ residentTensors ≤
        p.fastMemoryCapacity := by
  have hraw := rawCandidates_inv p ops residentTensors
  intro c hc hcf
  unfold generateCandidates at hc
  simp only at hc
  obtain ⟨i, hi, hceq⟩ := List.exists_of_mem_mapIdx hc
  set sorted := (rawCandidates p ops residentTensors).1.mergeSort
    (fun a b => !(candLess b a)) with hsorted
  have hsortedmem : sorted[i] ∈ (rawCandidates p ops residentTensors).1 :=
    (List.mergeSort_perm (rawCandidates p ops residentTensors).1
      (fun a b => !(candLess b a))).mem_iff.mp (List.getElem_mem hi)
  have hfields : c.w = sorted[i].w ∧ c.h = sorted[i].h ∧ c.k = sorted[i].k ∧
      c.feasible = sorted[i].feasible := by
    simp only [refineTop] at hceq
    by_cases hcase : i < min 20 sorted.length ∧ sorted[i].feasible = true
    · rw [if_pos hcase] at hceq
      cases hEv : EvaluateSubgraphDetailed p ops ⟨sorted[i].w, sorted[i].h, sorted[i].k⟩
        [] (if HasMatMul p ops ∧
            CeilDiv (tensorAt p (GetOutputTensor p ops)).width sorted[i].w *
            CeilDiv (tensorAt p (GetOutputTensor p ops)).height sorted[i].h > 1
          then SnakeTraversal
            (CeilDiv (tensorAt p (GetOutputTensor p ops)).width sorted[i].w)
            (CeilDiv (tensorAt p (GetOutputTensor p ops)).height sorted[i].h)
          else []) residentTensors with
      | some lat =>
        rw [hEv] at hceq
        subst hceq
        exact ⟨rfl, rfl, rfl, rfl⟩
      | none =>
        rw [hEv] at hceq
        subst hceq
        exact ⟨rfl, rfl, rfl, rfl⟩
    · rw [if_neg hcase] at hceq
      subst hceq
      exact ⟨rfl, rfl, rfl, rfl⟩
  have hgoal := hraw sorted[i] hsortedmem (hfields.2.2.2 ▸ hcf)
  rw [hfields.1, hfields.2.1, hfields.2.2.1]
  exact hgoal


/-- The top-20 refinement as the claim words it: rescoring under the *best*
traversal for the subgraph (`BestTraversal`), rather than the row-major
snake the source actually uses. -/
def refineTopClaimTrav (p : Problem) (ops : List Nat) (residentTensors : List Nat)
    (sorted : List CandidateGranularity) : List CandidateGranularity :=
  let topN := min 20 sorted.length
  sorted.mapIdx
    (fun i c =>
      if i < topN ∧ c.feasible then
        let gran : Gran := ⟨c.w, c.h, c.k⟩
        let trav := BestTraversal p ops gran
        match EvaluateSubgraphDetailed p ops gran [] trav residentTensors with
        | some lat => { c with latency := some lat }
        | none => c
      else c)

/-- `generateCandidates` as the claim words it (best-traversal rescoring). -/
def generateCandidatesClaimTrav (p : Problem) (ops : List Nat)
    (residentTensors : List Nat) : List CandidateGranularity :=
  let sorted := (rawCandidates p ops residentTensors).1.mergeSort
    (fun a b => !(candLess b a))
  refineTopClaimTrav p ops residentTensors sorted

/-- C7 counterexample problem: one MatMul whose RHS tile is larger than its
LHS tile, so the best traversal is the column snake. -/
def pC7 : Problem :=
  { tensors := [⟨4, 4⟩, ⟨8, 4⟩, ⟨8, 4⟩]
    ops := [⟨"MatMul", [0, 1], [2], 0⟩]
    fastMemoryCapacity := 32
    slowMemoryBandwidth := 1
    nativeGranularity := (4, 2) }

/-- C7 counterexample: the search rescores the top candidates under the
row-major snake traversal, not under the best traversal — on `pC7` the best
traversal of candidate (4,2,4) is the column snake, the two traversals price
the candidate differently (96 vs 88), and the produced candidate list differs
from the claim's best-traversal rescoring. -/
theorem C7_counterexample :
    generateCandidates pC7 [0] [] ≠ generateCandidatesClaimTrav pC7 [0] [] ∧
    BestTraversal pC7 [0] ⟨4, 2, 4⟩ = ColumnSnakeTraversal 2 2 ∧
    BestTraversal pC7 [0] ⟨4, 2, 4⟩ ≠ SnakeTraversal 2 2 ∧
    EvaluateSubgraphDetailed pC7 [0] ⟨4, 2, 4⟩ [] (SnakeTraversal 2 2) [] = some 96 ∧
    EvaluateSubgraphDetailed pC7 [0] ⟨4, 2, 4⟩ []
      (BestTraversal pC7 [0] ⟨4, 2, 4⟩) [] = some 88 := by
  refine ⟨?_, ?_, ?_, ?_, ?_⟩ <;> with_unfolding_all decide

/-- C7 amended: candidates are ordered feasible-first, then by K descending,
then by quick-estimate latency with a one-unit tolerance, then by tile area
descending (the source comparator equals that specification ordering); the
top 20 feasible candidates are rescored with the detailed model under the
row-major snake traversal (when a MatMul is present and there is more than
one spatial tile; the default order otherwise) — not the best traversal —
and whenever some feasible candidate has a finite latency the returned
granularity is a feasible candidate (working set within capacity) of minimum
resulting latency. -/
theorem C7_granularity_search :
    (∀ ci cj, candLess ci cj = specCandLess ci cj) ∧
    (∀ (p : Problem) (ops residentTensors : List Nat),
      (∃ c ∈ generateCandidates p ops residentTensors,
        c.feasible = true ∧ c.latency ≠ none) →
      ∃ c ∈ generateCandidates p ops residentTensors, c.feasible = true ∧
        ComputeWorkingSet p ops ⟨c.w, c.h, c.k⟩ residentTensors ≤
          p.fastMemoryCapacity ∧
        FindBestGranularity p ops residentTensors = ⟨c.w, c.h, c.k⟩ ∧
        ∀ c' ∈ generateCandidates p ops residentTensors, c'.feasible = true →
          olt c'.latency c.latency = false) := by
  refine ⟨candLess_eq_spec, ?_⟩
  intro p ops residentTensors hex
  obtain ⟨c0, hc0mem, hc0f, hc0some⟩ := hex
  simp only [FindBestGranularity]
  obtain ⟨hle, hatt, hmin⟩ := bestFold_spec (generateCandidates p ops residentTensors)
    (none, ⟨1, 1, 1⟩)
  rcases hatt with hatt | hatt
  · exfalso
    have hm := hmin c0 hc0mem hc0f
    rw [hatt] at hm
    simp only at hm
    have htrue : olt c0.latency none = true := (olt_none_right _).mpr hc0some
    rw [htrue] at hm
    exact Bool.true_eq_false.mp hm
  · obtain ⟨c, hcmem, hcf, hcsome, hceq⟩ := hatt
    refine ⟨c, hcmem, hcf,
      generateCandidates_feasible_ws p ops residentTensors c hcmem hcf, ?_, ?_⟩
    · rw [hceq]
      obtain ⟨q, hq⟩ := Option.ne_none_iff_exists'.mp hcsome
      simp only [hq]
    · intro c' hc' hc'f
      have := hmin c' hc' hc'f
      rw [hceq] at this
      exact this

/-- C7 amended witness: the argmin property instantiated on a concrete
problem. -/
theorem C7_granularity_search_witness :
    ∃ c ∈ generateCandidates pWitness [0] [], c.feasible = true ∧
      ComputeWorkingSet pWitness [0] ⟨c.w, c.h, c.k⟩ [] ≤
        pWitness.fastMemoryCapacity ∧
      FindBestGranularity pWitness [0] [] = ⟨c.w, c.h, c.k⟩ ∧
      ∀ c' ∈ generateCandidates pWitness [0] [], c'.feasible = true →
        olt c'.latency c.latency = false :=
  C7_granularity_search.2 pWitness [0] [] (by with_unfolding_all decide)

/-! ## C1: scheduler nondeterminism from Go map iteration order -/

/-- C1 failing input: two independent pointwise ops, so two singleton groups
are simultaneously ready when `BuildSchedule` makes its first pick. -/
def pC1 : Problem :=
  { tensors := [⟨4, 4⟩, ⟨4, 4⟩, ⟨4, 4⟩, ⟨4, 4⟩]
    ops := [⟨"Pointwise", [0], [1], 5⟩, ⟨"Pointwise", [2], [3], 7⟩]
    fastMemoryCapacity := 100
    slowMemoryBandwidth := 1
    nativeGranularity := (4, 4) }

/-- C1: `SolveOptimized` is not deterministic.  Both `[0, 1]` and `[1, 0]`
are legitimate Go enumerations of the `remaining` map (permutations of the
two ready groups), and the two runs return different solutions — the
subgraphs appear in different orders, so serialized output differs. -/
theorem C1_determinism_violated :
    ([0, 1] : List Nat).Perm (List.range 2) ∧
    ([1, 0] : List Nat).Perm (List.range 2) ∧
    SolveOptimized pC1 [[0, 1]] ≠ SolveOptimized pC1 [[1, 0]] := by
  refine ⟨by decide, by decide, by with_unfolding_all decide⟩

/-! ## C4: the single-op baseline upper bound fails -/

/-- C4 failing input: a MatMul→Pointwise chain where greedy fusion accepts
the merge thanks to the `2·bridge/bandwidth` slack even though the fused
latency exceeds the sum of the single-op latencies. -/
def pC4 : Problem :=
  { tensors := [⟨8, 4⟩, ⟨4, 8⟩, ⟨4, 4⟩, ⟨4, 4⟩]
    ops := [⟨"MatMul", [0, 1], [2], 100⟩, ⟨"Pointwise", [2], [3], 20⟩]
    fastMemoryCapacity := 50
    slowMemoryBandwidth := 1
    nativeGranularity := (4, 4) }

/-- C4: on `pC4` the optimized solver returns the fused schedule with total
latency 240 while the one-op-per-group baseline totals 232, so
`solve(p).total_latency ≤ baseline(p).total_latency` fails. -/
theorem C4_baseline_bound_violated :
    EvaluateSolution pC4 (SolveOptimized pC4 []) = some 240 ∧
    solutionTotalStored (SolveOptimized pC4 []) = 240 ∧
    EvaluateSolution pC4 (baselineSolution pC4) = some 232 ∧
    solutionTotalStored (baselineSolution pC4) = 232 ∧
    ¬(solutionTotalStored (SolveOptimized pC4 []) ≤
      solutionTotalStored (baselineSolution pC4)) := by
  with_unfolding_all decide

/-! ## C3: exactly-once coverage

`EvaluateSolution` only checks that every op index appears in *some*
subgraph (a set-membership test), so duplicated coverage is not rejected;
the solutions the pipeline itself produces do partition the ops.  The
lemmas below follow the op multiset through every stage of
`SolveOptimized`. -/

theorem headD_mem {α : Type} {l : List α} (h : l ≠ []) (d : α) : l.headD d ∈ l := by
  cases l with
  | nil => exact absurd rfl h
  | cons x xs => simp

theorem getD_zero_mem {α : Type} {l : List α} (h : l ≠ []) (d : α) : l.getD 0 d ∈ l := by
  cases l with
  | nil => exact absurd rfl h
  | cons x xs => simp

theorem getD_append_length {α : Type} (l : List α) (x d : α) :
    (l ++ [x]).getD l.length d = x := by
  simp [List.getD_eq_getElem?_getD, List.getElem?_append_right (Nat.le_refl l.length)]

theorem dedupKeep_foldl_mem {α : Type} [DecidableEq α] :
    ∀ (l acc : List α) (x : α),
      (x ∈ l.foldl (fun acc t => if t ∈ acc then acc else acc ++ [t]) acc ↔
        x ∈ acc ∨ x ∈ l) := by
  intro l
  induction l with
  | nil => intro acc x; simp
  | cons t ts ih =>
    intro acc x
    simp only [List.foldl_cons]
    rw [ih]
    by_cases ht : t ∈ acc
    · rw [if_pos ht]
      constructor
      · rintro (h | h)
        · exact Or.inl h
        · exact Or.inr (List.mem_cons_of_mem t h)
      · rintro (h | h)
        · exact Or.inl h
        · rcases List.mem_cons.mp h with h | h
          · exact Or.inl (h ▸ ht)
          · exact Or.inr h
    · rw [if_neg ht]
      simp only [List.mem_append, List.mem_singleton, List.mem_cons]
      tauto

theorem mem_dedupKeep {α : Type} [DecidableEq α] (l : List α) (x : α) :
    x ∈ dedupKeep l ↔ x ∈ l := by
  unfold dedupKeep
  rw [dedupKeep_foldl_mem]
  simp

theorem dedupKeep_nodup {α : Type} [DecidableEq α] (l : List α) :
    (dedupKeep l).Nodup := by
  have key : ∀ (l acc : List α), acc.Nodup →
      (l.foldl (fun acc t => if t ∈ acc then acc else acc ++ [t]) acc).Nodup := by
    intro l
    induction l with
    | nil => intro acc h; simpa using h
    | cons t ts ih =>
      intro acc h
      simp only [List.foldl_cons]
      by_cases ht : t ∈ acc
      · rw [if_pos ht]; exact ih acc h
      · rw [if_neg ht]
        refine ih _ ?_
        rw [List.nodup_append]
        exact ⟨h, List.nodup_singleton t, by
          intro a ha hat
          rw [List.mem_singleton.mp hat] at ha
          exact ht ha⟩
  exact key l [] List.nodup_nil

theorem perm_flatMap {α β : Type} (f : α → List β) {l1 l2 : List α}
    (h : l1.Perm l2) : (l1.flatMap f).Perm (l2.flatMap f) := by
  rw [List.flatMap_def, List.flatMap_def]
  exact (h.map f).flatten

theorem flatMap_congr_mem {α β : Type} {l : List α} {f g : α → List β}
    (h : ∀ x ∈ l, f x = g x) : l.flatMap f = l.flatMap g := by
  rw [List.flatMap_def, List.flatMap_def]
  exact congrArg List.flatten (List.map_congr_left h)

theorem getD_set_ne {α : Type} (l : List α) {i j : Nat} (a d : α) (h : i ≠ j) :
    (l.set i a).getD j d = l.getD j d := by
  simp [List.getD_eq_getElem?_getD, List.getElem?_set, h]

theorem getD_set_self {α : Type} (l : List α) {i : Nat} (a d : α) (h : i < l.length) :
    (l.set i a).getD i d = a := by
  simp [List.getD_eq_getElem?_getD, List.getElem?_set, h]

theorem range_flatMap_getD {α : Type} :
    ∀ (l : List (List α)),
      (List.range l.length).flatMap (fun g => l.getD g []) = l.flatten := by
  intro l
  induction l with
  | nil => simp
  | cons x xs ih =>
    show (List.range (xs.length + 1)).flatMap _ = _
    rw [List.range_succ_eq_map, List.flatMap_cons, List.flatMap_map]
    simp only [List.getD_cons_zero, Nat.succ_eq_add_one, List.getD_cons_succ]
    rw [ih, List.flatten_cons]

theorem foldl_preserve_mem {α β : Type} (P : β → Prop) (step : β → α → β) :
    ∀ (l : List α) (b : β), (∀ b a, a ∈ l → P b → P (step b a)) → P b →
      P (l.foldl step b) := by
  intro l
  induction l with
  | nil => intro b _ hb; simpa using hb
  | cons x xs ih =>
    intro b hstep hb
    simp only [List.foldl_cons]
    exact ih _ (fun b a ha hb => hstep b a (List.mem_cons_of_mem x ha) hb)
      (hstep b x (List.mem_cons_self x xs) hb)

/-! ### Chains cover the op set -/

theorem consumersOf_subset (p : Problem) (t : Nat) :
    consumersOf p t ⊆ List.range p.ops.length := by
  intro x hx
  rcases List.mem_flatMap.mp hx with ⟨i, hi, hxi⟩
  rcases List.mem_map.mp hxi with ⟨_, _, rfl⟩
  exact hi

theorem chainExtend_visited (p : Problem) :
    ∀ (fuel : Nat) (visited : List Nat) (cur : Nat),
      (chainExtend p fuel visited cur).2 =
        visited ++ (chainExtend p fuel visited cur).1 := by
  intro fuel
  induction fuel with
  | zero => intro visited cur; simp [chainExtend]
  | succ n ih =>
    intro visited cur
    simp only [chainExtend]
    split_ifs with h1 h2 h3
    · simp
    · dsimp only
      rw [ih]
      simp
    · simp
    · simp

theorem chainExtend_closed (p : Problem) :
    ∀ (fuel : Nat) (visited : List Nat) (cur : Nat),
      visited.Nodup → visited ⊆ List.range p.ops.length →
      (chainExtend p fuel visited cur).2.Nodup ∧
        (chainExtend p fuel visited cur).2 ⊆ List.range p.ops.length := by
  intro fuel
  induction fuel with
  | zero => intro v c hn hs; simp only [chainExtend]; exact ⟨hn, hs⟩
  | succ n ih =>
    intro v c hn hs
    simp only [chainExtend]
    split_ifs with h1 h2 h3
    · exact ⟨hn, hs⟩
    · dsimp only
      have hne : consumersOf p ((opAt p c).outputs.getD 0 0) ≠ [] := by
        intro hnil
        rw [hnil] at h2
        simp at h2
      have hnext : (consumersOf p ((opAt p c).outputs.getD 0 0)).getD 0 0 ∈
          List.range p.ops.length :=
        consumersOf_subset p _ (getD_zero_mem hne 0)
      refine ih _ _ ?_ ?_
      · rw [List.nodup_append]
        exact ⟨hn, List.nodup_singleton _, by
          intro a ha hat
          rw [List.mem_singleton.mp hat] at ha
          exact h3 ha⟩
      · intro x hx
        rcases List.mem_append.mp hx with hx | hx
        · exact hs hx
        · rw [List.mem_singleton.mp hx]; exact hnext
    · exact ⟨hn, hs⟩
    · exact ⟨hn, hs⟩

/-- Invariant of the `FindLinearChains` fold: the chains flatten to the visited
list, which is duplicate-free and within the op index range. -/
def chainsInv (p : Problem) (st : List Nat × List (List Nat)) : Prop :=
  st.2.flatten = st.1 ∧ st.1.Nodup ∧ st.1 ⊆ List.range p.ops.length

theorem chainsStep_inv (p : Problem) (st : List Nat × List (List Nat))
    (opIdx : Nat) (hop : opIdx ∈ List.range p.ops.length) (h : chainsInv p st) :
    chainsInv p (chainsStep p st opIdx) := by
  obtain ⟨hflat, hnod, hsub⟩ := h
  unfold chainsStep
  by_cases hmem : opIdx ∈ st.1
  · rw [if_pos hmem]; exact ⟨hflat, hnod, hsub⟩
  · rw [if_neg hmem]
    have hnod' : (st.1 ++ [opIdx]).Nodup := by
      rw [List.nodup_append]
      exact ⟨hnod, List.nodup_singleton _, by
        intro a ha hat
        rw [List.mem_singleton.mp hat] at ha
        exact hmem ha⟩
    have hsub' : st.1 ++ [opIdx] ⊆ List.range p.ops.length := by
      intro x hx
      rcases List.mem_append.mp hx with hx | hx
      · exact hsub hx
      · rw [List.mem_singleton.mp hx]; exact hop
    refine ⟨?_, (chainExtend_closed p _ _ _ hnod' hsub').1,
      (chainExtend_closed p _ _ _ hnod' hsub').2⟩
    show (st.2 ++ [opIdx :: (chainExtend p p.ops.length (st.1 ++ [opIdx]) opIdx).1]).flatten =
      (chainExtend p p.ops.length (st.1 ++ [opIdx]) opIdx).2
    rw [List.flatten_append, hflat, chainExtend_visited]
    simp

theorem chainsFold_covers (p : Problem) :
    ∀ (l : List Nat) (st : List Nat × List (List Nat)),
      st.1 ⊆ (l.foldl (chainsStep p) st).1 ∧
        ∀ x ∈ l, x ∈ (l.foldl (chainsStep p) st).1 := by
  intro l
  induction l with
  | nil => intro st; exact ⟨fun x hx => hx, by simp⟩
  | cons a as ih =>
    intro st
    simp only [List.foldl_cons]
    have hstep : st.1 ⊆ (chainsStep p st a).1 ∧ a ∈ (chainsStep p st a).1 := by
      unfold chainsStep
      by_cases hmem : a ∈ st.1
      · rw [if_pos hmem]; exact ⟨fun x hx => hx, hmem⟩
      · rw [if_neg hmem]
        dsimp only
        rw [chainExtend_visited]
        constructor
        · intro x hx
          exact List.mem_append.mpr (Or.inl (List.mem_append.mpr (Or.inl hx)))
        · exact List.mem_append.mpr (Or.inl (List.mem_append.mpr (Or.inr (by simp))))
    refine ⟨hstep.1.trans (ih (chainsStep p st a)).1, ?_⟩
    intro x hx
    rcases List.mem_cons.mp hx with hx | hx
    · exact (ih (chainsStep p st a)).1 (hx ▸ hstep.2)
    · exact (ih (chainsStep p st a)).2 x hx

theorem findLinearChains_flatten (p : Problem)
    (htopo : (topologicalSort p).Perm (List.range p.ops.length)) :
    (FindLinearChains p).flatten.Perm (List.range p.ops.length) := by
  unfold FindLinearChains
  have hinv : chainsInv p ((topologicalSort p).foldl (chainsStep p) ([], [])) :=
    foldl_preserve_mem (chainsInv p) (chainsStep p) _ _
      (fun st a ha h => chainsStep_inv p st a (htopo.mem_iff.mp ha) h)
      ⟨rfl, List.nodup_nil, by simp⟩
  obtain ⟨hflat, hnod, hsub⟩ := hinv
  rw [hflat, List.perm_ext_iff_of_nodup hnod (List.nodup_range _)]
  intro a
  constructor
  · exact fun ha => hsub ha
  · intro ha
    exact (chainsFold_covers p (topologicalSort p) ([], [])).2 a (htopo.mem_iff.mpr ha)

/-! ### Chain fusion splits each chain into consecutive segments -/

theorem fuseGreedyAux_flatten (p : Problem) (R : List Nat) :
    ∀ (rest cur : List Nat), (fuseGreedyAux p R cur rest).flatten = cur ++ rest := by
  intro rest
  induction rest with
  | nil => intro cur; simp [fuseGreedyAux]
  | cons c cs ih =>
    intro cur
    simp only [fuseGreedyAux]
    split_ifs with h1 h2
    · simp [ih]
    · rw [ih]
      simp
    · simp [ih]

theorem fuseChainGreedy_flatten (p : Problem) (chain R : List Nat) :
    (FuseChainGreedy p chain R).flatten = chain := by
  unfold FuseChainGreedy
  split_ifs with h
  · simp
  · cases chain with
    | nil => simp at h
    | cons x xs =>
      simp only [List.headD_cons, List.tail_cons]
      rw [fuseGreedyAux_flatten]
      rfl

theorem dpStep_snd (p : Problem) (chain R : List Nat) (maxSegLen : Nat)
    (st : List (Option ℚ) × List Nat) (i : Nat) (hi : 1 ≤ i) :
    ∃ b2, b2 < i ∧ (dpStep p chain R maxSegLen st i).2 = st.2 ++ [b2] := by
  unfold dpStep
  refine ⟨_, ?_, rfl⟩
  refine foldl_preserve_mem (fun (b : Option ℚ × Nat) => b.2 < i) _ _ _ ?_ (by omega)
  intro b j hj hb
  dsimp only
  split_ifs with hc
  · rcases List.mem_range'.mp hj with ⟨k, hk, rfl⟩
    dsimp only
    omega
  · exact hb

theorem dpFold_split (p : Problem) (chain R : List Nat) (maxSegLen : Nat) :
    ∀ (cnt s : Nat) (st : List (Option ℚ) × List Nat), 1 ≤ s →
      st.2.length = s → (∀ j, 1 ≤ j → j < s → st.2.getD j 0 < j) →
      ((List.range' s cnt).foldl (dpStep p chain R maxSegLen) st).2.length = s + cnt ∧
      ∀ j, 1 ≤ j → j < s + cnt →
        ((List.range' s cnt).foldl (dpStep p chain R maxSegLen) st).2.getD j 0 < j := by
  intro cnt
  induction cnt with
  | zero =>
    intro s st h1 hlen hinv
    constructor
    · simpa using hlen
    · intro j hj1 hj2
      exact hinv j hj1 (by omega)
  | succ m ih =>
    intro s st h1 hlen hinv
    rw [List.range'_succ]
    simp only [List.foldl_cons]
    obtain ⟨b2, hb2, heq⟩ := dpStep_snd p chain R maxSegLen st s h1
    have hlen' : (dpStep p chain R maxSegLen st s).2.length = s + 1 := by
      rw [heq]
      simp [hlen]
    have hinv' : ∀ j, 1 ≤ j → j < s + 1 →
        (dpStep p chain R maxSegLen st s).2.getD j 0 < j := by
      intro j hj1 hjs
      rw [heq]
      by_cases hjlt : j < s
      · rw [List.getD_append _ _ _ _ (by omega : j < st.2.length)]
        exact hinv j hj1 hjlt
      · have hj : j = s := by omega
        subst hj
        rw [← hlen, getD_append_length]
        omega
    have hrec := ih (s + 1) (dpStep p chain R maxSegLen st s) (by omega) hlen' hinv'
    constructor
    · rw [hrec.1]; omega
    · intro j hj1 hj
      exact hrec.2 j hj1 (by omega)

theorem dpBuild_split (p : Problem) (chain R : List Nat) :
    ∀ j, 1 ≤ j → j ≤ chain.length → (dpBuild p chain R).2.getD j 0 < j := by
  intro j hj1 hj2
  simp only [dpBuild]
  have := dpFold_split p chain R (min chain.length 6) chain.length 1 ([some 0], [0])
    (by omega) (by simp) (by intro j h1 h2; omega)
  exact this.2 j hj1 (by omega)

theorem dpReconstruct_flatten (chain split : List Nat)
    (hsp : ∀ j, 1 ≤ j → j ≤ chain.length → split.getD j 0 < j) :
    ∀ (fuel i : Nat), i ≤ chain.length → i ≤ fuel →
      (dpReconstruct chain split fuel i).flatten = chain.take i := by
  intro fuel
  induction fuel with
  | zero =>
    intro i hin hif
    have : i = 0 := by omega
    subst this
    simp [dpReconstruct]
  | succ m ih =>
    intro i hin hif
    simp only [dpReconstruct]
    by_cases hi0 : i = 0
    · subst hi0; simp
    · rw [if_neg hi0]
      have hj : split.getD i 0 < i := hsp i (by omega) hin
      rw [List.flatten_append, ih (split.getD i 0) (by omega) (by omega)]
      have hsplit : chain.take i = chain.take (split.getD i 0) ++
          (chain.drop (split.getD i 0)).take (i - split.getD i 0) := by
        conv_lhs => rw [show i = split.getD i 0 + (i - split.getD i 0) by omega]
        exact List.take_add chain _ _
      rw [hsplit]
      simp

theorem fuseChainDP_flatten (p : Problem) (chain R : List Nat) :
    (FuseChainDP p chain R).flatten = chain := by
  simp only [FuseChainDP]
  split_ifs with h0 h1
  · have : chain = [] := List.length_eq_zero.mp h0
    simp [this]
  · simp
  · rw [dpReconstruct_flatten chain (dpBuild p chain R).2 (dpBuild_split p chain R)
      (chain.length + 1) chain.length (Nat.le_refl _) (by omega)]
    exact List.take_length chain

theorem flatMap_flatten_eq {α : Type} :
    ∀ (chains : List (List α)) (F : List α → List (List α)),
      (∀ c ∈ chains, (F c).flatten = c) →
      (chains.flatMap F).flatten = chains.flatten := by
  intro chains
  induction chains with
  | nil => intro F _; simp
  | cons c cs ih =>
    intro F h
    simp only [List.flatMap_cons, List.flatten_append, List.flatten_cons]
    rw [h c (List.mem_cons_self c cs), ih F (fun x hx => h x (List.mem_cons_of_mem c hx))]

/-! ### Cross-chain fusion permutes the op multiset -/

theorem boundaryInputs_nodup (p : Problem) (ops : List Nat) :
    (GetSubgraphBoundary p ops).boundaryInputs.Nodup := by
  simp only [GetSubgraphBoundary]
  exact List.Nodup.filter _ (dedupKeep_nodup _)

theorem nodup_filter_eq_le_one {l : List Nat} (h : l.Nodup) (t : Nat) :
    (l.filter (fun x => x = t)).length ≤ 1 := by
  induction l with
  | nil => simp
  | cons x xs ih =>
    rw [List.filter_cons]
    by_cases hx : x = t
    · have hnil : xs.filter (fun y => y = t) = [] := by
        rw [List.filter_eq_nil_iff]
        intro a ha haeq
        rw [decide_eq_true_eq] at haeq
        exact (List.nodup_cons.mp h).1 (by rw [hx, ← haeq]; exact ha)
      simp [hx, hnil]
    · simp only [hx, decide_False, cond_false]
      exact ih (List.nodup_cons.mp h).2

theorem nodup_flatMap_single {α : Type} [DecidableEq α] :
    ∀ (l : List α) (G : α → List α), l.Nodup →
      (∀ g ∈ l, ∀ x ∈ G g, x = g) → (∀ g ∈ l, (G g).length ≤ 1) →
      (l.flatMap G).Nodup := by
  intro l
  induction l with
  | nil => intro G _ _ _; simp
  | cons g gs ih =>
    intro G hn hel hlen
    rw [List.flatMap_cons, List.nodup_append]
    refine ⟨?_, ih G (List.nodup_cons.mp hn).2
      (fun a ha => hel a (List.mem_cons_of_mem g ha))
      (fun a ha => hlen a (List.mem_cons_of_mem g ha)), ?_⟩
    · cases hGg : G g with
      | nil => simp
      | cons a as =>
        have := hlen g (List.mem_cons_self g gs)
        rw [hGg] at this
        simp only [List.length_cons] at this
        have : as = [] := List.length_eq_zero.mp (by omega)
        rw [this]
        exact List.nodup_singleton a
    · intro x hxg hxf
      rcases List.mem_flatMap.mp hxf with ⟨g', hg', hxg'⟩
      have h1 := hel g (List.mem_cons_self g gs) x hxg
      have h2 := hel g' (List.mem_cons_of_mem g hg') x hxg'
      exact (List.nodup_cons.mp hn).1 (h1 ▸ h2 ▸ hg')

theorem mem_orderedPairs {α : Type} :
    ∀ (l : List α) (pr : α × α), l.Nodup → pr ∈ orderedPairs l →
      pr.1 ∈ l ∧ pr.2 ∈ l ∧ pr.1 ≠ pr.2 := by
  intro l
  induction l with
  | nil => intro pr _ h; simp [orderedPairs] at h
  | cons x rest ih =>
    intro pr hn h
    simp only [orderedPairs, List.mem_append] at h
    rcases h with h | h
    · rcases List.mem_map.mp h with ⟨y, hy, rfl⟩
      refine ⟨List.mem_cons_self x rest, List.mem_cons_of_mem x hy, ?_⟩
      dsimp only
      rintro rfl
      exact (List.nodup_cons.mp hn).1 hy
    · obtain ⟨h1, h2, h3⟩ := ih pr (List.nodup_cons.mp hn).2 h
      exact ⟨List.mem_cons_of_mem x h1, List.mem_cons_of_mem x h2, h3⟩

theorem mergeSort_ne_nil {α : Type} {l : List α} (le : α → α → Bool) (h : l ≠ []) :
    l.mergeSort le ≠ [] := by
  intro he
  exact h (List.perm_nil.mp (he ▸ (List.mergeSort_perm l le).symm))

theorem flatMap_merge_perm {f f' : Nat → List Nat} {A : List Nat} (hA : A.Nodup)
    {g1 g2 : Nat} (h1 : g1 ∈ A) (h2 : g2 ∈ A) (hne : g1 ≠ g2)
    (hf1 : (f' g1).Perm (f g1 ++ f g2)) (hff : ∀ g, g ≠ g1 → f' g = f g) :
    ((A.filter (fun x => x ≠ g2)).flatMap f').Perm (A.flatMap f) := by
  have hAp : A.Perm (g1 :: A.erase g1) := List.perm_cons_erase h1
  have hg2B : g2 ∈ A.erase g1 := (List.mem_erase_of_ne hne.symm).mpr h2
  have hBp : (A.erase g1).Perm (g2 :: (A.erase g1).erase g2) := List.perm_cons_erase hg2B
  have hAC : A.Perm (g1 :: g2 :: (A.erase g1).erase g2) := hAp.trans (hBp.cons g1)
  have hg2C : g2 ∉ (A.erase g1).erase g2 := (hA.erase g1).not_mem_erase
  have hg1C : g1 ∉ (A.erase g1).erase g2 :=
    fun h => hA.not_mem_erase (List.erase_subset _ _ h)
  have hfilt : (A.filter (fun x => x ≠ g2)).Perm (g1 :: (A.erase g1).erase g2) := by
    refine (hAC.filter (fun x => decide (x ≠ g2))).trans ?_
    rw [List.filter_cons_of_pos (by simp [hne]), List.filter_cons_of_neg (by simp)]
    rw [List.filter_eq_self.mpr (fun a ha => by
      simp only [decide_eq_true_eq]
      intro haeq
      exact hg2C (haeq ▸ ha))]
  refine ((perm_flatMap f' hfilt).trans ?_).trans (perm_flatMap f hAC).symm
  rw [List.flatMap_cons, List.flatMap_cons, List.flatMap_cons]
  rw [flatMap_congr_mem (fun x hx => hff x (fun heq => hg1C (by rw [heq] at hx; exact hx)))]
  rw [← List.append_assoc]
  exact hf1.append (List.Perm.refl _)

/-- Invariant of the `tryCrossChainFusion` candidate fold: the flattened live
groups (tombstones removed) stay a permutation of the original ops. -/
def crossInv (groups0 : List (List Nat))
    (st : List (List Nat) × List Nat × List (Option ℚ × Gran)) : Prop :=
  st.1.length = groups0.length ∧
  ((((List.range groups0.length).filter (fun g => g ∉ st.2.1)).flatMap
    (fun g => st.1.getD g [])).Perm groups0.flatten)

set_option maxHeartbeats 2000000 in
theorem crossFuseStep_inv (p : Problem) (groups0 : List (List Nat))
    (st : List (List Nat) × List Nat × List (Option ℚ × Gran))
    (cand : Nat × Nat × Int)
    (hb1 : cand.1 < groups0.length) (hb2 : cand.2.1 < groups0.length)
    (hne : cand.1 ≠ cand.2.1) (hinv : crossInv groups0 st) :
    crossInv groups0 (crossFuseStep p st cand) := by
  unfold crossFuseStep
  lift_lets
  intro g1 g2 groups merged baselines combined0 combined r fusedGran fusedLat
    outT base1 base2 targetK0 targetK bw b1 b2 tc0 tc separateLat
  have hg1 : g1 = cand.1 := rfl
  have hg2 : g2 = cand.2.1 := rfl
  split_ifs with hm h8 hheavy htv hfeas hw hh hk holt
  · exact hinv
  · exact hinv
  · exact hinv
  · exact hinv
  · exact hinv
  · exact hinv
  · exact hinv
  · exact hinv
  · -- accepted merge
    obtain ⟨hlen, hperm⟩ := hinv
    have hlen2 : groups.length = groups0.length := hlen
    have hperm2 : ((((List.range groups0.length).filter
        (fun g => g ∉ merged)).flatMap
        (fun g => groups.getD g [])).Perm groups0.flatten) := hperm
    push_neg at hm
    refine ⟨?_, ?_⟩
    · simpa using hlen2
    · have hfe : (List.range groups0.length).filter
          (fun g => decide (g ∉ merged ++ [g2])) =
          ((List.range groups0.length).filter (fun g => decide (g ∉ merged))).filter
            (fun g => decide (g ≠ g2)) := by
        rw [List.filter_filter]
        refine List.filter_congr ?_
        intro x _
        by_cases hxm : x ∈ merged <;> by_cases hxg : x = g2 <;>
          simp [hxm, hxg, List.mem_append]
      rw [hfe]
      refine List.Perm.trans ?_ hperm2
      refine @flatMap_merge_perm (fun g => groups.getD g [])
        (fun g => (groups.set g1 combined).getD g []) _
        ((List.nodup_range _).filter _) g1 g2 ?_ ?_ ?_ ?_ ?_
      · exact List.mem_filter.mpr ⟨List.mem_range.mpr (hg1 ▸ hb1), by simpa using hm.1⟩
      · exact List.mem_filter.mpr ⟨List.mem_range.mpr (hg2 ▸ hb2), by simpa using hm.2⟩
      · exact hne
      · show ((groups.set g1 combined).getD g1 []).Perm
          (groups.getD g1 [] ++ groups.getD g2 [])
        rw [getD_set_self _ _ _ (show g1 < groups.length by rw [hlen2]; exact hb1)]
        have hcomb : combined = sortOpsTopologically p
            (groups.getD g1 [] ++ groups.getD g2 []) := rfl
        rw [hcomb]
        simp only [sortOpsTopologically]
        exact List.mergeSort_perm _ _
      · intro g hg
        exact getD_set_ne _ _ _ (fun h => hg h.symm)
  · exact hinv

theorem crossPairs_snd_sub (p : Problem) (groups : List (List Nat)) (t : Nat) :
    ∀ x ∈ ((((List.range groups.length).flatMap
        (fun g => (GetSubgraphBoundary p (groups.getD g [])).boundaryInputs.map
          (fun t' => (t', g)))).filter (fun pr => pr.1 = t)).map
        (fun pr => pr.2)), x < groups.length := by
  intro x hx
  rcases List.mem_map.mp hx with ⟨pr, hpr, rfl⟩
  rcases List.mem_flatMap.mp (List.mem_filter.mp hpr).1 with ⟨g, hg, hpr'⟩
  rcases List.mem_map.mp hpr' with ⟨t', _, rfl⟩
  exact List.mem_range.mp hg

theorem crossPairs_snd_nodup (p : Problem) (groups : List (List Nat)) (t : Nat) :
    ((((List.range groups.length).flatMap
        (fun g => (GetSubgraphBoundary p (groups.getD g [])).boundaryInputs.map
          (fun t' => (t', g)))).filter (fun pr => pr.1 = t)).map
        (fun pr => pr.2)).Nodup := by
  rw [List.filter_flatMap, List.map_flatMap]
  refine nodup_flatMap_single _ _ (List.nodup_range _) ?_ ?_
  · intro g _ x hx
    rcases List.mem_map.mp hx with ⟨pr, hpr, rfl⟩
    rcases List.mem_map.mp (List.mem_filter.mp hpr).1 with ⟨t', _, rfl⟩
    rfl
  · intro g _
    rw [List.filter_map, List.map_map, List.length_map]
    refine le_trans (le_of_eq ?_)
      (nodup_filter_eq_le_one (boundaryInputs_nodup p (groups.getD g [])) t)
    congr 1

set_option maxHeartbeats 1000000 in
theorem tryCrossChainFusion_flatten (p : Problem) (groups : List (List Nat)) :
    (tryCrossChainFusion p groups).flatten.Perm groups.flatten := by
  unfold tryCrossChainFusion
  lift_lets
  intro pairs tensors candidates0 candidates baselines final
  split_ifs with hle
  · exact List.Perm.refl _
  · rw [← List.flatMap_def]
    have hbounds : ∀ c ∈ candidates,
        c.1 < groups.length ∧ c.2.1 < groups.length ∧ c.1 ≠ c.2.1 := by
      intro c hc
      have hc0 : c ∈ candidates0 := List.mem_mergeSort.mp hc
      have hc1 : c ∈ tensors.flatMap (fun t =>
          let gIdxs := (pairs.filter (fun pr => pr.1 = t)).map (fun pr => pr.2)
          if gIdxs.length < 2 then []
          else
            let tSize := FullTensorSize p t
            if tSize < 1024 then []
            else (orderedPairs gIdxs).filterMap
              (fun gg =>
                if canFuseGroups p (groups.getD gg.1 []) (groups.getD gg.2 [])
                then some (gg.1, gg.2, tSize) else none)) := hc0
      rcases List.mem_flatMap.mp hc1 with ⟨t, ht, hct⟩
      dsimp only at hct
      split at hct
      · exact absurd hct (List.not_mem_nil c)
      · split at hct
        · exact absurd hct (List.not_mem_nil c)
        · rcases List.mem_filterMap.mp hct with ⟨gg, hgg, hG⟩
          have hnd : ((pairs.filter (fun pr => pr.1 = t)).map
              (fun pr => pr.2)).Nodup := crossPairs_snd_nodup p groups t
          have hsb : ∀ x ∈ ((pairs.filter (fun pr => pr.1 = t)).map
              (fun pr => pr.2)), x < groups.length := crossPairs_snd_sub p groups t
          obtain ⟨hm1, hm2, hmne⟩ := mem_orderedPairs _ gg hnd hgg
          split at hG
          · have hc2 : (gg.1, gg.2, FullTensorSize p t) = c := Option.some.inj hG
            rw [← hc2]
            exact ⟨hsb gg.1 hm1, hsb gg.2 hm2, hmne⟩
          · exact absurd hG (by simp)
    have hinit : crossInv groups (groups, [], baselines) := by
      refine ⟨rfl, ?_⟩
      have hft : (List.range groups.length).filter
          (fun g => decide (g ∉ ([] : List Nat))) = List.range groups.length :=
        List.filter_eq_self.mpr (fun a _ => by simp)
      rw [hft, range_flatMap_getD]
    have hinv : crossInv groups (candidates.foldl (crossFuseStep p)
        (groups, [], baselines)) :=
      foldl_preserve_mem (crossInv groups) (crossFuseStep p) candidates
        (groups, [], baselines)
        (fun st c hc h => crossFuseStep_inv p groups st c (hbounds c hc).1
          (hbounds c hc).2.1 (hbounds c hc).2.2 h) hinit
    exact hinv.2

/-! ### BuildSchedule permutes the groups -/

theorem mem_mapIterOrder {pi remaining : List Nat} {x : Nat} (hx : x ∈ remaining) :
    x ∈ mapIterOrder pi remaining := by
  unfold mapIterOrder
  rw [List.mem_append]
  by_cases hpi : x ∈ pi
  · left
    rw [mem_dedupKeep]
    exact List.mem_filter.mpr ⟨hpi, by simpa using hx⟩
  · right
    exact List.mem_filter.mpr ⟨hx, by simpa using hpi⟩

theorem mapIterOrder_subset (pi remaining : List Nat) :
    mapIterOrder pi remaining ⊆ remaining := by
  intro x hx
  unfold mapIterOrder at hx
  rcases List.mem_append.mp hx with h | h
  · rw [mem_dedupKeep] at h
    simpa using (List.mem_filter.mp h).2
  · exact (List.mem_filter.mp h).1

theorem pickChosen_mem (p : Problem) (groups gBIs : List (List Nat))
    (pi remaining : List Nat) (inDeg : Nat → Int) (last : Option Nat)
    (h : remaining ≠ []) :
    pickChosen p groups gBIs pi remaining inDeg last ∈ remaining := by
  have hene : mapIterOrder pi remaining ≠ [] := by
    rcases List.exists_mem_of_ne_nil remaining h with ⟨x, hx⟩
    exact List.ne_nil_of_mem (mem_mapIterOrder hx)
  cases last with
  | none =>
    simp only [pickChosen]
    split_ifs with hf
    · exact mapIterOrder_subset pi remaining (headD_mem hene 0)
    · exact mapIterOrder_subset pi remaining
        (List.mem_filter.mp (headD_mem hf 0)).1
  | some lastv =>
    simp only [pickChosen]
    split_ifs with hf hlen1 hlen2
    · -- all-of-enum fallback, affinity sort applied
      exact mapIterOrder_subset pi remaining
        (List.mem_mergeSort.mp (headD_mem (mergeSort_ne_nil _ hene) 0))
    · exact mapIterOrder_subset pi remaining (headD_mem hene 0)
    · exact mapIterOrder_subset pi remaining
        (List.mem_filter.mp (List.mem_mergeSort.mp
          (headD_mem (mergeSort_ne_nil _ hf) 0))).1
    · exact mapIterOrder_subset pi remaining
        (List.mem_filter.mp (headD_mem hf 0)).1

theorem buildScheduleLoop_perm (p : Problem) (groups gBIs : List (List Nat)) :
    ∀ (fuel : Nat) (iterOrders : List (List Nat)) (remaining : List Nat)
      (inDeg : Nat → Int) (last : Option Nat), remaining.Nodup →
      remaining.length ≤ fuel →
      (buildScheduleLoop p groups gBIs fuel iterOrders remaining inDeg last).Perm
        remaining := by
  intro fuel
  induction fuel with
  | zero =>
    intro io remaining inDeg last hn hl
    have : remaining = [] := List.length_eq_zero.mp (Nat.le_zero.mp hl)
    subst this
    simp [buildScheduleLoop]
  | succ m ih =>
    intro io remaining inDeg last hn hl
    simp only [buildScheduleLoop]
    split_ifs with hr
    · exact hr ▸ List.Perm.refl []
    · have hch : pickChosen p groups gBIs (io.headD remaining) remaining inDeg last
          ∈ remaining := pickChosen_mem p groups gBIs _ remaining inDeg last hr
      have hlen1 : 0 < remaining.length := List.length_pos.mpr hr
      refine List.Perm.trans ?_ (List.perm_cons_erase hch).symm
      refine List.Perm.cons _ (ih io.tail _ _ _ (hn.erase _) ?_)
      rw [List.length_erase_of_mem hch]
      omega

theorem buildSchedule_flatMap (p : Problem) (groups : List (List Nat))
    (iterOrders : List (List Nat)) :
    ((BuildSchedule p groups iterOrders).flatMap (fun e => e.ops)).Perm
      groups.flatten := by
  simp only [BuildSchedule]
  rw [List.flatMap_map]
  have hperm := buildScheduleLoop_perm p groups
    (groups.map (fun g => (GetSubgraphBoundary p g).boundaryInputs))
    groups.length iterOrders (List.range groups.length)
    (fun g => ((groupDepsOf p groups g).length : Int)) none
    (List.nodup_range _) (by simp)
  refine (perm_flatMap _ hperm).trans ?_
  rw [show (List.range groups.length) = (List.range groups.length) from rfl,
    range_flatMap_getD]

/-! ### The scheduling phases and the pruner keep each entry's op set -/

theorem phase4_ops (p : Problem) :
    ∀ (s : List ScheduleEntry) (resident : List Nat),
      (phase4 p resident s).map (fun e => e.ops) = s.map (fun e => e.ops) := by
  intro s
  induction s with
  | nil => intro r; simp [phase4]
  | cons e rest ih => intro r; simp [phase4, ih]

theorem phase5Aux_ops (p : Problem) (full : List ScheduleEntry) :
    ∀ (s : List ScheduleEntry) (i : Nat) (resident : List Nat),
      (phase5Aux p full i resident s).map (fun e => e.ops) =
        s.map (fun e => e.ops) := by
  intro s
  induction s with
  | nil => intro i r; simp [phase5Aux]
  | cons e rest ih => intro i r; simp [phase5Aux, ih]

theorem phase6_ops (p : Problem) :
    ∀ (s : List ScheduleEntry) (resident : List Nat),
      (phase6 p resident s).map (fun e => e.ops) = s.map (fun e => e.ops) := by
  intro s
  induction s with
  | nil => intro r; simp [phase6]
  | cons e rest ih =>
    intro r
    simp only [phase6]
    split_ifs with hws <;> simp [ih]

theorem pruneEntryAux_ops (p : Problem) (residentI : List Nat) :
    ∀ (cnt : Nat) (e : ScheduleEntry) (next : Option ScheduleEntry) (imp : Bool),
      (pruneEntryAux p residentI cnt e next imp).1.ops = e.ops ∧
      ((pruneEntryAux p residentI cnt e next imp).2.1).map (fun f => f.ops) =
        next.map (fun f => f.ops) := by
  intro cnt
  induction cnt with
  | zero => intro e next imp; simp [pruneEntryAux]
  | succ n ih =>
    intro e next imp
    cases next with
    | none =>
      simp only [pruneEntryAux]
      cases hEv : EvaluateSubgraphDetailed p e.ops e.granularity (e.retain.eraseIdx n)
        e.traversal residentI with
      | none => exact ih e none imp
      | some latI =>
        dsimp only
        by_cases hc : latI < e.latency + 0
        · rw [if_pos hc]
          exact ih _ none true
        · rw [if_neg hc]
          exact ih e none imp
    | some f =>
      simp only [pruneEntryAux]
      cases hEv : EvaluateSubgraphDetailed p e.ops e.granularity (e.retain.eraseIdx n)
        e.traversal residentI with
      | none => exact ih e (some f) imp
      | some latI =>
        dsimp only
        cases hEv2 : EvaluateSubgraphDetailed p f.ops f.granularity f.retain
          f.traversal (e.retain.eraseIdx n) with
        | none => exact ih e (some f) imp
        | some latNext =>
          dsimp only
          by_cases hc : latI + latNext < e.latency + f.latency
          · rw [if_pos hc]
            exact ih _ _ true
          · rw [if_neg hc]
            exact ih e (some f) imp

theorem prunePassAux_ops (p : Problem) :
    ∀ (n : Nat) (s : List ScheduleEntry) (residentI : List Nat), s.length ≤ n →
      (prunePassAux p residentI s).1.map (fun e => e.ops) =
        s.map (fun e => e.ops) := by
  intro n
  induction n with
  | zero =>
    intro s residentI hlen
    have : s = [] := List.length_eq_zero.mp (Nat.le_zero.mp hlen)
    subst this
    simp [prunePassAux]
  | succ m ih =>
    intro s residentI hlen
    match s with
    | [] => simp [prunePassAux]
    | [e] =>
      simp only [prunePassAux, List.map_cons, List.map_nil]
      rw [(pruneEntryAux_ops p residentI e.retain.length e none false).1]
    | e :: f :: rest =>
      simp only [prunePassAux]
      set r := pruneEntryAux p residentI e.retain.length e (some f) false with hr
      have hops := pruneEntryAux_ops p residentI e.retain.length e (some f) false
      rw [← hr] at hops
      have hlen2 : (r.2.1.getD f :: rest).length ≤ m := by
        simp at hlen ⊢
        omega
      have ihr := ih (r.2.1.getD f :: rest) r.1.retain hlen2
      simp only [List.map_cons] at ihr ⊢
      rw [hops.1, ihr]
      cases hc : r.2.1 with
      | none =>
        rw [hc] at hops
        simp at hops
      | some f1 =>
        rw [hc] at hops
        have hf1 : f1.ops = f.ops := by simpa using hops.2
        simp only [Option.getD_some]
        rw [hf1]

theorem pruneRetentions_ops (p : Problem) :
    ∀ (n : Nat) (s : List ScheduleEntry), totalRetain s ≤ n →
      (pruneRetentions p s).map (fun e => e.ops) = s.map (fun e => e.ops) := by
  intro n
  induction n with
  | zero =>
    intro s h0
    rw [pruneRetentions]
    by_cases h : (prunePassAux p [] s).2 = true
    · exfalso
      have := (prunePassAux_retain p s.length s [] (Nat.le_refl _)).2 h
      omega
    · rw [dif_neg h]
      exact prunePassAux_ops p s.length s [] (Nat.le_refl _)
  | succ m ih =>
    intro s hle
    rw [pruneRetentions]
    by_cases h : (prunePassAux p [] s).2 = true
    · rw [dif_pos h]
      have hlt := (prunePassAux_retain p s.length s [] (Nat.le_refl _)).2 h
      rw [ih (prunePassAux p [] s).1 (by omega)]
      exact prunePassAux_ops p s.length s [] (Nat.le_refl _)
    · rw [dif_neg h]
      exact prunePassAux_ops p s.length s [] (Nat.le_refl _)

theorem entries_flatMap_congr (a b : List ScheduleEntry)
    (h : a.map (fun e => e.ops) = b.map (fun e => e.ops)) :
    a.flatMap (fun e => e.ops) = b.flatMap (fun e => e.ops) := by
  rw [List.flatMap_def, List.flatMap_def, h]

/-! ### Recovery, baseline, and the full pipeline -/

theorem splitSingles_flatMap (p : Problem) :
    ∀ (ops resident : List Nat),
      (splitSingles p resident ops).1.flatMap (fun sg => sg.ops) = ops := by
  intro ops
  induction ops with
  | nil => intro r; simp [splitSingles]
  | cons o rest ih => intro r; simp [splitSingles, ih]

theorem recoverAux_flatMap (p : Problem) :
    ∀ (sgs : List Subgraph) (resident : List Nat),
      ((recoverAux p resident sgs).flatMap (fun sg => sg.ops)).Perm
        (sgs.flatMap (fun sg => sg.ops)) := by
  intro sgs
  induction sgs with
  | nil => intro r; simp [recoverAux]
  | cons sg rest ih =>
    intro r
    simp only [recoverAux]
    split_ifs with hws
    · rw [List.flatMap_append, splitSingles_flatMap, List.flatMap_cons]
      refine List.Perm.append ?_ (ih _)
      simp only [sortOpsTopologically]
      exact List.mergeSort_perm _ _
    · rw [List.flatMap_cons, List.flatMap_cons]
      refine List.Perm.append ?_ (ih _)
      show (sortOpsTopologically p sg.ops).Perm sg.ops
      simp only [sortOpsTopologically]
      exact List.mergeSort_perm _ _

theorem baselineSolution_flatMap (p : Problem) :
    (baselineSolution p).subgraphs.flatMap (fun sg => sg.ops) =
      topologicalSort p := by
  simp only [baselineSolution]
  rw [List.flatMap_map]
  simp

theorem evaluateSolution_missing (p : Problem) (sol : Solution)
    (h : ∃ i, i < p.ops.length ∧ ∀ sg ∈ sol.subgraphs, i ∉ sg.ops) :
    EvaluateSolution p sol = none := by
  obtain ⟨i, hi, hmiss⟩ := h
  have hnc : i ∉ sol.subgraphs.flatMap (fun sg => sg.ops) := by
    intro hmem
    rcases List.mem_flatMap.mp hmem with ⟨sg, hsg, hisg⟩
    exact hmiss sg hsg hisg
  have hko : ((List.range p.ops.length).all
      (fun x => decide (x ∈ sol.subgraphs.flatMap (fun sg => sg.ops)))) = false := by
    rw [List.all_eq_false]
    exact ⟨i, List.mem_range.mpr hi, by simpa using hnc⟩
  simp only [EvaluateSolution]
  rw [hko]
  simp

theorem optimizeSchedule_cover (p : Problem) (iterOrders : List (List Nat))
    (htopo : (topologicalSort p).Perm (List.range p.ops.length)) :
    ((OptimizeSchedule p iterOrders).subgraphs.flatMap (fun sg => sg.ops)).Perm
      (List.range p.ops.length) := by
  unfold OptimizeSchedule
  lift_lets
  intro chains allGroups0 allGroups schedule0 schedule1 schedule2 schedule3 schedule4
  show ((schedule4.map (fun e =>
    (⟨e.ops, e.granularity, e.retain, e.traversal, e.latency⟩ : Subgraph))).flatMap
      (fun sg => sg.ops)).Perm (List.range p.ops.length)
  rw [List.flatMap_map]
  have hmaps : schedule4.map (fun e => e.ops) = schedule0.map (fun e => e.ops) := by
    have h4 : schedule4.map (fun e => e.ops) = schedule3.map (fun e => e.ops) :=
      pruneRetentions_ops p (totalRetain schedule3) schedule3 (Nat.le_refl _)
    have h3 : schedule3.map (fun e => e.ops) = schedule2.map (fun e => e.ops) :=
      phase6_ops p schedule2 []
    have h2 : schedule2.map (fun e => e.ops) = schedule1.map (fun e => e.ops) :=
      phase5Aux_ops p schedule1 schedule1 0 []
    have h1 : schedule1.map (fun e => e.ops) = schedule0.map (fun e => e.ops) :=
      phase4_ops p schedule0 []
    rw [h4, h3, h2, h1]
  have hflat : schedule4.flatMap (fun e => e.ops) =
      schedule0.flatMap (fun e => e.ops) := entries_flatMap_congr _ _ hmaps
  refine List.Perm.trans (List.Perm.of_eq ?_) (List.Perm.trans
    (buildSchedule_flatMap p allGroups iterOrders) ?_)
  · exact hflat
  · refine List.Perm.trans (tryCrossChainFusion_flatten p allGroups0) ?_
    have hg : allGroups0.flatten = chains.flatten := by
      refine flatMap_flatten_eq chains _ ?_
      intro c _
      split_ifs with hc
      · exact fuseChainGreedy_flatten p c []
      · exact fuseChainDP_flatten p c []
    rw [hg]
    exact findLinearChains_flatten p htopo

theorem solveOptimized_cover (p : Problem) (iterOrders : List (List Nat))
    (htopo : (topologicalSort p).Perm (List.range p.ops.length)) :
    ((SolveOptimized p iterOrders).subgraphs.flatMap (fun sg => sg.ops)).Perm
      (List.range p.ops.length) := by
  simp only [SolveOptimized]
  cases h1 : EvaluateSolution p (OptimizeSchedule p iterOrders) with
  | some lat =>
    dsimp only
    exact optimizeSchedule_cover p iterOrders htopo
  | none =>
    dsimp only
    cases h2 : EvaluateSolution p (recoverSolution p (OptimizeSchedule p iterOrders)) with
    | some lat2 =>
      dsimp only
      simp only [recoverSolution]
      exact (recoverAux_flatMap p _ []).trans (optimizeSchedule_cover p iterOrders htopo)
    | none =>
      dsimp only
      rw [baselineSolution_flatMap]
      exact htopo

/-- A candidate solution covering op 0 in two distinct subgraphs. -/
def solDup : Solution :=
  ⟨[⟨[0], ⟨4, 4, 1⟩, [], [], 0⟩, ⟨[0], ⟨4, 4, 1⟩, [], [], 0⟩]⟩

/-- C3 counterexample: `EvaluateSolution`'s coverage check is a set-membership
test (`covered[opIdx] = true`), so a solution whose subgraphs list op 0 twice
is not rejected: on `pWitness` it evaluates successfully (pricing the op
twice) instead of returning the validation error the claim requires when an
op appears in more than one subgraph. -/
theorem C3_counterexample :
    solDup.subgraphs.flatMap (fun sg => sg.ops) = [0, 0] ∧
    EvaluateSolution pWitness solDup = some 64 := by
  with_unfolding_all decide

/-- C3 (amended): `EvaluateSolution` does return a validation error whenever
some op index appears in *no* subgraph, and every solution produced by
`SolveOptimized` covers each op exactly once — its concatenated subgraph op
lists are a permutation of `0 … |ops|-1` (so the op sets are pairwise
disjoint with union the full index range) — whenever the topological sort
visits every op (i.e. the dependence graph is acyclic).  Coverage *more than
once* in a candidate solution is, contrary to the claim, not rejected (see
the counterexample). -/
theorem C3_coverage (p : Problem) :
    (∀ sol : Solution,
      (∃ i, i < p.ops.length ∧ ∀ sg ∈ sol.subgraphs, i ∉ sg.ops) →
      EvaluateSolution p sol = none) ∧
    (∀ iterOrders : List (List Nat),
      (topologicalSort p).Perm (List.range p.ops.length) →
      ((SolveOptimized p iterOrders).subgraphs.flatMap (fun sg => sg.ops)).Perm
        (List.range p.ops.length)) :=
  ⟨fun sol h => evaluateSolution_missing p sol h,
   fun iterOrders htopo => solveOptimized_cover p iterOrders htopo⟩

/-- C3 witness: the empty solution on the one-op problem `pWitness` is
rejected, and the solver's output on the two-op problem `pC1` covers exactly
the op indices 0 and 1. -/
theorem C3_coverage_witness :
    EvaluateSolution pWitness ⟨[]⟩ = none ∧
    ((SolveOptimized pC1 [[0, 1]]).subgraphs.flatMap (fun sg => sg.ops)).Perm
      (List.range pC1.ops.length) :=
  ⟨(C3_coverage pWitness).1 ⟨[]⟩ ⟨0, by decide, by simp⟩,
   (C3_coverage pC1).2 [[0, 1]] (by with_unfolding_all decide)⟩

/-! ## C2: evaluation idempotence

`EvaluateSolution` re-derives each subgraph's detailed latency under the
residency threaded from the previous subgraph's retention.  The pipeline
stores, on every subgraph it emits, exactly the value that recomputation
produces, so a successful evaluation returns the sum of the stored
latencies.  The invariant below says precisely that: whenever the
evaluation-time working-set check passes and the detailed evaluation
succeeds, its value is the stored one. -/

/-- Stored latencies agree with re-evaluation along the residency chain. -/
def residencyConsistent (p : Problem) : List Nat → List Subgraph → Prop
  | _, [] => True
  | resident, sg :: rest =>
    (ComputeWorkingSet p sg.ops sg.granularity resident ≤ p.fastMemoryCapacity →
      ∀ latI, EvaluateSubgraphDetailed p sg.ops sg.granularity sg.tensorsToRetain
        sg.traversalOrder resident = some latI → latI = sg.subgraphLatency) ∧
    residencyConsistent p sg.tensorsToRetain rest

/-- Along the residency chain, every re-evaluation succeeds and returns the
stored subgraph latency (the claim's per-subgraph equality). -/
def evalChainOK (p : Problem) : List Nat → List Subgraph → Prop
  | _, [] => True
  | resident, sg :: rest =>
    EvaluateSubgraphDetailed p sg.ops sg.granularity sg.tensorsToRetain
      sg.traversalOrder resident = some sg.subgraphLatency ∧
    evalChainOK p sg.tensorsToRetain rest

/-- `residencyConsistent`, phrased on schedule entries. -/
def entriesConsistent (p : Problem) : List Nat → List ScheduleEntry → Prop
  | _, [] => True
  | resident, e :: rest =>
    (∀ latI, EvaluateSubgraphDetailed p e.ops e.granularity e.retain
      e.traversal resident = some latI → latI = e.latency) ∧
    entriesConsistent p e.retain rest

/-- The residency left after a list of subgraphs runs. -/
def residAfter : List Nat → List Subgraph → List Nat
  | r, [] => r
  | _, sg :: rest => residAfter sg.tensorsToRetain rest

theorem evaluateSolutionAux_spec (p : Problem) :
    ∀ (sgs : List Subgraph) (resident : List Nat) (lat : ℚ),
      residencyConsistent p resident sgs →
      EvaluateSolutionAux p resident sgs = some lat →
      lat = (sgs.map (fun sg => sg.subgraphLatency)).sum ∧
        evalChainOK p resident sgs := by
  intro sgs
  induction sgs with
  | nil =>
    intro r lat _ h
    simp only [EvaluateSolutionAux, Option.some_inj] at h
    subst h
    exact ⟨by simp, trivial⟩
  | cons sg rest ih =>
    intro r lat hcons haux
    simp only [EvaluateSolutionAux] at haux
    split_ifs at haux with hws
    cases hEv : EvaluateSubgraphDetailed p sg.ops sg.granularity sg.tensorsToRetain
        sg.traversalOrder r with
    | none =>
      rw [hEv] at haux
      exact absurd haux (by simp)
    | some latI =>
        rw [hEv] at haux
        cases hrest : EvaluateSolutionAux p sg.tensorsToRetain rest with
        | none =>
          rw [hrest] at haux
          exact absurd haux (by simp)
        | some lat' =>
          rw [hrest] at haux
          have hlat : lat = latI + lat' := by
            simpa using haux.symm
          obtain ⟨hC, hrestC⟩ := hcons
          have hlatI : latI = sg.subgraphLatency := hC (not_lt.mp hws) latI hEv
          obtain ⟨hsum, hchain⟩ := ih sg.tensorsToRetain lat' hrestC hrest
          refine ⟨?_, ?_, hchain⟩
          · rw [hlat, hlatI, hsum]
            simp
          · rw [hEv, hlatI]

theorem entriesConsistent_map (p : Problem) :
    ∀ (s : List ScheduleEntry) (resident : List Nat),
      entriesConsistent p resident s →
      residencyConsistent p resident (s.map (fun e =>
        (⟨e.ops, e.granularity, e.retain, e.traversal, e.latency⟩ : Subgraph))) := by
  intro s
  induction s with
  | nil => intro r _; trivial
  | cons e rest ih =>
    intro r h
    exact ⟨fun _ latI hEv => h.1 latI hEv, ih e.retain h.2⟩

theorem phase6_consistent (p : Problem) :
    ∀ (s : List ScheduleEntry) (resident : List Nat),
      entriesConsistent p resident (phase6 p resident s) := by
  intro s
  induction s with
  | nil => intro r; trivial
  | cons e rest ih =>
    intro r
    simp only [phase6]
    split_ifs with hws
    · refine ⟨?_, ih _⟩
      intro latI hEv
      rw [hEv]
      rfl
    · refine ⟨?_, ih _⟩
      intro latI hEv
      rw [hEv]
      rfl

theorem baselineSolution_consistent (p : Problem) :
    residencyConsistent p [] (baselineSolution p).subgraphs := by
  simp only [baselineSolution]
  induction topologicalSort p with
  | nil => trivial
  | cons o rest ih =>
    rw [List.map_cons]
    refine ⟨?_, ih⟩
    intro _ latI hEv
    rw [hEv]
    rfl

theorem pruneEntryAux_consistent (p : Problem) (residentI : List Nat) :
    ∀ (cnt : Nat) (e : ScheduleEntry) (next : Option ScheduleEntry) (imp : Bool),
      (∀ latI, EvaluateSubgraphDetailed p e.ops e.granularity e.retain
        e.traversal residentI = some latI → latI = e.latency) →
      (∀ f, next = some f → ∀ latN, EvaluateSubgraphDetailed p f.ops f.granularity
        f.retain f.traversal e.retain = some latN → latN = f.latency) →
      (∀ latI, EvaluateSubgraphDetailed p
        (pruneEntryAux p residentI cnt e next imp).1.ops
        (pruneEntryAux p residentI cnt e next imp).1.granularity
        (pruneEntryAux p residentI cnt e next imp).1.retain
        (pruneEntryAux p residentI cnt e next imp).1.traversal residentI =
          some latI → latI = (pruneEntryAux p residentI cnt e next imp).1.latency) ∧
      (∀ f1, (pruneEntryAux p residentI cnt e next imp).2.1 = some f1 →
        ∀ latN, EvaluateSubgraphDetailed p f1.ops f1.granularity f1.retain
          f1.traversal (pruneEntryAux p residentI cnt e next imp).1.retain =
            some latN → latN = f1.latency) := by
  intro cnt
  induction cnt with
  | zero =>
    intro e next imp hE hN
    exact ⟨hE, fun f1 hf1 => hN f1 hf1⟩
  | succ n ih =>
    intro e next imp hE hN
    cases next with
    | none =>
      simp only [pruneEntryAux]
      cases hEv : EvaluateSubgraphDetailed p e.ops e.granularity (e.retain.eraseIdx n)
        e.traversal residentI with
      | none => exact ih e none imp hE hN
      | some latI =>
        dsimp only
        by_cases hc : latI < e.latency + 0
        · rw [if_pos hc]
          refine ih _ none true ?_ (fun f hf => absurd hf (by simp))
          intro latI' hEv'
          rw [hEv] at hEv'
          exact Option.some_inj.mp hEv'.symm
        · rw [if_neg hc]
          exact ih e none imp hE hN
    | some f =>
      simp only [pruneEntryAux]
      cases hEv : EvaluateSubgraphDetailed p e.ops e.granularity (e.retain.eraseIdx n)
        e.traversal residentI with
      | none => exact ih e (some f) imp hE hN
      | some latI =>
        dsimp only
        cases hEv2 : EvaluateSubgraphDetailed p f.ops f.granularity f.retain
          f.traversal (e.retain.eraseIdx n) with
        | none => exact ih e (some f) imp hE hN
        | some latNext =>
          dsimp only
          by_cases hc : latI + latNext < e.latency + f.latency
          · rw [if_pos hc]
            refine ih _ _ true ?_ ?_
            · intro latI' hEv'
              rw [hEv] at hEv'
              exact Option.some_inj.mp hEv'.symm
            · intro f1 hf1 latN hEvN
              rw [Option.some_inj.mp hf1.symm] at hEvN ⊢
              rw [hEv2] at hEvN
              exact Option.some_inj.mp hEvN.symm
          · rw [if_neg hc]
            exact ih e (some f) imp hE hN

theorem pruneEntryAux_next_retain (p : Problem) (residentI : List Nat) :
    ∀ (cnt : Nat) (e : ScheduleEntry) (f : ScheduleEntry) (imp : Bool),
      ∀ f1, (pruneEntryAux p residentI cnt e (some f) imp).2.1 = some f1 →
        f1.retain = f.retain := by
  intro cnt
  induction cnt with
  | zero =>
    intro e f imp f1 hf1
    simp only [pruneEntryAux] at hf1
    rw [Option.some_inj.mp hf1]
  | succ n ih =>
    intro e f imp f1 hf1
    simp only [pruneEntryAux] at hf1
    revert hf1
    cases hEv : EvaluateSubgraphDetailed p e.ops e.granularity (e.retain.eraseIdx n)
      e.traversal residentI with
    | none => exact ih e f imp f1
    | some latI =>
      dsimp only
      cases hEv2 : EvaluateSubgraphDetailed p f.ops f.granularity f.retain
        f.traversal (e.retain.eraseIdx n) with
      | none => exact ih e f imp f1
      | some latNext =>
        dsimp only
        by_cases hc : latI + latNext < e.latency + f.latency
        · rw [if_pos hc]
          exact ih _ _ true f1
        · rw [if_neg hc]
          exact ih e f imp f1

theorem prunePassAux_consistent (p : Problem) :
    ∀ (n : Nat) (s : List ScheduleEntry) (residentI : List Nat), s.length ≤ n →
      entriesConsistent p residentI s →
      entriesConsistent p residentI (prunePassAux p residentI s).1 := by
  intro n
  induction n with
  | zero =>
    intro s residentI hlen _
    have : s = [] := List.length_eq_zero.mp (Nat.le_zero.mp hlen)
    subst this
    simp only [prunePassAux]
    trivial
  | succ m ih =>
    intro s residentI hlen hcons
    match s with
    | [] =>
      simp only [prunePassAux]
      trivial
    | [e] =>
      simp only [prunePassAux]
      refine ⟨?_, trivial⟩
      exact (pruneEntryAux_consistent p residentI e.retain.length e none false
        hcons.1 (fun f hf => absurd hf (by simp))).1
    | e :: f :: rest =>
      simp only [prunePassAux]
      set r := pruneEntryAux p residentI e.retain.length e (some f) false with hr
      obtain ⟨hE, hF, hrest⟩ := hcons
      have hcons2 := pruneEntryAux_consistent p residentI e.retain.length e (some f)
        false hE (fun f' hf' => by rw [← Option.some_inj.mp hf']; exact hF)
      rw [← hr] at hcons2
      have hsome := pruneEntryAux_next_isSome p residentI e.retain.length e f false
      rw [← hr] at hsome
      obtain ⟨f1, hf1⟩ := Option.isSome_iff_exists.mp hsome
      have hret : f1.retain = f.retain := by
        refine pruneEntryAux_next_retain p residentI e.retain.length e f false f1 ?_
        rw [← hr]
        exact hf1
      have hlen2 : (r.2.1.getD f :: rest).length ≤ m := by
        simp at hlen ⊢
        omega
      have hconsrec : entriesConsistent p r.1.retain (r.2.1.getD f :: rest) := by
        refine ⟨?_, ?_⟩
        · intro latI hEv
          refine hcons2.2 (r.2.1.getD f) ?_ latI hEv
          rw [hf1]
          rfl
        · show entriesConsistent p (r.2.1.getD f).retain rest
          rw [hf1]
          simp only [Option.getD_some]
          rw [hret]
          exact hrest
      refine ⟨?_, ?_⟩
      · exact hcons2.1
      · exact ih (r.2.1.getD f :: rest) r.1.retain hlen2 hconsrec

theorem pruneRetentions_consistent (p : Problem) :
    ∀ (n : Nat) (s : List ScheduleEntry), totalRetain s ≤ n →
      entriesConsistent p [] s → entriesConsistent p [] (pruneRetentions p s) := by
  intro n
  induction n with
  | zero =>
    intro s h0 hcons
    rw [pruneRetentions]
    by_cases h : (prunePassAux p [] s).2 = true
    · exfalso
      have := (prunePassAux_retain p s.length s [] (Nat.le_refl _)).2 h
      omega
    · rw [dif_neg h]
      exact prunePassAux_consistent p s.length s [] (Nat.le_refl _) hcons
  | succ m ih =>
    intro s hle hcons
    rw [pruneRetentions]
    by_cases h : (prunePassAux p [] s).2 = true
    · rw [dif_pos h]
      have hlt := (prunePassAux_retain p s.length s [] (Nat.le_refl _)).2 h
      exact ih (prunePassAux p [] s).1 (by omega)
        (prunePassAux_consistent p s.length s [] (Nat.le_refl _) hcons)
    · rw [dif_neg h]
      exact prunePassAux_consistent p s.length s [] (Nat.le_refl _) hcons

theorem optimizeSchedule_consistent (p : Problem) (iterOrders : List (List Nat)) :
    residencyConsistent p [] (OptimizeSchedule p iterOrders).subgraphs := by
  unfold OptimizeSchedule
  lift_lets
  intro chains allGroups0 allGroups schedule0 schedule1 schedule2 schedule3 schedule4
  show residencyConsistent p [] (schedule4.map (fun e =>
    (⟨e.ops, e.granularity, e.retain, e.traversal, e.latency⟩ : Subgraph)))
  refine entriesConsistent_map p schedule4 [] ?_
  exact pruneRetentions_consistent p (totalRetain schedule3) schedule3 (Nat.le_refl _)
    (phase6_consistent p schedule2 [])

/-! ### Positivity of the granularities the search returns -/

theorem QuickEstimate_pos (p : Problem) (ops : List Nat) (gran : Gran)
    (R : List Nat) (h : QuickEstimate p ops gran R ≠ none) :
    1 ≤ gran.w ∧ 1 ≤ gran.h ∧ 1 ≤ gran.k := by
  by_contra hcon
  push_neg at hcon
  have hneg : gran.w ≤ 0 ∨ gran.h ≤ 0 ∨ gran.k ≤ 0 := by
    by_cases hw : 1 ≤ gran.w
    · by_cases hh : 1 ≤ gran.h
      · right; right; omega
      · right; left; omega
    · left; omega
  unfold QuickEstimate at h
  by_cases hops : ops = []
  · rw [if_pos hops] at h
    exact h rfl
  · rw [if_neg hops, if_pos hneg] at h
    exact h rfl

theorem evalDetailed_pos (p : Problem) (ops : List Nat) (gran : Gran)
    (tensorsToRetain : List Nat) (traversalOrder : List Int)
    (residentTensors : List Nat) (lat : ℚ)
    (h : EvaluateSubgraphDetailed p ops gran tensorsToRetain traversalOrder
      residentTensors = some lat) :
    1 ≤ gran.w ∧ 1 ≤ gran.h ∧ 1 ≤ gran.k := by
  have hne : ¬(ops = [] ∨ gran.w ≤ 0 ∨ gran.h ≤ 0 ∨ gran.k ≤ 0) := by
    intro hcon
    have := (evalDetailed_error_iff p ops gran tensorsToRetain traversalOrder
      residentTensors).mpr hcon
    rw [h] at this
    exact absurd this (by simp)
  push_neg at hne
  obtain ⟨_, h1, h2, h3⟩ := hne
  exact ⟨by omega, by omega, by omega⟩

/-- Invariant of the candidate-accumulation state: every candidate with a
finite latency estimate has positive tile dimensions. -/
def candPosInv (st : List CandidateGranularity × List Gran) : Prop :=
  ∀ c ∈ st.1, c.latency ≠ none → 1 ≤ c.w ∧ 1 ≤ c.h ∧ 1 ≤ c.k

theorem addCandidate_posInv (p : Problem) (ops residentTensors : List Nat)
    (outW outH maxK : Int) (hasMatmul : Bool)
    (st : List CandidateGranularity × List Gran) (w h k : Int)
    (hst : candPosInv st) :
    candPosInv (addCandidate p ops residentTensors outW outH maxK hasMatmul st w h k) := by
  intro c hc
  unfold addCandidate at hc
  by_cases h1 : w ≤ 0 ∨ h ≤ 0 ∨ k ≤ 0
  · rw [if_pos h1] at hc
    exact hst c hc
  · rw [if_neg h1] at hc
    simp only at hc
    by_cases h2 : (⟨if w > outW then outW else w, if h > outH then outH else h,
        if hasMatmul ∧ k > maxK then maxK else k⟩ : Gran) ∈ st.2
    · rw [if_pos h2] at hc
      exact hst c hc
    · rw [if_neg h2] at hc
      simp only at hc
      rcases List.mem_append.mp hc with hmem | hmem
      · exact hst c hmem
      · intro hlat
        have hceq := List.mem_singleton.mp hmem
        subst hceq
        simp only at hlat
        by_cases hfeas : ComputeWorkingSet p ops (⟨if w > outW then outW else w,
            if h > outH then outH else h,
            if hasMatmul ∧ k > maxK then maxK else k⟩ : Gran) residentTensors ≤
            p.fastMemoryCapacity
        · rw [if_pos hfeas] at hlat
          exact QuickEstimate_pos p ops ⟨if w > outW then outW else w,
            if h > outH then outH else h, if hasMatmul ∧ k > maxK then maxK else k⟩
            residentTensors hlat
        · rw [if_neg hfeas] at hlat
          exact absurd rfl hlat

theorem rawCandidates_posInv (p : Problem) (ops residentTensors : List Nat) :
    candPosInv (rawCandidates p ops residentTensors) := by
  have h0 : candPosInv (([], []) : List CandidateGranularity × List Gran) := by
    intro c hc
    exact absurd hc (List.not_mem_nil c)
  simp only [rawCandidates]
  refine addCandidate_posInv p ops residentTensors _ _ _ _ _ _ _ _
    (addCandidate_posInv p ops residentTensors _ _ _ _ _ _ _ _
      (foldl_preserve candPosInv _
        (fun st a hst => addCandidate_posInv p ops residentTensors _ _ _ _ st a.w a.h a.k hst) _ _
        (foldl_preserve candPosInv _
          (fun st w hst => foldl_preserve candPosInv _
            (fun st2 h hst2 => foldl_preserve candPosInv _
              (fun st3 k hst3 =>
                addCandidate_posInv p ops residentTensors _ _ _ _ st3 w h k hst3) _ _ hst2)
            _ _ hst) _ _ h0)))

/-- Every candidate of `generateCandidates` with a finite latency has
positive tile dimensions. -/
theorem generateCandidates_latency_pos (p : Problem) (ops : List Nat)
    (residentTensors : List Nat) :
    ∀ c ∈ generateCandidates p ops residentTensors, c.latency ≠ none →
      1 ≤ c.w ∧ 1 ≤ c.h ∧ 1 ≤ c.k := by
  intro c hc hlat
  unfold generateCandidates at hc
  simp only at hc
  obtain ⟨i, hi, hceq⟩ := List.exists_of_mem_mapIdx hc
  set sorted := (rawCandidates p ops residentTensors).1.mergeSort
    (fun a b => !(candLess b a)) with hsorted
  have hsortedmem : sorted[i] ∈ (rawCandidates p ops residentTensors).1 :=
    (List.mergeSort_perm (rawCandidates p ops residentTensors).1
      (fun a b => !(candLess b a))).mem_iff.mp (List.getElem_mem hi)
  have hraw := rawCandidates_posInv p ops residentTensors sorted[i] hsortedmem
  simp only [refineTop] at hceq
  by_cases hcase : i < min 20 sorted.length ∧ sorted[i].feasible = true
  · rw [if_pos hcase] at hceq
    cases hEv : EvaluateSubgraphDetailed p ops ⟨sorted[i].w, sorted[i].h, sorted[i].k⟩
      [] (if HasMatMul p ops ∧
          CeilDiv (tensorAt p (GetOutputTensor p ops)).width sorted[i].w *
          CeilDiv (tensorAt p (GetOutputTensor p ops)).height sorted[i].h > 1
        then SnakeTraversal
          (CeilDiv (tensorAt p (GetOutputTensor p ops)).width sorted[i].w)
          (CeilDiv (tensorAt p (GetOutputTensor p ops)).height sorted[i].h)
        else []) residentTensors with
    | some lat =>
      rw [hEv] at hceq
      subst hceq
      exact evalDetailed_pos p ops _ _ _ _ lat hEv
    | none =>
      rw [hEv] at hceq
      subst hceq
      exact hraw hlat
  · rw [if_neg hcase] at hceq
    subst hceq
    exact hraw hlat

theorem mem_halvingsAux_ge :
    ∀ (fuel : Nat) (v lo : Int), ∀ x ∈ halvingsDownTo.halvingsAux fuel v lo, lo ≤ x := by
  intro fuel
  induction fuel with
  | zero =>
    intro v lo x hx
    simp [halvingsDownTo.halvingsAux] at hx
  | succ n ih =>
    intro v lo x hx
    simp only [halvingsDownTo.halvingsAux] at hx
    split_ifs at hx with hv
    · rcases List.mem_cons.mp hx with hx | hx
      · omega
      · exact ih _ _ x hx
    · simp at hx

theorem mem_halvingsDownTo_ge (s lo : Int) : ∀ x ∈ halvingsDownTo s lo, lo ≤ x := by
  intro x hx
  exact mem_halvingsAux_ge s.toNat s lo x hx

theorem findSmallestFeasible_pos (p : Problem) (ops : List Nat) (R : List Nat) :
    1 ≤ (findSmallestFeasible p ops R).w ∧ 1 ≤ (findSmallestFeasible p ops R).h ∧
      1 ≤ (findSmallestFeasible p ops R).k := by
  simp only [findSmallestFeasible]
  cases hfind : ((halvingsDownTo p.nativeGranularity.1 1).flatMap
      (fun w => (halvingsDownTo p.nativeGranularity.2 1).flatMap
        (fun h => (if HasMatMul p ops then halvingsDownTo (GetMaxK p ops) 1
          else [GetMaxK p ops]).map (fun k => (⟨w, h, k⟩ : Gran))))).find?
      (fun g => decide (ComputeWorkingSet p ops g R ≤ p.fastMemoryCapacity)) with
  | none => exact ⟨le_refl 1, le_refl 1, le_refl 1⟩
  | some g =>
    have hmem := List.mem_of_find?_eq_some hfind
    rcases List.mem_flatMap.mp hmem with ⟨w, hw, hg1⟩
    rcases List.mem_flatMap.mp hg1 with ⟨h, hh, hg2⟩
    rcases List.mem_map.mp hg2 with ⟨k, hk, rfl⟩
    dsimp only
    refine ⟨mem_halvingsDownTo_ge _ _ w hw, mem_halvingsDownTo_ge _ _ h hh, ?_⟩
    revert hk
    split_ifs with hmm
    · exact fun hk => mem_halvingsDownTo_ge _ _ k hk
    · intro hk
      rw [List.mem_singleton.mp hk]
      exact getMaxK_ge_one p ops

theorem FindBestGranularity_pos (p : Problem) (ops : List Nat) (R : List Nat) :
    1 ≤ (FindBestGranularity p ops R).w ∧ 1 ≤ (FindBestGranularity p ops R).h ∧
      1 ≤ (FindBestGranularity p ops R).k := by
  simp only [FindBestGranularity]
  set best := (generateCandidates p ops R).foldl
    (fun (st : Option ℚ × Gran) c =>
      if c.feasible ∧ olt c.latency st.1 then (c.latency, ⟨c.w, c.h, c.k⟩) else st)
    (none, ⟨1, 1, 1⟩) with hbestdef
  obtain ⟨hle, hatt, hmin⟩ := bestFold_spec (generateCandidates p ops R) (none, ⟨1, 1, 1⟩)
  rw [← hbestdef] at hatt
  cases hbest : best.1 with
  | none =>
    dsimp only
    exact findSmallestFeasible_pos p ops R
  | some q =>
    dsimp only
    rcases hatt with h | ⟨c, hcmem, hcf, hcl, heq⟩
    · rw [h] at hbest
      simp at hbest
    · have h2 : best.2 = ⟨c.w, c.h, c.k⟩ := by rw [heq]
      rw [h2]
      exact generateCandidates_latency_pos p ops R c hcmem hcl

/-- The working set is smallest at granularity (1,1,1): each non-resident
boundary-input tile is at least one unit and the output tiles grow with
`w·h`; the resident terms do not depend on the granularity. -/
theorem workingSet_ge_one (p : Problem) (ops : List Nat) (R : List Nat) (g : Gran)
    (hw : 1 ≤ g.w) (hh : 1 ≤ g.h) (hk : 1 ≤ g.k) :
    ComputeWorkingSet p ops ⟨1, 1, 1⟩ R ≤ ComputeWorkingSet p ops g R := by
  rw [computeWorkingSet_eq_spec, computeWorkingSet_eq_spec]
  unfold specWorkingSet
  refine add_le_add (add_le_add ?_ ?_) (le_refl _)
  · refine List.sum_le_sum ?_
    intro t _
    by_cases hres : t ∈ R
    · simp [hres]
    · simp only [hres, if_false]
      unfold specRoleTileSize
      split_ifs <;> dsimp only <;> nlinarith
  · have hlen : (0 : Int) ≤ ((GetSubgraphBoundary p ops).boundaryOutputs.length : Int) :=
      Int.natCast_nonneg _
    have h1 : (1 : Int) ≤ g.w * g.h := by nlinarith
    have h2 := mul_le_mul_of_nonneg_right h1 hlen
    simpa using h2

/-- Either `FindBestGranularity` returns a granularity whose working set fits
under the given residency, or it fell through to the `(1,1,1)` fallback with
even `(1,1,1)` infeasible under that residency. -/
theorem FindBestGranularity_cases (p : Problem) (ops : List Nat) (R : List Nat)
    (hnw : 1 ≤ p.nativeGranularity.1) (hnh : 1 ≤ p.nativeGranularity.2) :
    ComputeWorkingSet p ops (FindBestGranularity p ops R) R ≤ p.fastMemoryCapacity ∨
    (FindBestGranularity p ops R = ⟨1, 1, 1⟩ ∧
      p.fastMemoryCapacity < ComputeWorkingSet p ops ⟨1, 1, 1⟩ R) := by
  simp only [FindBestGranularity]
  set best := (generateCandidates p ops R).foldl
    (fun (st : Option ℚ × Gran) c =>
      if c.feasible ∧ olt c.latency st.1 then (c.latency, ⟨c.w, c.h, c.k⟩) else st)
    (none, ⟨1, 1, 1⟩) with hbestdef
  obtain ⟨hle, hatt, hmin⟩ := bestFold_spec (generateCandidates p ops R) (none, ⟨1, 1, 1⟩)
  rw [← hbestdef] at hatt
  cases hbest : best.1 with
  | some q =>
    dsimp only
    rcases hatt with h | ⟨c, hcmem, hcf, hcl, heq⟩
    · rw [h] at hbest
      simp at hbest
    · left
      have h2 : best.2 = ⟨c.w, c.h, c.k⟩ := by rw [heq]
      rw [h2]
      exact generateCandidates_feasible_ws p ops R c hcmem hcf
  | none =>
    dsimp only
    simp only [findSmallestFeasible]
    cases hfind : ((halvingsDownTo p.nativeGranularity.1 1).flatMap
        (fun w => (halvingsDownTo p.nativeGranularity.2 1).flatMap
          (fun h => (if HasMatMul p ops then halvingsDownTo (GetMaxK p ops) 1
            else [GetMaxK p ops]).map (fun k => (⟨w, h, k⟩ : Gran))))).find?
        (fun g => decide (ComputeWorkingSet p ops g R ≤ p.fastMemoryCapacity)) with
    | some g =>
      left
      have hpred := List.find?_some hfind
      simpa using hpred
    | none =>
      right
      refine ⟨rfl, ?_⟩
      have hmem := one_one_one_mem_scan p ops hnw hnh
      have hlt := List.find?_eq_none.mp hfind _ hmem
      simp at hlt
      omega

/-! ### Recovery and the final idempotence theorem -/

theorem residencyConsistent_append (p : Problem) :
    ∀ (l1 l2 : List Subgraph) (r : List Nat),
      residencyConsistent p r l1 → residencyConsistent p (residAfter r l1) l2 →
      residencyConsistent p r (l1 ++ l2) := by
  intro l1
  induction l1 with
  | nil => intro l2 r _ h2; exact h2
  | cons sg l1' ih =>
    intro l2 r h1 h2
    exact ⟨h1.1, ih l2 sg.tensorsToRetain h1.2 h2⟩

theorem splitSingles_residAfter (p : Problem) :
    ∀ (ops resident : List Nat),
      residAfter resident (splitSingles p resident ops).1 =
        (splitSingles p resident ops).2 := by
  intro ops
  induction ops with
  | nil => intro r; rfl
  | cons o rest ih =>
    intro r
    simp only [splitSingles]
    show residAfter ([] : List Nat) (splitSingles p [] rest).1 = (splitSingles p [] rest).2
    exact ih []

theorem splitSingles_consistent (p : Problem)
    (hnw : 1 ≤ p.nativeGranularity.1) (hnh : 1 ≤ p.nativeGranularity.2) :
    ∀ (ops resident : List Nat),
      residencyConsistent p resident (splitSingles p resident ops).1 := by
  intro ops
  induction ops with
  | nil => intro r; trivial
  | cons o rest ih =>
    intro r
    simp only [splitSingles]
    split_ifs with hover
    · refine ⟨?_, ih []⟩
      intro hwseval latI hEv
      dsimp only at hwseval
      exfalso
      rcases FindBestGranularity_cases p [o] r hnw hnh with hfeas | ⟨h111, hgt⟩
      · exact absurd hfeas (not_le.mpr hover)
      · obtain ⟨hpw, hph, hpk⟩ := FindBestGranularity_pos p [o] []
        have hmono := workingSet_ge_one p [o] r (FindBestGranularity p [o] [])
          hpw hph hpk
        omega
    · refine ⟨?_, ih []⟩
      intro _ latI hEv
      rw [hEv]
      rfl

theorem recoverAux_consistent (p : Problem)
    (hnw : 1 ≤ p.nativeGranularity.1) (hnh : 1 ≤ p.nativeGranularity.2) :
    ∀ (sgs : List Subgraph) (resident : List Nat),
      residencyConsistent p resident (recoverAux p resident sgs) := by
  intro sgs
  induction sgs with
  | nil => intro r; trivial
  | cons sg rest ih =>
    intro r
    simp only [recoverAux]
    split_ifs with hws
    · refine residencyConsistent_append p _ _ _
        (splitSingles_consistent p hnw hnh _ r) ?_
      rw [splitSingles_residAfter]
      exact ih _
    · refine ⟨?_, ih _⟩
      intro _ latI hEv
      rw [hEv]
      rfl

theorem solveOptimized_consistent (p : Problem) (iterOrders : List (List Nat))
    (hnw : 1 ≤ p.nativeGranularity.1) (hnh : 1 ≤ p.nativeGranularity.2) :
    residencyConsistent p [] (SolveOptimized p iterOrders).subgraphs := by
  simp only [SolveOptimized]
  cases h1 : EvaluateSolution p (OptimizeSchedule p iterOrders) with
  | some lat =>
    dsimp only
    exact optimizeSchedule_consistent p iterOrders
  | none =>
    dsimp only
    cases h2 : EvaluateSolution p (recoverSolution p (OptimizeSchedule p iterOrders)) with
    | some lat2 =>
      dsimp only
      simp only [recoverSolution]
      exact recoverAux_consistent p hnw hnh _ []
    | none =>
      dsimp only
      exact baselineSolution_consistent p

theorem evaluateSolution_some_aux (p : Problem) (sol : Solution) (lat : ℚ)
    (h : EvaluateSolution p sol = some lat) :
    EvaluateSolutionAux p [] sol.subgraphs = some lat := by
  simp only [EvaluateSolution] at h
  split_ifs at h with hall
  exact h

/-- C2: evaluation is idempotent on the solver's output.  If the native
granularity is positive (both components at least 1) and
`EvaluateSolution p (SolveOptimized p)` succeeds with latency `lat`, then
`lat` is exactly the sum of the `SubgraphLatency` values stored on the
solution's subgraphs (`solutionTotalStored`), and for every subgraph the
detailed latency recomputed by the evaluator — under the residency induced
by the previous subgraph's retention set — is exactly the stored latency
(`evalChainOK`; the 1e-6 tolerance of the claim is exact equality in ℚ). -/
theorem C2_evaluation_idempotent (p : Problem) (iterOrders : List (List Nat))
    (lat : ℚ) (hnw : 1 ≤ p.nativeGranularity.1) (hnh : 1 ≤ p.nativeGranularity.2)
    (heval : EvaluateSolution p (SolveOptimized p iterOrders) = some lat) :
    lat = solutionTotalStored (SolveOptimized p iterOrders) ∧
    evalChainOK p [] (SolveOptimized p iterOrders).subgraphs := by
  have haux := evaluateSolution_some_aux p _ lat heval
  have hcons := solveOptimized_consistent p iterOrders hnw hnh
  exact evaluateSolutionAux_spec p _ [] lat hcons haux

/-- C2 witness: on the one-op problem `pWitness` the solver's solution
evaluates to 32, which is the stored total, and re-evaluation reproduces the
stored per-subgraph latency. -/
theorem C2_evaluation_idempotent_witness :
    (1 : Int) ≤ pWitness.nativeGranularity.1 ∧
    (1 : Int) ≤ pWitness.nativeGranularity.2 ∧
    EvaluateSolution pWitness (SolveOptimized pWitness []) = some 32 ∧
    ((32 : ℚ) = solutionTotalStored (SolveOptimized pWitness []) ∧
      evalChainOK pWitness [] (SolveOptimized pWitness []).subgraphs) :=
  ⟨by decide, by decide, by with_unfolding_all decide,
    C2_evaluation_idempotent pWitness [] 32 (by decide) (by decide)
      (by with_unfolding_all decide)⟩

end DagOpt
